import Mathlib

/-!
# Lexical analysis front end of the teaching compiler

A shallow embedding of `src/Lexical_Analysis/Lexer.cpp` (the canonical scanning engine)
together with `Token.h`.

* `std::string` is a `List Char`; one `Char` stands for one byte of the buffer.
* The class `Lexer` becomes a record that is passed explicitly; a member function that
  mutates the object returns the new record.
* Every `while` loop becomes a function that is recursive on an explicit fuel argument and
  answers `none` when the fuel is used up, so `some` always means that the loop really ended.
* An `int` (the line counter, the line of a token and of a diagnostic) is an `Int`; the
  increment `++line` stores `wrapInt (line + 1)`, the value a 32-bit two's complement `int`
  holds afterwards, so the counter goes from 2147483647 to -2147483648 (the result the
  compiled program computes; the C++ standard leaves signed overflow undefined).
* `writeOutputs` returns the contents of the two files; `none` means the file is not opened.
-/

/-- A `std::string`: the sequence of its bytes. -/
abbrev Str := List Char

/-- The `enum class TokenType` of `Token.h`. -/
inductive TokenType where
  | IDENFR | INTCON | STRCON
  | CONSTTK | INTTK | MAINTK | BREAKTK | CONTINUETK | IFTK | ELSETK
  | FORTK | PRINTFTK | RETURNTK | VOIDTK | STATICTK
  | PLUS | MINU | MULT | DIV | MOD
  | LSS | LEQ | GRE | GEQ | EQL | NEQ | ASSIGN
  | NOT | AND | OR
  | SEMICN | COMMA | LPARENT | RPARENT | LBRACK | RBRACK | LBRACE | RBRACE
  | UNKNOWN
deriving DecidableEq, Repr

/-- The function `tokenTypeToString` of `Token.h`. -/
def tokenTypeToString : TokenType → Str
  | .IDENFR => "IDENFR".toList
  | .INTCON => "INTCON".toList
  | .STRCON => "STRCON".toList
  | .CONSTTK => "CONSTTK".toList
  | .INTTK => "INTTK".toList
  | .MAINTK => "MAINTK".toList
  | .BREAKTK => "BREAKTK".toList
  | .CONTINUETK => "CONTINUETK".toList
  | .IFTK => "IFTK".toList
  | .ELSETK => "ELSETK".toList
  | .FORTK => "FORTK".toList
  | .PRINTFTK => "PRINTFTK".toList
  | .RETURNTK => "RETURNTK".toList
  | .VOIDTK => "VOIDTK".toList
  | .STATICTK => "STATICTK".toList
  | .PLUS => "PLUS".toList
  | .MINU => "MINU".toList
  | .MULT => "MULT".toList
  | .DIV => "DIV".toList
  | .MOD => "MOD".toList
  | .LSS => "LSS".toList
  | .LEQ => "LEQ".toList
  | .GRE => "GRE".toList
  | .GEQ => "GEQ".toList
  | .EQL => "EQL".toList
  | .NEQ => "NEQ".toList
  | .ASSIGN => "ASSIGN".toList
  | .NOT => "NOT".toList
  | .AND => "AND".toList
  | .OR => "OR".toList
  | .SEMICN => "SEMICN".toList
  | .COMMA => "COMMA".toList
  | .LPARENT => "LPARENT".toList
  | .RPARENT => "RPARENT".toList
  | .LBRACK => "LBRACK".toList
  | .RBRACK => "RBRACK".toList
  | .LBRACE => "LBRACE".toList
  | .RBRACE => "RBRACE".toList
  | .UNKNOWN => "UNKNOWN".toList

/-- The `struct Token` of `Token.h`. -/
structure Token where
  type : TokenType
  lexeme : Str
  line : Int
deriving DecidableEq, Repr

/-- The end-of-input sentinel returned by `peek` and `get`, the byte 0. -/
def NUL : Char := Char.ofNat 0

/-- The newline byte. -/
def NL : Char := Char.ofNat 10

/-- The double quote byte. -/
def DQUOTE : Char := Char.ofNat 34

/-- The backslash byte. -/
def BSLASH : Char := Char.ofNat 92

/-- The classification `std::isspace` in the "C" locale: space, and the bytes 9 to 13
(tab, newline, vertical tab, form feed, carriage return). -/
def isspace (c : Char) : Bool := c.toNat == 32 || (9 ≤ c.toNat && c.toNat ≤ 13)

/-- The classification `std::isdigit`: the bytes `0` to `9`. -/
def isdigit (c : Char) : Bool := 48 ≤ c.toNat && c.toNat ≤ 57

/-- The classification `std::isalpha` in the "C" locale: `A` to `Z` and `a` to `z`. -/
def isalpha (c : Char) : Bool :=
  (65 ≤ c.toNat && c.toNat ≤ 90) || (97 ≤ c.toNat && c.toNat ≤ 122)

/-- The classification `std::isalnum`. -/
def isalnum (c : Char) : Bool := isalpha c || isdigit c

/-- The lines of a text file, read with the accumulator `cur` holding the line in progress:
every newline byte ends a line, and bytes after the last newline form a last line. -/
def linesFrom : Str → Str → List Str
  | [], cur => if cur = [] then [] else [cur]
  | c :: cs, cur => if c = NL then cur :: linesFrom cs [] else linesFrom cs (cur ++ [c])

/-- The lines of a text file. -/
def fileLines (text : Str) : List Str := linesFrom text []

/-- The number of newline bytes in a string. -/
def newlines (s : Str) : Nat := s.count NL

/-- The value a 32-bit two's complement `int` holds when the arithmetic result `x` is stored
in it: `x` reduced modulo `2^32` into the range from -2147483648 to 2147483647. -/
def wrapInt (x : Int) : Int := (x + 2147483648) % 4294967296 - 2147483648

namespace LexicalAnalysis

/-- The table filled by `Lexer::initKeywords`. -/
def initKeywords : List (Str × TokenType) :=
  [ ("const".toList, .CONSTTK), ("int".toList, .INTTK), ("main".toList, .MAINTK),
    ("break".toList, .BREAKTK), ("continue".toList, .CONTINUETK), ("if".toList, .IFTK),
    ("else".toList, .ELSETK), ("for".toList, .FORTK), ("printf".toList, .PRINTFTK),
    ("return".toList, .RETURNTK), ("void".toList, .VOIDTK), ("static".toList, .STATICTK) ]

/-- The map filled by `Lexer::initDefaultErrorMap`. -/
def initDefaultErrorMap : List (Str × Str) :=
  [ ("single&".toList, "a".toList), ("single|".toList, "b".toList),
    ("unterminated_string".toList, "c".toList), ("illegal_char".toList, "d".toList) ]

/-- The members of `class Lexer` that scanning reads or writes. The keyword table is the
constant `initKeywords`. -/
structure Lexer where
  input : Str
  pos : Nat
  line : Int
  tokens : List Token
  errors : List (Int × Str)
  errorCodeMap : List (Str × Str)
deriving DecidableEq, Repr

/-- The constructor `Lexer::Lexer` once the file has been read into `input`, with the
error-code map the scan is run with (`initDefaultErrorMap` unless `setErrorCodeFor` is used). -/
def Lexer.new (input : Str) (errorCodeMap : List (Str × Str)) : Lexer :=
  { input := input, pos := 0, line := 1, tokens := [], errors := [],
    errorCodeMap := errorCodeMap }

/-- The expression `errorCodeMap[key]`: the bound code, the empty string for an absent key. -/
def Lexer.code (L : Lexer) (key : Str) : Str :=
  match L.errorCodeMap.lookup key with
  | some c => c
  | none => []

/-- The function `Lexer::setErrorCodeFor`. -/
def Lexer.setErrorCodeFor (L : Lexer) (key code : Str) : Lexer :=
  { L with errorCodeMap := (key, code) :: L.errorCodeMap.filter (fun e => e.1 != key) }

/-- The function `Lexer::eof`. -/
def Lexer.eof (L : Lexer) : Bool := decide (L.pos ≥ L.input.length)

/-- The function `Lexer::peek`. -/
def Lexer.peek (L : Lexer) : Char :=
  if L.pos ≥ L.input.length then NUL else L.input.getD L.pos NUL

/-- The function `Lexer::get`: the byte read and the lexer after the call. -/
def Lexer.get (L : Lexer) : Char × Lexer :=
  if L.pos ≥ L.input.length then (NUL, L)
  else
    let c := L.input.getD L.pos NUL
    (c, { L with pos := L.pos + 1, line := if c = NL then wrapInt (L.line + 1) else L.line })

/-- The function `Lexer::recordError`. -/
def Lexer.recordError (L : Lexer) (lineNo : Int) (code : Str) : Lexer :=
  { L with errors := L.errors ++ [(lineNo, code)] }

/-- The call `tokens.emplace_back(type, lexeme, line)`. -/
def Lexer.emplace (L : Lexer) (type : TokenType) (lexeme : Str) (line : Int) : Lexer :=
  { L with tokens := L.tokens ++ [⟨type, lexeme, line⟩] }

/-- The loop `while (!eof() && std::isspace(peek())) get();`. -/
def Lexer.skipSpaces : Nat → Lexer → Option Lexer
  | 0, _ => none
  | fuel + 1, L =>
    if !L.eof && isspace L.peek then Lexer.skipSpaces fuel L.get.2 else some L

/-- The loop `while (!eof() && peek() != '\n') get();` of a line comment. -/
def Lexer.skipLine : Nat → Lexer → Option Lexer
  | 0, _ => none
  | fuel + 1, L =>
    if !L.eof && L.peek != NL then Lexer.skipLine fuel L.get.2 else some L

/-- The loop of a block comment:
`while (!eof()) { c = get(); if (c == 0) break; if (c == '*' && peek() == '/') { get(); break; } }`. -/
def Lexer.skipBlock : Nat → Lexer → Option Lexer
  | 0, _ => none
  | fuel + 1, L =>
    if !L.eof then
      let c := L.get.1
      let L1 := L.get.2
      if c = NUL then some L1
      else if c = '*' && L1.peek = '/' then some L1.get.2
      else Lexer.skipBlock fuel L1
    else some L

/-- The loop `while (again)` of `Lexer::skipWhitespaceAndComments`; a recursive call is an
iteration that set `again = true`. -/
def Lexer.skipLoop : Nat → Lexer → Option Lexer
  | 0, _ => none
  | fuel + 1, L =>
    match Lexer.skipSpaces (L.input.length + 1) L with
    | none => none
    | some L1 =>
      if !L1.eof && L1.peek = '/' then
        if L1.pos + 1 < L1.input.length && L1.input.getD (L1.pos + 1) NUL = '/' then
          match Lexer.skipLine (L1.input.length + 1) L1.get.2.get.2 with
          | none => none
          | some L2 => Lexer.skipLoop fuel L2
        else if L1.pos + 1 < L1.input.length && L1.input.getD (L1.pos + 1) NUL = '*' then
          match Lexer.skipBlock (L1.input.length + 1) L1.get.2.get.2 with
          | none => none
          | some L2 => Lexer.skipLoop fuel L2
        else some L1
      else some L1

/-- The function `Lexer::skipWhitespaceAndComments`. -/
def Lexer.skipWhitespaceAndComments (L : Lexer) : Option Lexer :=
  Lexer.skipLoop (L.input.length + 1) L

/-- The loop of `Lexer::readIdentifierOrKeyword`, on the local string `s`:
`while (!eof() && (std::isalnum(peek()) || peek() == '_')) s.push_back(get());`. -/
def Lexer.identLoop : Nat → Str → Lexer → Option (Str × Lexer)
  | 0, _, _ => none
  | fuel + 1, s, L =>
    if !L.eof && (isalnum L.peek || L.peek = '_') then
      Lexer.identLoop fuel (s ++ [L.get.1]) L.get.2
    else some (s, L)

/-- The function `Lexer::readIdentifierOrKeyword`. -/
def Lexer.readIdentifierOrKeyword (L : Lexer) : Option Lexer :=
  let startLine := L.line
  match Lexer.identLoop (L.input.length + 1) [] L with
  | none => none
  | some (s, L1) =>
    match initKeywords.lookup s with
    | some k => some (L1.emplace k s startLine)
    | none => some (L1.emplace .IDENFR s startLine)

/-- The loop of `Lexer::readNumber`:
`while (!eof() && std::isdigit(peek())) s.push_back(get());`. -/
def Lexer.numberLoop : Nat → Str → Lexer → Option (Str × Lexer)
  | 0, _, _ => none
  | fuel + 1, s, L =>
    if !L.eof && isdigit L.peek then Lexer.numberLoop fuel (s ++ [L.get.1]) L.get.2
    else some (s, L)

/-- The function `Lexer::readNumber`. -/
def Lexer.readNumber (L : Lexer) : Option Lexer :=
  let startLine := L.line
  match Lexer.numberLoop (L.input.length + 1) [] L with
  | none => none
  | some (s, L1) => some (L1.emplace .INTCON s startLine)

/-- The loop of `Lexer::readString`, on the locals `s` and `closed`. -/
def Lexer.stringLoop : Nat → Str → Lexer → Option (Str × Bool × Lexer)
  | 0, _, _ => none
  | fuel + 1, s, L =>
    if !L.eof then
      let c := L.get.1
      let L1 := L.get.2
      let s1 := s ++ [c]
      if c = DQUOTE then some (s1, true, L1)
      else if c = BSLASH && !L1.eof then
        Lexer.stringLoop fuel (s1 ++ [L1.get.1]) L1.get.2
      else Lexer.stringLoop fuel s1 L1
    else some (s, false, L)

/-- The function `Lexer::readString`. -/
def Lexer.readString (L : Lexer) : Option Lexer :=
  let startLine := L.line
  match Lexer.stringLoop (L.input.length + 1) [L.get.1] L.get.2 with
  | none => none
  | some (s, closed, L1) =>
    if !closed then
      some ((L1.recordError startLine (L1.code "unterminated_string".toList)).emplace
        .STRCON s startLine)
    else some (L1.emplace .STRCON s startLine)

/-- The `switch (c)` over the single-character tokens; `none` is the `default:` label. -/
def singleCharKind (c : Char) : Option TokenType :=
  if c = '+' then some .PLUS
  else if c = '-' then some .MINU
  else if c = '*' then some .MULT
  else if c = '/' then some .DIV
  else if c = '%' then some .MOD
  else if c = ';' then some .SEMICN
  else if c = ',' then some .COMMA
  else if c = '(' then some .LPARENT
  else if c = ')' then some .RPARENT
  else if c = '[' then some .LBRACK
  else if c = ']' then some .RBRACK
  else if c = Char.ofNat 123 then some .LBRACE
  else if c = Char.ofNat 125 then some .RBRACE
  else none

/-- The function `Lexer::readOperatorOrDelimiter`. -/
def Lexer.readOperatorOrDelimiter (L : Lexer) : Lexer :=
  let startLine := L.line
  let c := L.peek
  let L1 := L.get.2
  if c = '&' then
    if L1.peek = '&' then L1.get.2.emplace .AND "&&".toList startLine
    else (L1.recordError startLine (L1.code "single&".toList)).emplace .UNKNOWN "&".toList
      startLine
  else if c = '|' then
    if L1.peek = '|' then L1.get.2.emplace .OR "||".toList startLine
    else (L1.recordError startLine (L1.code "single|".toList)).emplace .UNKNOWN "|".toList
      startLine
  else if c = '=' then
    if L1.peek = '=' then L1.get.2.emplace .EQL "==".toList startLine
    else L1.emplace .ASSIGN "=".toList startLine
  else if c = '!' then
    if L1.peek = '=' then L1.get.2.emplace .NEQ "!=".toList startLine
    else L1.emplace .NOT "!".toList startLine
  else if c = '<' then
    if L1.peek = '=' then L1.get.2.emplace .LEQ "<=".toList startLine
    else L1.emplace .LSS "<".toList startLine
  else if c = '>' then
    if L1.peek = '=' then L1.get.2.emplace .GEQ ">=".toList startLine
    else L1.emplace .GRE ">".toList startLine
  else
    match singleCharKind c with
    | some k => L1.emplace k [c] startLine
    | none =>
      (L1.recordError startLine (L1.code "illegal_char".toList)).emplace .UNKNOWN [c] startLine

/-- The loop `while (!eof())` of `Lexer::tokenize`. -/
def Lexer.tokenizeLoop : Nat → Lexer → Option Lexer
  | 0, _ => none
  | fuel + 1, L =>
    if !L.eof then
      match L.skipWhitespaceAndComments with
      | none => none
      | some L1 =>
        if L1.eof then some L1
        else
          let c := L1.peek
          if isalpha c || c = '_' then
            match L1.readIdentifierOrKeyword with
            | none => none
            | some L2 => Lexer.tokenizeLoop fuel L2
          else if isdigit c then
            match L1.readNumber with
            | none => none
            | some L2 => Lexer.tokenizeLoop fuel L2
          else if c = DQUOTE then
            match L1.readString with
            | none => none
            | some L2 => Lexer.tokenizeLoop fuel L2
          else Lexer.tokenizeLoop fuel L1.readOperatorOrDelimiter
    else some L

/-- The function `Lexer::tokenize`. -/
def Lexer.tokenize (L : Lexer) : Option Lexer :=
  Lexer.tokenizeLoop (L.input.length + 1) L

/-- The comparison `operator<` of `std::string`: lexicographic on the bytes, a proper
initial segment before the longer string. -/
def strLess : Str → Str → Bool
  | _, [] => false
  | [], _ :: _ => true
  | a :: as, b :: bs =>
    if a.toNat < b.toNat then true
    else if b.toNat < a.toNat then false
    else strLess as bs

/-- The comparator passed to `std::sort` in `Lexer::writeOutputs`. -/
def errorLess (a b : Int × Str) : Bool :=
  if a.1 ≠ b.1 then decide (a.1 < b.1) else strLess a.2 b.2

/-- The relation "`b` does not have to come before `a`" of the comparator. -/
def errorLe (a b : Int × Str) : Prop := errorLess b a = false

instance : DecidableRel errorLe := fun a b => inferInstanceAs (Decidable (errorLess b a = false))

/-- The call `std::sort(errors.begin(), errors.end(), comparator)`. Two pairs that the
comparator orders in neither direction are equal, so the result of the library call is the
one arrangement of the pairs that is ascending for the comparator; insertion sort computes
it. -/
def sortErrors (l : List (Int × Str)) : List (Int × Str) := l.insertionSort errorLe

/-- The text `operator<<` writes for an `int`: its decimal digits, after a minus sign when it
is negative. -/
def intToStr : Int → Str
  | Int.ofNat n => Nat.toDigits 10 n
  | Int.negSucc n => '-' :: Nat.toDigits 10 (n + 1)

/-- What `Lexer::writeOutputs` writes for one diagnostic: `e.first << " " << e.second << "\n"`. -/
def errorEntry (e : Int × Str) : Str := intToStr e.1 ++ [' '] ++ e.2 ++ [NL]

/-- What `Lexer::writeOutputs` writes for one token:
`tokenTypeToString(t.type) << " " << t.lexeme << "\n"`. -/
def tokenEntry (t : Token) : Str := tokenTypeToString t.type ++ [' '] ++ t.lexeme ++ [NL]

/-- The two files of `Lexer::writeOutputs`: the bytes written to each, `none` for a file
that is not opened. -/
structure Outputs where
  lexerFile : Option Str
  errorFile : Option Str
deriving DecidableEq, Repr

/-- The function `Lexer::writeOutputs`: the lexer after the call (the diagnostics are sorted
in place) and the files written. -/
def Lexer.writeOutputs (L : Lexer) : Lexer × Outputs :=
  if !L.errors.isEmpty then
    let sorted := sortErrors L.errors
    ({ L with errors := sorted },
      { lexerFile := none, errorFile := some (sorted.map errorEntry).flatten })
  else
    (L, { lexerFile := some (L.tokens.map tokenEntry).flatten, errorFile := none })

/-- The host `main` of `Compiler.cpp` on the contents of the input file: construct the lexer,
`tokenize`, `writeOutputs`. -/
def compile (input : Str) : Option Outputs :=
  match (Lexer.new input initDefaultErrorMap).tokenize with
  | none => none
  | some L => some L.writeOutputs.2

/-! ## The scan as a function of the remaining input

The tokens and diagnostics of a run depend only on the bytes after the cursor, the line
counter and the error-code map. The functions below compute them from that remainder, and
`tokenize_eq` shows that `Lexer.tokenize` returns exactly what they compute. -/

/-- The cursor of `L` stands before the remainder `r` of the buffer. -/
def Lexer.At (L : Lexer) (r : Str) : Prop :=
  L.pos ≤ L.input.length ∧ L.input.drop L.pos = r

/-- The line counter after `k` increments `++line` from the value `line`. -/
def addLines (line : Int) (k : Nat) : Int := Nat.iterate (fun x => wrapInt (x + 1)) k line

/-- The lexer after the bytes `taken` have been read by calls of `get`. -/
def Lexer.advance (L : Lexer) (taken : Str) : Lexer :=
  { L with pos := L.pos + taken.length, line := addLines L.line (newlines taken) }

/-- The bytes the loop of a block comment reads from the remainder, and the bytes it leaves. -/
def splitBlock : Str → Str × Str
  | [] => ([], [])
  | c :: cs =>
    if c = NUL then ([c], cs)
    else if c = '*' && cs.headD NUL = '/' then (c :: cs.take 1, cs.drop 1)
    else (c :: (splitBlock cs).1, (splitBlock cs).2)

/-- The bytes the loop of `readString` reads after the opening quote, whether it met the
closing quote, and the bytes it leaves. -/
def splitString : Str → Str × Bool × Str
  | [] => ([], false, [])
  | c :: cs =>
    if c = DQUOTE then ([c], true, cs)
    else if c = BSLASH then
      match cs with
      | [] => ([c], false, [])
      | d :: ds => (c :: d :: (splitString ds).1, (splitString ds).2.1, (splitString ds).2.2)
    else (c :: (splitString cs).1, (splitString cs).2.1, (splitString cs).2.2)

/-- The bytes `skipWhitespaceAndComments` reads from the remainder, and the bytes it leaves. -/
def splitSkip (r : Str) : Str × Str :=
  match h : r.dropWhile isspace with
  | c :: d :: t =>
    if c = '/' && d = '/' then
      (r.takeWhile isspace ++ c :: d :: (t.takeWhile (fun x => x != NL)
        ++ (splitSkip (t.dropWhile (fun x => x != NL))).1),
        (splitSkip (t.dropWhile (fun x => x != NL))).2)
    else if c = '/' && d = '*' then
      (r.takeWhile isspace ++ c :: d :: ((splitBlock t).1 ++ (splitSkip (splitBlock t).2).1),
        (splitSkip (splitBlock t).2).2)
    else (r.takeWhile isspace, c :: d :: t)
  | r1 => (r.takeWhile isspace, r1)
termination_by r.length
decreasing_by
  all_goals simp_wf
  all_goals
    have h1 := (List.dropWhile_suffix (l := r) isspace).length_le
    have h2 := (List.dropWhile_suffix (l := t) (fun x => x != NL)).length_le
    have h3 : ∀ u : Str, (splitBlock u).2.length ≤ u.length := by
      intro u
      induction u with
      | nil => simp [splitBlock]
      | cons c cs ih =>
        unfold splitBlock
        split
        · simp
        · split <;> (simp; omega)
    have h4 := h3 t
    rw [h] at h1
    simp at h1
    omega

/-- The expression `errorCodeMap[key]` on a map. -/
def codeOf (map : List (Str × Str)) (key : Str) : Str :=
  match map.lookup key with
  | some c => c
  | none => []

/-- The bytes of an identifier: `std::isalnum(c) || c == '_'`. -/
def isIdent (c : Char) : Bool := isalnum c || c = '_'

/-- The kind `readIdentifierOrKeyword` gives to the spelling `s`. -/
def wordKind (s : Str) : TokenType :=
  match initKeywords.lookup s with
  | some k => k
  | none => .IDENFR

/-- One call of `readOperatorOrDelimiter` on the remainder `c :: t` at line `line`: the token,
the diagnostics recorded, and the remainder left. -/
def lexOperator (map : List (Str × Str)) (c : Char) (t : Str) (line : Int) :
    Token × List (Int × Str) × Str :=
  if c = '&' then
    if t.headD NUL = '&' then (⟨.AND, "&&".toList, line⟩, [], t.drop 1)
    else (⟨.UNKNOWN, "&".toList, line⟩, [(line, codeOf map "single&".toList)], t)
  else if c = '|' then
    if t.headD NUL = '|' then (⟨.OR, "||".toList, line⟩, [], t.drop 1)
    else (⟨.UNKNOWN, "|".toList, line⟩, [(line, codeOf map "single|".toList)], t)
  else if c = '=' then
    if t.headD NUL = '=' then (⟨.EQL, "==".toList, line⟩, [], t.drop 1)
    else (⟨.ASSIGN, "=".toList, line⟩, [], t)
  else if c = '!' then
    if t.headD NUL = '=' then (⟨.NEQ, "!=".toList, line⟩, [], t.drop 1)
    else (⟨.NOT, "!".toList, line⟩, [], t)
  else if c = '<' then
    if t.headD NUL = '=' then (⟨.LEQ, "<=".toList, line⟩, [], t.drop 1)
    else (⟨.LSS, "<".toList, line⟩, [], t)
  else if c = '>' then
    if t.headD NUL = '=' then (⟨.GEQ, ">=".toList, line⟩, [], t.drop 1)
    else (⟨.GRE, ">".toList, line⟩, [], t)
  else
    match singleCharKind c with
    | some k => (⟨k, [c], line⟩, [], t)
    | none => (⟨.UNKNOWN, [c], line⟩, [(line, codeOf map "illegal_char".toList)], t)

/-- One dispatch of `tokenize` on the remainder `c :: t` at line `line`: the token, the
diagnostics recorded, and the remainder left. -/
def lexToken (map : List (Str × Str)) (c : Char) (t : Str) (line : Int) :
    Token × List (Int × Str) × Str :=
  if isalpha c || c = '_' then
    (⟨wordKind ((c :: t).takeWhile isIdent), (c :: t).takeWhile isIdent, line⟩, [],
      (c :: t).dropWhile isIdent)
  else if isdigit c then
    (⟨.INTCON, (c :: t).takeWhile isdigit, line⟩, [], (c :: t).dropWhile isdigit)
  else if c = DQUOTE then
    (⟨.STRCON, c :: (splitString t).1, line⟩,
      if (splitString t).2.1 then [] else [(line, codeOf map "unterminated_string".toList)],
      (splitString t).2.2)
  else lexOperator map c t line

/-- The tokens and the diagnostics `tokenize` adds when the cursor stands before the
remainder `r` at line `line`. (The test on the lengths always succeeds, see
`lexToken_length`; it is what makes the recursion visibly terminate.) -/
def lex (map : List (Str × Str)) (r : Str) (line : Int) : List Token × List (Int × Str) :=
  match (splitSkip r).2 with
  | [] => ([], [])
  | c :: t =>
    let line1 := addLines line (newlines (splitSkip r).1)
    let step := lexToken map c t line1
    if _h : step.2.2.length < r.length then
      let more := lex map step.2.2 (addLines line1 (newlines step.1.lexeme))
      (step.1 :: more.1, step.2.1 ++ more.2)
    else ([step.1], step.2.1)
termination_by r.length

/-- The lexer after the bytes `taken` have been read and the tokens `toks` and the
diagnostics `errs` have been appended. -/
def Lexer.after (L : Lexer) (taken : Str) (toks : List Token) (errs : List (Int × Str)) :
    Lexer :=
  { L with pos := L.pos + taken.length, line := addLines L.line (newlines taken),
           tokens := L.tokens ++ toks, errors := L.errors ++ errs }

/-- The codes a scan with the map `map` can record. -/
def codesOf (map : List (Str × Str)) : List Str :=
  [codeOf map "single&".toList, codeOf map "single|".toList,
    codeOf map "unterminated_string".toList, codeOf map "illegal_char".toList]

/-- A unit of the body of a string literal: one byte other than the double quote and the
backslash, or a backslash followed by any one byte. -/
def isUnit : Str → Bool
  | [c] => c != DQUOTE && c != BSLASH
  | [c, _] => c == BSLASH
  | _ => false

/-- Whether the two bytes `*/` occur next to each other in `s`. -/
def closesComment : Str → Bool
  | c :: d :: t => (c == '*' && d == '/') || closesComment (d :: t)
  | _ => false

/-- Whether `//` or `/*` occurs in `s`. -/
def opensComment : Str → Bool
  | c :: d :: t => (c == '/' && (d == '/' || d == '*')) || opensComment (d :: t)
  | _ => false

/-- Whether a lexeme of a string literal, rescanned after its opening quote, runs out before a
closing quote: the literal is unterminated. -/
def unterminated (lexeme : Str) : Bool := !(splitString lexeme.tail).2.1

/-- The diagnostic that goes with a token under the default error-code map: `a`, `b` or `d`
for an `UNKNOWN` token, by its lexeme; `c` for an unterminated string literal; none for any
other token. -/
def diagOf (t : Token) : List (Int × Str) :=
  if t.type = .UNKNOWN then
    [(t.line, if t.lexeme = "&".toList then "a".toList
      else if t.lexeme = "|".toList then "b".toList else "d".toList)]
  else if t.type = .STRCON ∧ unterminated t.lexeme = true then [(t.line, "c".toList)]
  else []

end LexicalAnalysis

/-! ## The lenient engine

A shallow embedding of `src/My_compiler/Lexer.cpp`. Both engines are written against the one
class declaration of `Lexer.h`, so the lenient engine works on the same record `Lexer`; each
of its member functions is translated from its own source text. -/

namespace MyCompiler

/-- The table filled by `Lexer::initKeywords` of the lenient engine. -/
def initKeywords : List (Str × TokenType) :=
  [ ("const".toList, .CONSTTK), ("int".toList, .INTTK), ("main".toList, .MAINTK),
    ("break".toList, .BREAKTK), ("continue".toList, .CONTINUETK), ("if".toList, .IFTK),
    ("else".toList, .ELSETK), ("for".toList, .FORTK), ("printf".toList, .PRINTFTK),
    ("return".toList, .RETURNTK), ("void".toList, .VOIDTK), ("static".toList, .STATICTK) ]

/-- The map filled by `Lexer::initDefaultErrorMap` of the lenient engine: one code for both
keys. -/
def initDefaultErrorMap : List (Str × Str) :=
  [ ("single&".toList, "a".toList), ("single|".toList, "a".toList) ]

/-- The constructor `Lexer::Lexer` of the lenient engine once the file has been read. -/
def Lexer.new (input : Str) (errorCodeMap : List (Str × Str)) : LexicalAnalysis.Lexer :=
  { input := input, pos := 0, line := 1, tokens := [], errors := [],
    errorCodeMap := errorCodeMap }

/-- The expression `errorCodeMap[key]`. -/
def Lexer.code (L : LexicalAnalysis.Lexer) (key : Str) : Str :=
  match L.errorCodeMap.lookup key with
  | some c => c
  | none => []

/-- The function `Lexer::eof` of the lenient engine. -/
def Lexer.eof (L : LexicalAnalysis.Lexer) : Bool := decide (L.pos ≥ L.input.length)

/-- The function `Lexer::peek` of the lenient engine. -/
def Lexer.peek (L : LexicalAnalysis.Lexer) : Char :=
  if L.pos ≥ L.input.length then NUL else L.input.getD L.pos NUL

/-- The function `Lexer::get` of the lenient engine. -/
def Lexer.get (L : LexicalAnalysis.Lexer) : Char × LexicalAnalysis.Lexer :=
  if L.pos ≥ L.input.length then (NUL, L)
  else
    let c := L.input.getD L.pos NUL
    (c, { L with pos := L.pos + 1, line := if c = NL then wrapInt (L.line + 1) else L.line })

/-- The function `Lexer::recordError` of the lenient engine. -/
def Lexer.recordError (L : LexicalAnalysis.Lexer) (lineNo : Int) (code : Str) :
    LexicalAnalysis.Lexer :=
  { L with errors := L.errors ++ [(lineNo, code)] }

/-- The call `tokens.emplace_back(type, lexeme, line)`. -/
def Lexer.emplace (L : LexicalAnalysis.Lexer) (type : TokenType) (lexeme : Str) (line : Int) :
    LexicalAnalysis.Lexer :=
  { L with tokens := L.tokens ++ [⟨type, lexeme, line⟩] }

/-- The loop `while (!eof() && std::isspace(peek())) get();` of the lenient engine. -/
def Lexer.skipSpaces : Nat → LexicalAnalysis.Lexer → Option LexicalAnalysis.Lexer
  | 0, _ => none
  | fuel + 1, L =>
    if !Lexer.eof L && isspace (Lexer.peek L) then Lexer.skipSpaces fuel (Lexer.get L).2
    else some L

/-- The loop `while (!eof() && peek() != '\n') get();` of the lenient engine. -/
def Lexer.skipLine : Nat → LexicalAnalysis.Lexer → Option LexicalAnalysis.Lexer
  | 0, _ => none
  | fuel + 1, L =>
    if !Lexer.eof L && Lexer.peek L != NL then Lexer.skipLine fuel (Lexer.get L).2
    else some L

/-- The loop of a block comment of the lenient engine. -/
def Lexer.skipBlock : Nat → LexicalAnalysis.Lexer → Option LexicalAnalysis.Lexer
  | 0, _ => none
  | fuel + 1, L =>
    if !Lexer.eof L then
      let c := (Lexer.get L).1
      let L1 := (Lexer.get L).2
      if c = NUL then some L1
      else if c = '*' && Lexer.peek L1 = '/' then some (Lexer.get L1).2
      else Lexer.skipBlock fuel L1
    else some L

/-- The loop `while (again)` of `Lexer::skipWhitespaceAndComments` of the lenient engine. -/
def Lexer.skipLoop : Nat → LexicalAnalysis.Lexer → Option LexicalAnalysis.Lexer
  | 0, _ => none
  | fuel + 1, L =>
    match Lexer.skipSpaces (L.input.length + 1) L with
    | none => none
    | some L1 =>
      if !Lexer.eof L1 && Lexer.peek L1 = '/' then
        if L1.pos + 1 < L1.input.length && L1.input.getD (L1.pos + 1) NUL = '/' then
          match Lexer.skipLine (L1.input.length + 1) (Lexer.get (Lexer.get L1).2).2 with
          | none => none
          | some L2 => Lexer.skipLoop fuel L2
        else if L1.pos + 1 < L1.input.length && L1.input.getD (L1.pos + 1) NUL = '*' then
          match Lexer.skipBlock (L1.input.length + 1) (Lexer.get (Lexer.get L1).2).2 with
          | none => none
          | some L2 => Lexer.skipLoop fuel L2
        else some L1
      else some L1

/-- The function `Lexer::skipWhitespaceAndComments` of the lenient engine. -/
def Lexer.skipWhitespaceAndComments (L : LexicalAnalysis.Lexer) : Option LexicalAnalysis.Lexer :=
  Lexer.skipLoop (L.input.length + 1) L

/-- The loop of `Lexer::readIdentifierOrKeyword` of the lenient engine. -/
def Lexer.identLoop : Nat → Str → LexicalAnalysis.Lexer → Option (Str × LexicalAnalysis.Lexer)
  | 0, _, _ => none
  | fuel + 1, s, L =>
    if !Lexer.eof L && (isalnum (Lexer.peek L) || Lexer.peek L = '_') then
      Lexer.identLoop fuel (s ++ [(Lexer.get L).1]) (Lexer.get L).2
    else some (s, L)

/-- The function `Lexer::readIdentifierOrKeyword` of the lenient engine. -/
def Lexer.readIdentifierOrKeyword (L : LexicalAnalysis.Lexer) : Option LexicalAnalysis.Lexer :=
  let startLine := L.line
  match Lexer.identLoop (L.input.length + 1) [] L with
  | none => none
  | some (s, L1) =>
    match initKeywords.lookup s with
    | some k => some (Lexer.emplace L1 k s startLine)
    | none => some (Lexer.emplace L1 .IDENFR s startLine)

/-- The loop of `Lexer::readNumber` of the lenient engine. -/
def Lexer.numberLoop : Nat → Str → LexicalAnalysis.Lexer → Option (Str × LexicalAnalysis.Lexer)
  | 0, _, _ => none
  | fuel + 1, s, L =>
    if !Lexer.eof L && isdigit (Lexer.peek L) then
      Lexer.numberLoop fuel (s ++ [(Lexer.get L).1]) (Lexer.get L).2
    else some (s, L)

/-- The function `Lexer::readNumber` of the lenient engine. -/
def Lexer.readNumber (L : LexicalAnalysis.Lexer) : Option LexicalAnalysis.Lexer :=
  let startLine := L.line
  match Lexer.numberLoop (L.input.length + 1) [] L with
  | none => none
  | some (s, L1) => some (Lexer.emplace L1 .INTCON s startLine)

/-- The loop of `Lexer::readString` of the lenient engine, on the locals `s` and `closed`. -/
def Lexer.stringLoop :
    Nat → Str → LexicalAnalysis.Lexer → Option (Str × Bool × LexicalAnalysis.Lexer)
  | 0, _, _ => none
  | fuel + 1, s, L =>
    if !Lexer.eof L then
      let c := (Lexer.get L).1
      let L1 := (Lexer.get L).2
      let s1 := s ++ [c]
      if c = DQUOTE then some (s1, true, L1)
      else if c = BSLASH && !Lexer.eof L1 then
        Lexer.stringLoop fuel (s1 ++ [(Lexer.get L1).1]) (Lexer.get L1).2
      else Lexer.stringLoop fuel s1 L1
    else some (s, false, L)

/-- The function `Lexer::readString` of the lenient engine: both branches of `if (!closed)`
only append the token. -/
def Lexer.readString (L : LexicalAnalysis.Lexer) : Option LexicalAnalysis.Lexer :=
  let startLine := L.line
  match Lexer.stringLoop (L.input.length + 1) [(Lexer.get L).1] (Lexer.get L).2 with
  | none => none
  | some (s, closed, L1) =>
    if !closed then some (Lexer.emplace L1 .STRCON s startLine)
    else some (Lexer.emplace L1 .STRCON s startLine)

/-- The `switch (c)` over the single-character tokens of the lenient engine; `none` is the
`default:` label. -/
def singleCharKind (c : Char) : Option TokenType :=
  if c = '+' then some .PLUS
  else if c = '-' then some .MINU
  else if c = '*' then some .MULT
  else if c = '/' then some .DIV
  else if c = '%' then some .MOD
  else if c = ';' then some .SEMICN
  else if c = ',' then some .COMMA
  else if c = '(' then some .LPARENT
  else if c = ')' then some .RPARENT
  else if c = '[' then some .LBRACK
  else if c = ']' then some .RBRACK
  else if c = Char.ofNat 123 then some .LBRACE
  else if c = Char.ofNat 125 then some .RBRACE
  else none

/-- The function `Lexer::readOperatorOrDelimiter` of the lenient engine: the `default:` label
appends the `UNKNOWN` token and records nothing. -/
def Lexer.readOperatorOrDelimiter (L : LexicalAnalysis.Lexer) : LexicalAnalysis.Lexer :=
  let startLine := L.line
  let c := Lexer.peek L
  let L1 := (Lexer.get L).2
  if c = '&' then
    if Lexer.peek L1 = '&' then Lexer.emplace (Lexer.get L1).2 .AND "&&".toList startLine
    else Lexer.emplace (Lexer.recordError L1 startLine (Lexer.code L1 "single&".toList))
      .UNKNOWN "&".toList startLine
  else if c = '|' then
    if Lexer.peek L1 = '|' then Lexer.emplace (Lexer.get L1).2 .OR "||".toList startLine
    else Lexer.emplace (Lexer.recordError L1 startLine (Lexer.code L1 "single|".toList))
      .UNKNOWN "|".toList startLine
  else if c = '=' then
    if Lexer.peek L1 = '=' then Lexer.emplace (Lexer.get L1).2 .EQL "==".toList startLine
    else Lexer.emplace L1 .ASSIGN "=".toList startLine
  else if c = '!' then
    if Lexer.peek L1 = '=' then Lexer.emplace (Lexer.get L1).2 .NEQ "!=".toList startLine
    else Lexer.emplace L1 .NOT "!".toList startLine
  else if c = '<' then
    if Lexer.peek L1 = '=' then Lexer.emplace (Lexer.get L1).2 .LEQ "<=".toList startLine
    else Lexer.emplace L1 .LSS "<".toList startLine
  else if c = '>' then
    if Lexer.peek L1 = '=' then Lexer.emplace (Lexer.get L1).2 .GEQ ">=".toList startLine
    else Lexer.emplace L1 .GRE ">".toList startLine
  else
    match singleCharKind c with
    | some k => Lexer.emplace L1 k [c] startLine
    | none => Lexer.emplace L1 .UNKNOWN [c] startLine

/-- The loop `while (!eof())` of `Lexer::tokenize` of the lenient engine. -/
def Lexer.tokenizeLoop : Nat → LexicalAnalysis.Lexer → Option LexicalAnalysis.Lexer
  | 0, _ => none
  | fuel + 1, L =>
    if !Lexer.eof L then
      match Lexer.skipWhitespaceAndComments L with
      | none => none
      | some L1 =>
        if Lexer.eof L1 then some L1
        else
          let c := Lexer.peek L1
          if isalpha c || c = '_' then
            match Lexer.readIdentifierOrKeyword L1 with
            | none => none
            | some L2 => Lexer.tokenizeLoop fuel L2
          else if isdigit c then
            match Lexer.readNumber L1 with
            | none => none
            | some L2 => Lexer.tokenizeLoop fuel L2
          else if c = DQUOTE then
            match Lexer.readString L1 with
            | none => none
            | some L2 => Lexer.tokenizeLoop fuel L2
          else Lexer.tokenizeLoop fuel (Lexer.readOperatorOrDelimiter L1)
    else some L

/-- The function `Lexer::tokenize` of the lenient engine. -/
def Lexer.tokenize (L : LexicalAnalysis.Lexer) : Option LexicalAnalysis.Lexer :=
  Lexer.tokenizeLoop (L.input.length + 1) L

/-- The diagnostics the lenient engine records for a token sequence under the map `map`: one
for each `UNKNOWN` token with lexeme `&` or `|`, on the line of the token. -/
def diagnosticsOf (map : List (Str × Str)) (toks : List Token) : List (Int × Str) :=
  (toks.filter (fun t => decide (t.type = .UNKNOWN) &&
      (decide (t.lexeme = "&".toList) || decide (t.lexeme = "|".toList)))).map
    (fun t => (t.line, LexicalAnalysis.codeOf map
      (if t.lexeme = "&".toList then "single&".toList else "single|".toList)))

end MyCompiler

namespace LexicalAnalysis

/-! ## The cursor -/

theorem newlines_nil : newlines [] = 0 := rfl

theorem newlines_append (a b : Str) : newlines (a ++ b) = newlines a + newlines b := by
  simp [newlines]

theorem newlines_cons (c : Char) (s : Str) :
    newlines (c :: s) = (if c = NL then 1 else 0) + newlines s := by
  unfold newlines
  rw [List.count_cons]
  by_cases h : c = NL
  · simp [h]; omega
  · simp [h]

theorem newlines_single (c : Char) : newlines [c] = if c = NL then 1 else 0 := by
  rw [newlines_cons]; simp [newlines_nil]

@[simp] theorem addLines_zero (line : Int) : addLines line 0 = line := rfl

theorem addLines_one (line : Int) : addLines line 1 = wrapInt (line + 1) := rfl

@[simp] theorem addLines_add (line : Int) (a b : Nat) :
    addLines (addLines line a) b = addLines line (a + b) := by
  unfold addLines
  rw [Nat.add_comm, Function.iterate_add_apply]

theorem addLines_comm (line : Int) (a b : Nat) :
    addLines (addLines line a) b = addLines (addLines line b) a := by
  rw [addLines_add, addLines_add, Nat.add_comm]

theorem addLines_succ (line : Int) (k : Nat) :
    addLines line (k + 1) = wrapInt (addLines line k + 1) := by
  rw [← addLines_add, addLines_one]

theorem wrapInt_range (x : Int) : -2147483648 ≤ wrapInt x ∧ wrapInt x ≤ 2147483647 := by
  unfold wrapInt
  omega

theorem wrapInt_eq (x : Int) (h1 : -2147483648 ≤ x) (h2 : x ≤ 2147483647) : wrapInt x = x := by
  unfold wrapInt
  omega

theorem wrapInt_succ (x : Int) : wrapInt (wrapInt x + 1) = wrapInt (x + 1) := by
  unfold wrapInt
  omega

/-- As long as the counter stays at most 2147483647, `k` increments add `k`. -/
theorem addLines_eq (line : Int) (k : Nat) (h1 : -2147483648 ≤ line)
    (h2 : line + k ≤ 2147483647) : addLines line k = line + k := by
  induction k with
  | zero => simp [addLines_zero]
  | succ k ih =>
    rw [addLines_succ, ih (by push_cast at h2; omega), wrapInt_eq _ (by omega)
      (by push_cast at h2; omega)]
    push_cast
    omega

/-- From a value in the range of an `int`, `k` increments give the stored value of the sum. -/
theorem addLines_wrap (line : Int) (k : Nat) (h1 : -2147483648 ≤ line)
    (h2 : line ≤ 2147483647) : addLines line k = wrapInt (line + k) := by
  induction k with
  | zero => simp [addLines_zero, wrapInt_eq line h1 h2]
  | succ k ih =>
    rw [addLines_succ, ih, wrapInt_succ]
    push_cast
    rw [Int.add_assoc]

theorem Lexer.advance_nil (L : Lexer) : L.advance [] = L := by
  simp [Lexer.advance, newlines_nil, addLines_zero]

theorem Lexer.advance_advance (L : Lexer) (a b : Str) :
    (L.advance a).advance b = L.advance (a ++ b) := by
  simp [Lexer.advance, newlines_append, Nat.add_assoc, addLines_add]

theorem Lexer.At.eof_nil {L : Lexer} (h : L.At []) : L.eof = true := by
  obtain ⟨h1, h2⟩ := h
  have := congrArg List.length h2
  simp at this
  simp [Lexer.eof]; omega

theorem Lexer.At.pos_lt {L : Lexer} {c : Char} {t : Str} (h : L.At (c :: t)) :
    L.pos < L.input.length := by
  obtain ⟨h1, h2⟩ := h
  have := congrArg List.length h2
  simp at this
  omega

theorem Lexer.At.eof_cons {L : Lexer} {c : Char} {t : Str} (h : L.At (c :: t)) :
    L.eof = false := by
  have := h.pos_lt
  simp [Lexer.eof]; omega

theorem Lexer.At.getD_pos {L : Lexer} {c : Char} {t : Str} (h : L.At (c :: t)) :
    L.input.getD L.pos NUL = c := by
  obtain ⟨h1, h2⟩ := h
  have h3 : L.input = L.input.take L.pos ++ c :: t := by
    rw [← h2, List.take_append_drop]
  rw [h3, List.getD_append_right _ _ _ _ (by simp)]
  simp [List.length_take, Nat.min_eq_left h1]

theorem Lexer.At.peek_cons {L : Lexer} {c : Char} {t : Str} (h : L.At (c :: t)) :
    L.peek = c := by
  have h1 := h.pos_lt
  unfold Lexer.peek
  rw [if_neg (by omega), h.getD_pos]

theorem Lexer.At.peek_nil {L : Lexer} (h : L.At []) : L.peek = NUL := by
  have := h.eof_nil
  simp [Lexer.eof] at this
  simp [Lexer.peek]; omega

theorem Lexer.At.peek {L : Lexer} {r : Str} (h : L.At r) : L.peek = r.headD NUL := by
  cases r with
  | nil => simpa using h.peek_nil
  | cons c t => simpa using h.peek_cons

theorem Lexer.At.tail {L : Lexer} {c : Char} {t : Str} (h : L.At (c :: t)) :
    (L.advance [c]).At t := by
  have h0 := h.pos_lt
  obtain ⟨h1, h2⟩ := h
  refine ⟨by simp [Lexer.advance]; omega, ?_⟩
  simp only [Lexer.advance, List.length_singleton]
  have h3 : List.drop (L.pos + 1) L.input = List.drop 1 (List.drop L.pos L.input) := by
    rw [List.drop_drop, Nat.add_comm]
  rw [h3, h2]
  simp

theorem Lexer.At.advance {L : Lexer} {a r : Str} (h : L.At (a ++ r)) : (L.advance a).At r := by
  induction a generalizing L with
  | nil => simpa [Lexer.advance_nil] using h
  | cons c a ih =>
    have := ih (L := L.advance [c]) (by simpa using h.tail)
    simpa [Lexer.advance_advance] using this

theorem Lexer.At.get_cons {L : Lexer} {c : Char} {t : Str} (h : L.At (c :: t)) :
    L.get = (c, L.advance [c]) := by
  have h1 := h.pos_lt
  have h2 := h.getD_pos
  unfold Lexer.get
  rw [if_neg (by omega)]
  simp only [h2, Lexer.advance, newlines_single, List.length_singleton]
  by_cases hc : c = NL <;> simp [hc, addLines_one, addLines_zero]

theorem Lexer.At.get_nil {L : Lexer} (h : L.At []) : L.get = (NUL, L) := by
  have := h.eof_nil
  simp [Lexer.eof] at this
  simp [Lexer.get]; omega

theorem Lexer.At.next_cons {L : Lexer} {c d : Char} {t : Str} (h : L.At (c :: d :: t)) :
    L.pos + 1 < L.input.length ∧ L.input.getD (L.pos + 1) NUL = d := by
  have h1 := h.tail
  have h2 := h1.pos_lt
  have h3 := h1.getD_pos
  simpa [Lexer.advance] using And.intro h2 h3

theorem Lexer.At.next_single {L : Lexer} {c : Char} (h : L.At [c]) :
    ¬ (L.pos + 1 < L.input.length) := by
  have h1 := h.tail.eof_nil
  simpa [Lexer.eof, Lexer.advance] using h1

theorem Lexer.At.new (input : Str) (map : List (Str × Str)) : (Lexer.new input map).At input := by
  simp [Lexer.At, Lexer.new]

/-! ## The loops -/

theorem Lexer.At.split {L : Lexer} {r : Str} (h : L.At r) (p : Char → Bool) :
    (L.advance (r.takeWhile p)).At (r.dropWhile p) := by
  apply Lexer.At.advance
  rwa [List.takeWhile_append_dropWhile]

/-- The whitespace loop ends, having read the leading whitespace of the remainder. -/
theorem skipSpaces_eq (r : Str) : ∀ (fuel : Nat) (L : Lexer), L.At r → r.length < fuel →
    Lexer.skipSpaces fuel L = some (L.advance (r.takeWhile isspace)) := by
  induction r with
  | nil =>
    intro fuel L h hf
    cases fuel with
    | zero => simp at hf
    | succ n => simp [Lexer.skipSpaces, h.eof_nil, Lexer.advance_nil]
  | cons c t ih =>
    intro fuel L h hf
    cases fuel with
    | zero => simp at hf
    | succ n =>
      simp only [Lexer.skipSpaces, h.eof_cons, h.peek_cons, h.get_cons, List.takeWhile_cons]
      by_cases hc : isspace c = true
      · simp only [hc, Bool.not_false, Bool.and_self, if_true]
        rw [ih n _ h.tail (by simpa using hf), Lexer.advance_advance]
        rfl
      · simp [hc, Lexer.advance_nil]

/-- The loop of a line comment ends, having read up to the next newline. -/
theorem skipLine_eq (r : Str) : ∀ (fuel : Nat) (L : Lexer), L.At r → r.length < fuel →
    Lexer.skipLine fuel L = some (L.advance (r.takeWhile (fun x => x != NL))) := by
  induction r with
  | nil =>
    intro fuel L h hf
    cases fuel with
    | zero => simp at hf
    | succ n => simp [Lexer.skipLine, h.eof_nil, Lexer.advance_nil]
  | cons c t ih =>
    intro fuel L h hf
    cases fuel with
    | zero => simp at hf
    | succ n =>
      simp only [Lexer.skipLine, h.eof_cons, h.peek_cons, h.get_cons, List.takeWhile_cons]
      by_cases hc : (c != NL) = true
      · simp only [hc, Bool.not_false, Bool.and_self, if_true]
        rw [ih n _ h.tail (by simpa using hf), Lexer.advance_advance]
        rfl
      · simp [hc, Lexer.advance_nil]

theorem splitBlock_append (r : Str) : (splitBlock r).1 ++ (splitBlock r).2 = r := by
  induction r with
  | nil => simp [splitBlock]
  | cons c cs ih =>
    unfold splitBlock
    split
    · simp
    · split
      · simp only [List.cons_append, List.take_append_drop]
      · simpa using ih

/-- The loop of a block comment ends, having read what `splitBlock` takes. -/
theorem skipBlock_eq (r : Str) : ∀ (fuel : Nat) (L : Lexer), L.At r → r.length < fuel →
    Lexer.skipBlock fuel L = some (L.advance (splitBlock r).1) := by
  induction r with
  | nil =>
    intro fuel L h hf
    cases fuel with
    | zero => simp at hf
    | succ n => simp [Lexer.skipBlock, h.eof_nil, Lexer.advance_nil, splitBlock]
  | cons c t ih =>
    intro fuel L h hf
    cases fuel with
    | zero => simp at hf
    | succ n =>
      simp only [Lexer.skipBlock, h.eof_cons, h.get_cons, splitBlock, h.tail.peek]
      by_cases hc : c = NUL
      · simp [hc]
      · simp only [hc, if_false, Bool.not_false, if_true]
        by_cases hs : (decide (c = '*') && decide (t.headD NUL = '/')) = true
        · simp only [hs, if_true]
          cases t with
          | nil => simp [NUL] at hs
          | cons d t1 =>
            simp only [h.tail.get_cons, Lexer.advance_advance]
            simp
        · simp only [hs]
          rw [ih n _ h.tail (by simpa using hf), Lexer.advance_advance]
          simp

theorem Lexer.At.length_le {L : Lexer} {r : Str} (h : L.At r) : r.length ≤ L.input.length := by
  obtain ⟨h1, h2⟩ := h
  rw [← h2]; simp

@[simp] theorem Lexer.advance_input (L : Lexer) (a : Str) : (L.advance a).input = L.input := rfl

theorem splitBlock_length (r : Str) : (splitBlock r).2.length ≤ r.length := by
  have := congrArg List.length (splitBlock_append r)
  simp at this; omega

theorem Lexer.At.two {L : Lexer} {c d : Char} {t : Str} (h : L.At (c :: d :: t)) :
    L.get.2.get.2 = L.advance [c, d] ∧ (L.advance [c, d]).At t := by
  refine ⟨?_, Lexer.At.advance (a := [c, d]) (by simpa using h)⟩
  rw [h.get_cons]
  simp only [h.tail.get_cons, Lexer.advance_advance]
  rfl

/-- With more fuel than bytes left, `skipLoop` ends, having read what `splitSkip` takes. -/
theorem skipLoop_eq (k : Nat) : ∀ (r : Str), r.length ≤ k → ∀ (fuel : Nat) (L : Lexer),
    L.At r → r.length < fuel →
    Lexer.skipLoop fuel L = some (L.advance (splitSkip r).1) ∧
      (splitSkip r).1 ++ (splitSkip r).2 = r := by
  induction k with
  | zero =>
    intro r hk fuel L h hf
    have hr : r = [] := List.length_eq_zero.mp (by omega)
    subst hr
    cases fuel with
    | zero => simp at hf
    | succ n =>
      rw [splitSkip]
      simp [Lexer.skipLoop, skipSpaces_eq [] _ L h, Lexer.advance_nil, h.eof_nil]
  | succ k ih =>
    intro r hk fuel L h hf
    cases fuel with
    | zero => simp at hf
    | succ n =>
      have hws := skipSpaces_eq r (L.input.length + 1) L h (by have := h.length_le; omega)
      have hat := h.split isspace
      have hsplit := List.takeWhile_append_dropWhile isspace r
      have hlen := congrArg List.length hsplit
      simp only [List.length_append] at hlen
      simp only [Lexer.skipLoop, hws]
      rw [splitSkip]
      generalize hws1 : List.takeWhile isspace r = ws at *
      generalize hr1 : List.dropWhile isspace r = r1 at *
      obtain ⟨L1, hL1⟩ : ∃ L1, L1 = L.advance ws := ⟨_, rfl⟩
      rw [← hL1] at hat ⊢
      have hin : L1.input = L.input := by rw [hL1]; rfl
      match r1, hat with
      | [], hat =>
        simp only [hat.eof_nil]
        simp [← hsplit, hL1]
      | [c], hat =>
        have := hat.next_single
        simp only [hat.eof_cons, hat.peek_cons, this]
        simp [← hsplit, hL1]
      | c :: d :: t, hat =>
        have hn := hat.next_cons
        obtain ⟨hg, hat2⟩ := hat.two
        simp only [List.length_cons] at hlen
        simp only [hat.eof_cons, hat.peek_cons, hn.1, hn.2, hg, Bool.not_false, Bool.true_and,
          decide_True]
        by_cases hc : c = '/'
        · subst hc
          by_cases hd : d = '/'
          · subst hd
            have hl := skipLine_eq t (L1.input.length + 1) _ hat2
              (by have := hat2.length_le; simp at this ⊢; omega)
            have hat3 := hat2.split (fun x => x != NL)
            have hsp := List.takeWhile_append_dropWhile (fun x => x != NL) t
            have hlen2 := congrArg List.length hsp
            simp only [List.length_append] at hlen2
            have hrec := ih (t.dropWhile (fun x => x != NL)) (by omega) n _ hat3
              (by omega)
            simp only [hl, hrec.1, decide_True, Bool.and_self, if_true]
            refine ⟨?_, ?_⟩
            · rw [hL1]; simp [Lexer.advance_advance]
            · rw [← hsplit]; simp [hrec.2, hsp]
          · by_cases hd2 : d = '*'
            · subst hd2
              have hl := skipBlock_eq t (L1.input.length + 1) _ hat2
                (by have := hat2.length_le; simp at this ⊢; omega)
              have hsp := splitBlock_append t
              have hat3 : ((L1.advance ['/', '*']).advance (splitBlock t).1).At (splitBlock t).2 :=
                Lexer.At.advance (by rw [hsp]; exact hat2)
              have hlen2 := congrArg List.length hsp
              simp only [List.length_append] at hlen2
              have hrec := ih (splitBlock t).2 (by omega) n _ hat3 (by omega)
              have hne : ¬ ('*' = '/') := by decide
              simp only [hl, hrec.1, decide_True, Bool.and_self, if_true, hne, decide_False,
                Bool.and_false, if_false, Bool.false_eq_true]
              refine ⟨?_, ?_⟩
              · rw [hL1]; simp [Lexer.advance_advance]
              · rw [← hsplit]; simp [hrec.2, hsp]
            · simp only [hd, hd2, decide_False, Bool.and_false, if_false, Bool.false_eq_true]
              refine ⟨?_, ?_⟩
              · rw [hL1]; simp
              · rw [← hsplit]
        · simp only [hc, decide_False, Bool.false_and, if_false, Bool.false_eq_true]
          refine ⟨?_, ?_⟩
          · rw [hL1]
          · rw [← hsplit]

theorem identLoop_eq (r : Str) : ∀ (fuel : Nat) (s : Str) (L : Lexer), L.At r → r.length < fuel →
    Lexer.identLoop fuel s L
      = some (s ++ r.takeWhile isIdent, L.advance (r.takeWhile isIdent)) := by
  induction r with
  | nil =>
    intro fuel s L h hf
    cases fuel with
    | zero => simp at hf
    | succ n => simp [Lexer.identLoop, h.eof_nil, Lexer.advance_nil]
  | cons c t ih =>
    intro fuel s L h hf
    cases fuel with
    | zero => simp at hf
    | succ n =>
      simp only [Lexer.identLoop, h.eof_cons, h.peek_cons, h.get_cons, List.takeWhile_cons]
      by_cases hc : isIdent c = true
      · have hc2 : (isalnum c || decide (c = '_')) = true := hc
        simp only [hc, hc2, Bool.not_false, Bool.and_self, if_true]
        rw [ih n _ _ h.tail (by simpa using hf), Lexer.advance_advance]
        simp
      · have hc2 : ¬ (isalnum c || decide (c = '_')) = true := hc
        simp [hc, hc2, Lexer.advance_nil]

theorem numberLoop_eq (r : Str) : ∀ (fuel : Nat) (s : Str) (L : Lexer), L.At r →
    r.length < fuel →
    Lexer.numberLoop fuel s L
      = some (s ++ r.takeWhile isdigit, L.advance (r.takeWhile isdigit)) := by
  induction r with
  | nil =>
    intro fuel s L h hf
    cases fuel with
    | zero => simp at hf
    | succ n => simp [Lexer.numberLoop, h.eof_nil, Lexer.advance_nil]
  | cons c t ih =>
    intro fuel s L h hf
    cases fuel with
    | zero => simp at hf
    | succ n =>
      simp only [Lexer.numberLoop, h.eof_cons, h.peek_cons, h.get_cons, List.takeWhile_cons]
      by_cases hc : isdigit c = true
      · simp only [hc, Bool.not_false, Bool.and_self, if_true]
        rw [ih n _ _ h.tail (by simpa using hf), Lexer.advance_advance]
        simp
      · simp [hc, Lexer.advance_nil]

theorem splitString_append (k : Nat) : ∀ r : Str, r.length ≤ k →
    (splitString r).1 ++ (splitString r).2.2 = r := by
  induction k with
  | zero =>
    intro r hk
    have hr : r = [] := List.length_eq_zero.mp (by omega)
    subst hr
    simp [splitString]
  | succ k ih =>
    intro r hk
    match r with
    | [] => simp [splitString]
    | [c] =>
      unfold splitString
      split
      · simp
      · split <;> simp [splitString]
    | c :: d :: t =>
      have h1 := ih (d :: t) (by simp at hk ⊢; omega)
      have h2 := ih t (by simp at hk ⊢; omega)
      unfold splitString
      split
      · simp
      · split
        · simpa using h2
        · simpa using h1

/-- The loop of `readString` ends, having read what `splitString` takes. -/
theorem stringLoop_eq (k : Nat) : ∀ (r : Str), r.length ≤ k → ∀ (fuel : Nat) (s : Str)
    (L : Lexer), L.At r → r.length < fuel →
    Lexer.stringLoop fuel s L
      = some (s ++ (splitString r).1, (splitString r).2.1, L.advance (splitString r).1) := by
  induction k with
  | zero =>
    intro r hk fuel s L h hf
    have hr : r = [] := List.length_eq_zero.mp (by omega)
    subst hr
    cases fuel with
    | zero => simp at hf
    | succ n => simp [Lexer.stringLoop, h.eof_nil, Lexer.advance_nil, splitString]
  | succ k ih =>
    intro r hk fuel s L h hf
    cases fuel with
    | zero => simp at hf
    | succ n =>
      match r, h with
      | [], h => simp [Lexer.stringLoop, h.eof_nil, Lexer.advance_nil, splitString]
      | [c], h =>
        have h1 := ih [] (by simp) n (s ++ [c]) _ h.tail (by simpa using hf)
        simp only [Lexer.stringLoop, h.eof_cons, h.get_cons, h.tail.eof_nil]
        unfold splitString
        by_cases hq : c = DQUOTE
        · simp [hq]
        · by_cases hb : c = BSLASH
          · subst hb
            simp [hq, h1, splitString, Lexer.advance_advance]
          · simp [hq, hb, h1, splitString, Lexer.advance_advance]
      | c :: d :: t, h =>
        have h1 := ih (d :: t) (by simp at hk ⊢; omega) n (s ++ [c]) _ h.tail
          (by simp at hf ⊢; omega)
        have h2 := ih t (by simp at hk ⊢; omega) n (s ++ [c] ++ [d]) _ h.tail.tail
          (by simp at hf ⊢; omega)
        simp only [Lexer.stringLoop, h.eof_cons, h.get_cons, h.tail.eof_cons, h.tail.get_cons]
        unfold splitString
        by_cases hq : c = DQUOTE
        · simp [hq]
        · by_cases hb : c = BSLASH
          · subst hb
            simp only [Lexer.advance_advance, List.append_assoc, List.singleton_append] at h2
            simp [hq, h2, Lexer.advance_advance]
          · simp [hq, hb, h1, Lexer.advance_advance]

/-! ## The readers and the main loop -/

theorem Lexer.advance_eq_after (L : Lexer) (a : Str) : L.advance a = L.after a [] [] := by
  simp [Lexer.advance, Lexer.after]

theorem Lexer.after_after (L : Lexer) (a b : Str) (t1 t2 : List Token)
    (e1 e2 : List (Int × Str)) :
    (L.after a t1 e1).after b t2 e2 = L.after (a ++ b) (t1 ++ t2) (e1 ++ e2) := by
  simp [Lexer.after, newlines_append, Nat.add_assoc]

theorem Lexer.At.after {L : Lexer} {a r : Str} (h : L.At (a ++ r)) (toks : List Token)
    (errs : List (Int × Str)) : (L.after a toks errs).At r := h.advance

@[simp] theorem Lexer.after_input (L : Lexer) (a : Str) (t : List Token)
    (e : List (Int × Str)) : (L.after a t e).input = L.input := rfl

@[simp] theorem Lexer.after_errorCodeMap (L : Lexer) (a : Str) (t : List Token)
    (e : List (Int × Str)) : (L.after a t e).errorCodeMap = L.errorCodeMap := rfl

theorem Lexer.code_eq (L : Lexer) (key : Str) : L.code key = codeOf L.errorCodeMap key := rfl

theorem readIdentifierOrKeyword_eq {L : Lexer} {r : Str} (h : L.At r) :
    L.readIdentifierOrKeyword = some (L.after (r.takeWhile isIdent)
      [⟨wordKind (r.takeWhile isIdent), r.takeWhile isIdent, L.line⟩] []) := by
  have hl := h.length_le
  have e := identLoop_eq r (L.input.length + 1) [] L h (by omega)
  unfold Lexer.readIdentifierOrKeyword
  simp only [e, List.nil_append, wordKind]
  cases initKeywords.lookup (List.takeWhile isIdent r) <;>
    simp [Lexer.emplace, Lexer.after, Lexer.advance]

theorem readNumber_eq {L : Lexer} {r : Str} (h : L.At r) :
    L.readNumber = some (L.after (r.takeWhile isdigit)
      [⟨.INTCON, r.takeWhile isdigit, L.line⟩] []) := by
  have hl := h.length_le
  have e := numberLoop_eq r (L.input.length + 1) [] L h (by omega)
  unfold Lexer.readNumber
  simp only [e, List.nil_append]
  simp [Lexer.emplace, Lexer.after, Lexer.advance]

theorem readString_eq {L : Lexer} {c : Char} {t : Str} (h : L.At (c :: t)) :
    L.readString = some (L.after (c :: (splitString t).1)
      [⟨.STRCON, c :: (splitString t).1, L.line⟩]
      (if (splitString t).2.1 then []
        else [(L.line, codeOf L.errorCodeMap "unterminated_string".toList)])) := by
  unfold Lexer.readString
  have := stringLoop_eq t.length t (Nat.le_refl _) (L.input.length + 1) [c] _ h.tail
    (by have := h.tail.length_le; simp at this; omega)
  simp only [h.get_cons, this]
  cases (splitString t).2.1 <;>
    simp [Lexer.emplace, Lexer.after, Lexer.advance, Lexer.recordError, Lexer.code_eq,
      newlines_cons, newlines_nil, Nat.add_assoc, Nat.add_comm, Nat.add_left_comm]

theorem drop_one_of_headD {t : Str} {x : Char} (hx : x ≠ NUL) (h : t.headD NUL = x) :
    t = x :: t.drop 1 := by
  cases t with
  | nil => exact absurd h.symm hx
  | cons d t1 => simp at h; simp [h]

/-- The call `readOperatorOrDelimiter` does what `lexOperator` computes. -/
theorem readOperatorOrDelimiter_eq {L : Lexer} {c : Char} {t : Str} (h : L.At (c :: t)) :
    L.readOperatorOrDelimiter = L.after (lexOperator L.errorCodeMap c t L.line).1.lexeme
      [(lexOperator L.errorCodeMap c t L.line).1] (lexOperator L.errorCodeMap c t L.line).2.1
    ∧ (lexOperator L.errorCodeMap c t L.line).1.lexeme
        ++ (lexOperator L.errorCodeMap c t L.line).2.2 = c :: t := by
  unfold Lexer.readOperatorOrDelimiter lexOperator
  simp only [h.peek_cons, h.get_cons, h.tail.peek]
  have two : ∀ x : Char, x ≠ NUL → t.headD NUL = x →
      (L.advance [c]).get.2 = L.advance [c, x] ∧ t = x :: t.drop 1 := by
    intro x hx hh
    have ht := drop_one_of_headD hx hh
    have h2 : (L.advance [c]).At (x :: t.drop 1) := by rw [← ht]; exact h.tail
    rw [h2.get_cons, Lexer.advance_advance]
    exact ⟨rfl, ht⟩
  by_cases ha : c = '&'
  · subst ha
    by_cases h2 : t.headD NUL = '&'
    · obtain ⟨e1, e2⟩ := two '&' (by decide) h2
      simp only [h2, if_true, e1]
      exact ⟨by simp [Lexer.emplace, Lexer.after, Lexer.advance, newlines, NL], by rw [e2]; simp⟩
    · simp only [h2, if_false, if_true]
      exact ⟨by simp [Lexer.emplace, Lexer.after, Lexer.advance, Lexer.recordError, Lexer.code_eq,
        newlines, NL], by simp⟩
  simp only [ha, if_false]
  by_cases hb : c = '|'
  · subst hb
    by_cases h2 : t.headD NUL = '|'
    · obtain ⟨e1, e2⟩ := two '|' (by decide) h2
      simp only [h2, if_true, e1]
      exact ⟨by simp [Lexer.emplace, Lexer.after, Lexer.advance, newlines, NL], by rw [e2]; simp⟩
    · simp only [h2, if_false, if_true]
      exact ⟨by simp [Lexer.emplace, Lexer.after, Lexer.advance, Lexer.recordError, Lexer.code_eq,
        newlines, NL], by simp⟩
  simp only [hb, if_false]
  by_cases hc : c = '='
  · subst hc
    by_cases h2 : t.headD NUL = '='
    · obtain ⟨e1, e2⟩ := two '=' (by decide) h2
      simp only [h2, if_true, e1]
      exact ⟨by simp [Lexer.emplace, Lexer.after, Lexer.advance, newlines, NL], by rw [e2]; simp⟩
    · simp only [h2, if_false, if_true]
      exact ⟨by simp [Lexer.emplace, Lexer.after, Lexer.advance, Lexer.recordError, Lexer.code_eq,
        newlines, NL], by simp⟩
  simp only [hc, if_false]
  by_cases hd : c = '!'
  · subst hd
    by_cases h2 : t.headD NUL = '='
    · obtain ⟨e1, e2⟩ := two '=' (by decide) h2
      simp only [h2, if_true, e1]
      exact ⟨by simp [Lexer.emplace, Lexer.after, Lexer.advance, newlines, NL], by rw [e2]; simp⟩
    · simp only [h2, if_false, if_true]
      exact ⟨by simp [Lexer.emplace, Lexer.after, Lexer.advance, Lexer.recordError, Lexer.code_eq,
        newlines, NL], by simp⟩
  simp only [hd, if_false]
  by_cases he : c = '<'
  · subst he
    by_cases h2 : t.headD NUL = '='
    · obtain ⟨e1, e2⟩ := two '=' (by decide) h2
      simp only [h2, if_true, e1]
      exact ⟨by simp [Lexer.emplace, Lexer.after, Lexer.advance, newlines, NL], by rw [e2]; simp⟩
    · simp only [h2, if_false, if_true]
      exact ⟨by simp [Lexer.emplace, Lexer.after, Lexer.advance, Lexer.recordError, Lexer.code_eq,
        newlines, NL], by simp⟩
  simp only [he, if_false]
  by_cases hf : c = '>'
  · subst hf
    by_cases h2 : t.headD NUL = '='
    · obtain ⟨e1, e2⟩ := two '=' (by decide) h2
      simp only [h2, if_true, e1]
      exact ⟨by simp [Lexer.emplace, Lexer.after, Lexer.advance, newlines, NL], by rw [e2]; simp⟩
    · simp only [h2, if_false, if_true]
      exact ⟨by simp [Lexer.emplace, Lexer.after, Lexer.advance, Lexer.recordError, Lexer.code_eq,
        newlines, NL], by simp⟩
  simp only [hf, if_false]
  cases singleCharKind c with
  | none =>
    exact ⟨by simp [Lexer.emplace, Lexer.after, Lexer.advance, Lexer.recordError, Lexer.code_eq],
      by simp⟩
  | some k => exact ⟨by simp [Lexer.emplace, Lexer.after, Lexer.advance], by simp⟩

theorem lexOperator_spec (map : List (Str × Str)) (c : Char) (t : Str) (line : Int) :
    (lexOperator map c t line).1.lexeme ++ (lexOperator map c t line).2.2 = c :: t
    ∧ (lexOperator map c t line).1.lexeme ≠ []
    ∧ (lexOperator map c t line).1.line = line := by
  unfold lexOperator
  have two : ∀ x : Char, x ≠ NUL → t.headD NUL = x → x :: x :: t.drop 1 = x :: t := by
    intro x hx hh
    rw [← drop_one_of_headD hx hh]
  have two2 : ∀ x y : Char, y ≠ NUL → t.headD NUL = y → x :: y :: t.drop 1 = x :: t := by
    intro x y hx hh
    rw [← drop_one_of_headD hx hh]
  by_cases ha : c = '&'
  · subst ha
    by_cases h2 : t.headD NUL = '&'
    · simp only [h2, if_true]
      simpa using two '&' (by decide) h2
    · simp only [h2, if_false, if_true]
      simp
  simp only [ha, if_false]
  by_cases hb : c = '|'
  · subst hb
    by_cases h2 : t.headD NUL = '|'
    · simp only [h2, if_true]
      simpa using two '|' (by decide) h2
    · simp only [h2, if_false, if_true]
      simp
  simp only [hb, if_false]
  by_cases hc : c = '='
  · subst hc
    by_cases h2 : t.headD NUL = '='
    · simp only [h2, if_true]
      simpa using two '=' (by decide) h2
    · simp only [h2, if_false, if_true]
      simp
  simp only [hc, if_false]
  by_cases hd : c = '!'
  · subst hd
    by_cases h2 : t.headD NUL = '='
    · simp only [h2, if_true]
      simpa using two2 '!' '=' (by decide) h2
    · simp only [h2, if_false, if_true]
      simp
  simp only [hd, if_false]
  by_cases he : c = '<'
  · subst he
    by_cases h2 : t.headD NUL = '='
    · simp only [h2, if_true]
      simpa using two2 '<' '=' (by decide) h2
    · simp only [h2, if_false, if_true]
      simp
  simp only [he, if_false]
  by_cases hf : c = '>'
  · subst hf
    by_cases h2 : t.headD NUL = '='
    · simp only [h2, if_true]
      simpa using two2 '>' '=' (by decide) h2
    · simp only [h2, if_false, if_true]
      simp
  simp only [hf, if_false]
  cases singleCharKind c <;> simp

/-- A dispatch step reads exactly the lexeme of its token, which is not empty, and the token
carries the line of its first byte. -/
theorem lexToken_spec (map : List (Str × Str)) (c : Char) (t : Str) (line : Int) :
    (lexToken map c t line).1.lexeme ++ (lexToken map c t line).2.2 = c :: t
    ∧ (lexToken map c t line).1.lexeme ≠ []
    ∧ (lexToken map c t line).1.line = line := by
  unfold lexToken
  by_cases h1 : (isalpha c || decide (c = '_')) = true
  · have hi : isIdent c = true := by
      simp only [isIdent, isalnum]
      simp only [Bool.or_eq_true, decide_eq_true_eq] at h1 ⊢
      rcases h1 with h | h
      · exact Or.inl (Or.inl h)
      · exact Or.inr h
    simp only [h1, if_true, List.takeWhile_append_dropWhile]
    simp [List.takeWhile_cons, hi]
  simp only [h1, if_false]
  by_cases h2 : isdigit c = true
  · simp only [h2, if_true, List.takeWhile_append_dropWhile]
    simp [List.takeWhile_cons, h2]
  simp only [h2, if_false]
  by_cases h3 : c = DQUOTE
  · simp only [h3, if_true]
    have := splitString_append t.length t (Nat.le_refl _)
    simp [this]
  simp only [h3, if_false]
  exact lexOperator_spec map c t line

theorem lexToken_length (map : List (Str × Str)) (c : Char) (t : Str) (line : Int) :
    (lexToken map c t line).2.2.length < (c :: t).length := by
  obtain ⟨h1, h2, _⟩ := lexToken_spec map c t line
  have h3 := congrArg List.length h1
  have h4 : 0 < (lexToken map c t line).1.lexeme.length := List.length_pos.mpr h2
  simp only [List.length_append] at h3
  omega

theorem splitSkip_append (r : Str) : (splitSkip r).1 ++ (splitSkip r).2 = r :=
  (skipLoop_eq r.length r (Nat.le_refl _) (r.length + 1)
    { input := r, pos := 0, line := 1, tokens := [], errors := [], errorCodeMap := [] }
    (by simp [Lexer.At]) (by omega)).2

theorem splitSkip_length (r : Str) : (splitSkip r).2.length ≤ r.length := by
  have := congrArg List.length (splitSkip_append r)
  simp only [List.length_append] at this
  omega

theorem lex_nil (map : List (Str × Str)) (r : Str) (line : Int) (h : (splitSkip r).2 = []) :
    lex map r line = ([], []) := by
  rw [lex]
  simp [h]

theorem lex_cons (map : List (Str × Str)) (r : Str) (line : Int) (c : Char) (t : Str)
    (h : (splitSkip r).2 = c :: t) :
    lex map r line =
      ((lexToken map c t (addLines line (newlines (splitSkip r).1))).1 ::
        (lex map (lexToken map c t (addLines line (newlines (splitSkip r).1))).2.2
          (addLines (addLines line (newlines (splitSkip r).1))
            (newlines (lexToken map c t (addLines line (newlines (splitSkip r).1))).1.lexeme))).1,
       (lexToken map c t (addLines line (newlines (splitSkip r).1))).2.1 ++
        (lex map (lexToken map c t (addLines line (newlines (splitSkip r).1))).2.2
          (addLines (addLines line (newlines (splitSkip r).1))
            (newlines (lexToken map c t (addLines line (newlines (splitSkip r).1))).1.lexeme))).2) := by
  rw [lex]
  have h1 := lexToken_length map c t (addLines line (newlines (splitSkip r).1))
  have h2 := splitSkip_length r
  rw [h] at h2
  have h3 : (lexToken map c t (addLines line (newlines (splitSkip r).1))).2.2.length < r.length := by
    omega
  simp [h, h3]

theorem Lexer.after_nil (L : Lexer) : L.after [] [] [] = L := by
  simp [Lexer.after, newlines_nil]

/-- With more fuel than bytes left, the loop of `tokenize` ends at the end of the input, having
appended the tokens and diagnostics that `lex` computes from the remainder. -/
theorem tokenizeLoop_eq (k : Nat) : ∀ (r : Str), r.length ≤ k → ∀ (fuel : Nat) (L : Lexer),
    L.At r → r.length < fuel →
    Lexer.tokenizeLoop fuel L
      = some (L.after r (lex L.errorCodeMap r L.line).1 (lex L.errorCodeMap r L.line).2) := by
  induction k with
  | zero =>
    intro r hk fuel L h hf
    have hr : r = [] := List.length_eq_zero.mp (by omega)
    subst hr
    cases fuel with
    | zero => simp at hf
    | succ n =>
      have : (splitSkip []).2 = [] := by
        have := splitSkip_length []
        exact List.length_eq_zero.mp (by simpa using this)
      simp [Lexer.tokenizeLoop, h.eof_nil, lex_nil _ _ _ this, Lexer.after_nil]
  | succ k ih =>
    intro r hk fuel L h hf
    cases fuel with
    | zero => simp at hf
    | succ n =>
      match r, h with
      | [], h =>
        have : (splitSkip []).2 = [] := by
          have := splitSkip_length []
          exact List.length_eq_zero.mp (by simpa using this)
        simp [Lexer.tokenizeLoop, h.eof_nil, lex_nil _ _ _ this, Lexer.after_nil]
      | a :: r0, h =>
        have hl := h.length_le
        obtain ⟨hs, happ⟩ := skipLoop_eq _ (a :: r0) (Nat.le_refl _) (L.input.length + 1) L h
          (by omega)
        have hat : (L.advance (splitSkip (a :: r0)).1).At (splitSkip (a :: r0)).2 :=
          Lexer.At.advance (by rw [happ]; exact h)
        have hlen := congrArg List.length happ
        simp only [List.length_append] at hlen
        simp only [Lexer.tokenizeLoop, h.eof_cons, Lexer.skipWhitespaceAndComments, hs,
          Bool.not_false, if_true]
        generalize hsk1 : (splitSkip (a :: r0)).1 = sk at *
        cases hsk2 : (splitSkip (a :: r0)).2 with
        | nil =>
          rw [hsk2] at hat happ
          simp only [hat.eof_nil, if_true, lex_nil _ _ _ hsk2]
          simp only [List.append_nil] at happ
          rw [happ, Lexer.advance_eq_after]
        | cons c t =>
          rw [hsk2] at hat happ hlen
          have hlex := lex_cons L.errorCodeMap (a :: r0) L.line c t hsk2
          rw [hsk1] at hlex
          obtain ⟨hsp1, hsp2, hsp3⟩ := lexToken_spec L.errorCodeMap c t (addLines L.line (newlines sk))
          have hlt := lexToken_length L.errorCodeMap c t (addLines L.line (newlines sk))
          simp only [hat.eof_cons, hat.peek_cons, Bool.false_eq_true, if_false]
          have hline : (L.advance sk).line = addLines L.line (newlines sk) := rfl
          have hmap : (L.advance sk).errorCodeMap = L.errorCodeMap := rfl
          have key : Lexer.tokenizeLoop n ((L.advance sk).after
                (lexToken L.errorCodeMap c t (addLines L.line (newlines sk))).1.lexeme
                [(lexToken L.errorCodeMap c t (addLines L.line (newlines sk))).1]
                (lexToken L.errorCodeMap c t (addLines L.line (newlines sk))).2.1) =
                some (L.after (a :: r0) (lex L.errorCodeMap (a :: r0) L.line).1
                  (lex L.errorCodeMap (a :: r0) L.line).2) := by
            generalize lexToken L.errorCodeMap c t (addLines L.line (newlines sk)) = q at *
            obtain ⟨tok, errs, rest⟩ := q
            simp only at hsp1 hlt hlex ⊢
            have hat2 : ((L.advance sk).after tok.lexeme [tok] errs).At rest :=
              Lexer.At.after (by rw [hsp1]; exact hat) _ _
            simp only [List.length_cons] at hlt hlen hk hf
            rw [ih rest (by omega) n _ hat2 (by omega), hlex]
            simp only [Lexer.advance_eq_after, Lexer.after_after, Lexer.after_errorCodeMap]
            have e1 : sk ++ tok.lexeme ++ rest = a :: r0 := by
              rw [List.append_assoc, hsp1, happ]
            have e3 : ∀ (x : List Token) (y : List (Int × Str)),
                (L.after (sk ++ tok.lexeme) x y).line
                  = addLines (addLines L.line (newlines sk)) (newlines tok.lexeme) := by
              intro x y
              rw [addLines_add]
              simp [Lexer.after, newlines_append]
            simp only [e3, e1, List.nil_append, List.singleton_append]
          by_cases h1 : (isalpha c || decide (c = '_')) = true
          · simp only [h1, if_true, readIdentifierOrKeyword_eq hat]
            simpa [lexToken, h1, hline] using key
          simp only [h1, if_false, Bool.false_eq_true]
          by_cases h2 : isdigit c = true
          · simp only [h2, if_true, readNumber_eq hat]
            simpa [lexToken, h1, h2, hline] using key
          simp only [h2, if_false, Bool.false_eq_true]
          by_cases h3 : c = DQUOTE
          · simp only [h3, if_true]
            rw [h3] at hat
            simp only [readString_eq hat]
            simpa [lexToken, h1, h2, h3, hline, hmap] using key
          simp only [h3, if_false]
          rw [(readOperatorOrDelimiter_eq hat).1]
          simpa [lexToken, h1, h2, h3, hline, hmap] using key

/-- On every input `tokenize` returns: the cursor is at the end of the input and the tokens and
diagnostics are those of `lex`. -/
theorem tokenize_eq (input : Str) (map : List (Str × Str)) :
    (Lexer.new input map).tokenize
      = some { input := input, pos := input.length, line := addLines 1 (newlines input),
               tokens := (lex map input 1).1, errors := (lex map input 1).2,
               errorCodeMap := map } := by
  unfold Lexer.tokenize
  rw [tokenizeLoop_eq input.length input (Nat.le_refl _) _ _ (Lexer.At.new input map)
    (by simp [Lexer.new])]
  simp [Lexer.after, Lexer.new]

/-! ## The order of the diagnostics -/

theorem strLess_asymm : ∀ (a b : Str), strLess a b = true → strLess b a = false
  | _, [], h => by simp [strLess] at h
  | [], _ :: _, _ => by simp [strLess]
  | a :: as, b :: bs, h => by
    simp only [strLess] at h ⊢
    by_cases h1 : a.toNat < b.toNat
    · have h2 : ¬ b.toNat < a.toNat := by omega
      simp [h1, h2]
    · by_cases h2 : b.toNat < a.toNat
      · simp [h1, h2] at h
      · simp only [h1, h2, if_false] at h ⊢
        exact strLess_asymm as bs h

theorem strLess_connex : ∀ (a b : Str), strLess a b = false → strLess b a = false → a = b
  | [], [], _, _ => rfl
  | [], _ :: _, h, _ => by simp [strLess] at h
  | _ :: _, [], _, h => by simp [strLess] at h
  | a :: as, b :: bs, h, h' => by
    simp only [strLess] at h h'
    by_cases h1 : a.toNat < b.toNat
    · simp [h1] at h
    · by_cases h2 : b.toNat < a.toNat
      · simp [h2] at h'
      · simp only [h1, h2, if_false] at h h'
        have e1 : a = b := by
          apply Char.ext
          apply UInt32.ext
          have : a.toNat = b.toNat := by omega
          exact this
        rw [e1, strLess_connex as bs h h']

theorem strLess_trans_le : ∀ (a b c : Str), strLess b a = false → strLess c b = false →
    strLess c a = false
  | [], _, c, _, _ => by cases c <;> simp [strLess]
  | _ :: _, [], _, h1, _ => by simp [strLess] at h1
  | _ :: _, _ :: _, [], _, h2 => by simp [strLess] at h2
  | x :: as, y :: bs, z :: cs, h1, h2 => by
    simp only [strLess] at h1 h2 ⊢
    by_cases hyx : y.toNat < x.toNat
    · simp [hyx] at h1
    by_cases hzy : z.toNat < y.toNat
    · simp [hzy] at h2
    simp only [hyx, hzy, if_false] at h1 h2
    have hzx : ¬ z.toNat < x.toNat := by omega
    simp only [hzx, if_false]
    by_cases hxz : x.toNat < z.toNat
    · simp [hxz]
    · have hxy : ¬ x.toNat < y.toNat := by omega
      have hyz : ¬ y.toNat < z.toNat := by omega
      simp only [hxy, hyz, if_false] at h1 h2
      simp only [hxz, if_false]
      exact strLess_trans_le as bs cs h1 h2

theorem errorLe_total (a b : Int × Str) : errorLe a b ∨ errorLe b a := by
  unfold errorLe errorLess
  by_cases h : a.1 = b.1
  · have h' : b.1 = a.1 := h.symm
    rw [if_neg (by simpa using h'), if_neg (by simpa using h)]
    cases hs : strLess a.2 b.2
    · exact Or.inr rfl
    · exact Or.inl (strLess_asymm _ _ hs)
  · have h' : ¬ b.1 = a.1 := fun e => h e.symm
    simp only [ne_eq, h, h', not_false_eq_true, if_true, decide_eq_false_iff_not]
    omega

theorem errorLe_trans (a b c : Int × Str) (h1 : errorLe a b) (h2 : errorLe b c) :
    errorLe a c := by
  unfold errorLe errorLess at *
  by_cases hab : a.1 = b.1
  · by_cases hbc : b.1 = c.1
    · have e1 : c.1 = a.1 := by omega
      have e2 : b.1 = a.1 := by omega
      have e3 : c.1 = b.1 := by omega
      rw [if_neg (by simpa using e2)] at h1
      rw [if_neg (by simpa using e3)] at h2
      rw [if_neg (by simpa using e1)]
      exact strLess_trans_le _ _ _ h1 h2
    · have e1 : ¬ c.1 = a.1 := by omega
      have e3 : ¬ c.1 = b.1 := by omega
      simp only [e1, e3, ne_eq, not_false_eq_true, if_true, decide_eq_false_iff_not] at h2 ⊢
      omega
  · have e2 : ¬ b.1 = a.1 := by omega
    simp only [e2, ne_eq, not_false_eq_true, if_true, decide_eq_false_iff_not] at h1
    by_cases hbc : b.1 = c.1
    · have e1 : ¬ c.1 = a.1 := by omega
      simp only [e1, ne_eq, not_false_eq_true, if_true, decide_eq_false_iff_not]
      omega
    · have e3 : ¬ c.1 = b.1 := by omega
      simp only [e3, ne_eq, not_false_eq_true, if_true, decide_eq_false_iff_not] at h2
      have e1 : ¬ c.1 = a.1 := by omega
      simp only [e1, ne_eq, not_false_eq_true, if_true, decide_eq_false_iff_not]
      omega

theorem errorLe_antisymm (a b : Int × Str) (h1 : errorLe a b) (h2 : errorLe b a) : a = b := by
  unfold errorLe errorLess at *
  by_cases hab : a.1 = b.1
  · have e2 : b.1 = a.1 := hab.symm
    rw [if_neg (by simpa using e2)] at h1
    rw [if_neg (by simpa using hab)] at h2
    exact Prod.ext hab (strLess_connex _ _ h2 h1)
  · have e2 : ¬ b.1 = a.1 := fun e => hab e.symm
    simp only [hab, e2, ne_eq, not_false_eq_true, if_true, decide_eq_false_iff_not] at h1 h2
    omega

theorem sortErrors_sorted (l : List (Int × Str)) : (sortErrors l).Pairwise errorLe :=
  @List.sorted_insertionSort _ errorLe _ ⟨errorLe_total⟩ ⟨errorLe_trans⟩ l

theorem sortErrors_perm (l : List (Int × Str)) : (sortErrors l).Perm l :=
  List.perm_insertionSort errorLe l

/-- The sorted arrangement is unique: whatever algorithm `std::sort` runs, its result is
`sortErrors`. -/
theorem sortErrors_unique (l l' : List (Int × Str)) (hp : l'.Perm l)
    (hs : l'.Pairwise errorLe) : l' = sortErrors l :=
  @List.eq_of_perm_of_sorted _ errorLe ⟨errorLe_antisymm⟩ _ _
    (hp.trans (sortErrors_perm l).symm) hs (sortErrors_sorted l)

theorem errorLe_iff (a b : Int × Str) :
    errorLe a b ↔ a.1 < b.1 ∨ (a.1 = b.1 ∧ strLess b.2 a.2 = false) := by
  unfold errorLe errorLess
  by_cases h : b.1 = a.1
  · have h' : a.1 = b.1 := h.symm
    simp [h]
  · have h' : ¬ a.1 = b.1 := fun e => h e.symm
    simp only [ne_eq, h, h', not_false_eq_true, if_true, decide_eq_false_iff_not, false_and,
      or_false]
    omega

/-! ## Lines of a file -/

theorem digitChar_ne_NL (n : Nat) : Nat.digitChar n ≠ NL := by
  rcases Nat.lt_or_ge n 16 with h | h
  · interval_cases n <;> decide
  · have : Nat.digitChar n = '*' := by
      unfold Nat.digitChar
      repeat rw [if_neg (by omega)]
    rw [this]; decide

theorem toDigitsCore_no_NL (fuel : Nat) : ∀ (n : Nat) (acc : Str), (∀ c ∈ acc, c ≠ NL) →
    ∀ c ∈ Nat.toDigitsCore 10 fuel n acc, c ≠ NL := by
  induction fuel with
  | zero => intro n acc h; simpa [Nat.toDigitsCore] using h
  | succ f ih =>
    intro n acc h
    unfold Nat.toDigitsCore
    have h2 : ∀ c ∈ Nat.digitChar (n % 10) :: acc, c ≠ NL := by
      intro c hc
      rcases List.mem_cons.mp hc with e | e
      · rw [e]; exact digitChar_ne_NL _
      · exact h c e
    by_cases hz : n / 10 = 0
    · simpa [hz] using h2
    · simpa [hz] using ih (n / 10) _ h2

theorem intToStr_no_NL (n : Int) : ∀ c ∈ intToStr n, c ≠ NL := by
  cases n with
  | ofNat k => exact toDigitsCore_no_NL _ _ _ (by simp)
  | negSucc k =>
    intro c hc
    rcases List.mem_cons.mp hc with e | e
    · rw [e]; decide
    · exact toDigitsCore_no_NL _ _ _ (by simp) c e

theorem digitChar_toNat (n : Nat) (h : n < 10) : (Nat.digitChar n).toNat = n + 48 := by
  interval_cases n <;> rfl

theorem toDigitsCore_value (fuel : Nat) : ∀ (n : Nat) (acc : Str), n < fuel →
    (Nat.toDigitsCore 10 fuel n acc).foldl (fun a c => 10 * a + (c.toNat - 48)) 0
      = acc.foldl (fun a c => 10 * a + (c.toNat - 48)) n := by
  induction fuel with
  | zero => intro n acc h; omega
  | succ f ih =>
    intro n acc h
    unfold Nat.toDigitsCore
    have hd : (Nat.digitChar (n % 10)).toNat - 48 = n % 10 := by
      rw [digitChar_toNat _ (Nat.mod_lt _ (by decide))]; omega
    by_cases hz : n / 10 = 0
    · simp only [hz, if_true, List.foldl_cons, hd]
      congr 1
      omega
    · simp only [hz, if_false]
      rw [ih (n / 10) _ (by omega), List.foldl_cons, hd]
      congr 1
      omega

theorem toDigitsCore_digits (fuel : Nat) : ∀ (n : Nat) (acc : Str),
    (∀ c ∈ acc, isdigit c = true) → ∀ c ∈ Nat.toDigitsCore 10 fuel n acc, isdigit c = true := by
  induction fuel with
  | zero => intro n acc h; simpa [Nat.toDigitsCore] using h
  | succ f ih =>
    intro n acc h
    unfold Nat.toDigitsCore
    have h2 : ∀ c ∈ Nat.digitChar (n % 10) :: acc, isdigit c = true := by
      intro c hc
      rcases List.mem_cons.mp hc with e | e
      · have := digitChar_toNat (n % 10) (Nat.mod_lt _ (by decide))
        rw [e]
        simp only [isdigit, Bool.and_eq_true, decide_eq_true_eq]
        omega
      · exact h c e
    by_cases hz : n / 10 = 0
    · simpa [hz] using h2
    · simpa [hz] using ih (n / 10) _ h2

theorem toDigitsCore_ne_nil (fuel : Nat) : ∀ (n : Nat) (acc : Str),
    Nat.toDigitsCore 10 (fuel + 1) n acc ≠ [] := by
  induction fuel with
  | zero =>
    intro n acc
    unfold Nat.toDigitsCore
    by_cases hz : n / 10 = 0 <;> simp [hz, Nat.toDigitsCore]
  | succ f ih =>
    intro n acc
    unfold Nat.toDigitsCore
    by_cases hz : n / 10 = 0
    · simp [hz]
    · simpa [hz] using ih (n / 10) _

/-- The text written for an `int` that is not negative is its decimal numeral: not empty, made
of digits, with the number as its value; for a negative one it is a minus sign followed by the
numeral of the magnitude. -/
theorem intToStr_spec (n : Nat) :
    intToStr (n : Int) ≠ [] ∧ (∀ c ∈ intToStr (n : Int), isdigit c = true) ∧
    (intToStr (n : Int)).foldl (fun a c => 10 * a + (c.toNat - 48)) 0 = n ∧
    intToStr (-((n : Int) + 1)) = '-' :: intToStr ((n : Int) + 1) := by
  refine ⟨toDigitsCore_ne_nil _ _ _, toDigitsCore_digits _ _ _ (by simp), ?_, ?_⟩
  · exact toDigitsCore_value _ _ _ (Nat.lt_succ_self n)
  · have e1 : -((n : Int) + 1) = Int.negSucc n := rfl
    have e2 : (n : Int) + 1 = Int.ofNat (n + 1) := rfl
    rw [e1, e2]
    rfl

theorem linesFrom_append (l : Str) (hl : ∀ c ∈ l, c ≠ NL) (rest cur : Str) :
    linesFrom (l ++ NL :: rest) cur = (cur ++ l) :: linesFrom rest [] := by
  induction l generalizing cur with
  | nil => simp [linesFrom]
  | cons c l ih =>
    have hc : c ≠ NL := hl c (by simp)
    rw [List.cons_append, linesFrom, if_neg hc, ih (fun x hx => hl x (by simp [hx]))]
    simp

/-- A text made of entries without a newline, each followed by a newline, has these entries
as its lines. -/
theorem fileLines_entries {α : Type} (f : α → Str) (l : List α)
    (h : ∀ x ∈ l, ∀ c ∈ f x, c ≠ NL) :
    fileLines ((l.map (fun x => f x ++ [NL])).flatten) = l.map f := by
  unfold fileLines
  induction l with
  | nil => simp [linesFrom]
  | cons x l ih =>
    simp only [List.map_cons, List.flatten_cons, List.append_assoc, List.singleton_append]
    rw [linesFrom_append _ (h x (by simp)), ih (fun y hy => h y (by simp [hy]))]
    simp

theorem linesFrom_length_of_terminated (text : Str) (cur : Str) :
    (linesFrom (text ++ [NL]) cur).length = newlines text + 1 := by
  induction text generalizing cur with
  | nil => simp [linesFrom, newlines]
  | cons c t ih =>
    by_cases hc : c = NL
    · rw [List.cons_append, linesFrom, if_pos hc, List.length_cons, ih, hc]
      simp [newlines]
    · rw [List.cons_append, linesFrom, if_neg hc, ih]
      simp [newlines, List.count_cons, hc]

/-! ## Properties of the scan -/

theorem splitSkip_start (c : Char) (t : Str) (h1 : isspace c = false) (h2 : c ≠ '/') :
    splitSkip (c :: t) = ([], c :: t) := by
  have hd : List.dropWhile isspace (c :: t) = c :: t := by simp [List.dropWhile_cons, h1]
  have ht : List.takeWhile isspace (c :: t) = [] := by simp [List.takeWhile_cons, h1]
  rw [splitSkip]
  split
  · rename_i c1 d1 t1 heq
    rw [hd] at heq
    injection heq with e1 e2
    subst e1
    simp [h2, ht, e2, h1]
  · rename_i heq
    rw [ht, hd]

theorem splitSkip_empty : splitSkip [] = ([], []) := by
  rw [splitSkip]; simp

theorem lex_empty (map : List (Str × Str)) (line : Int) : lex map [] line = ([], []) :=
  lex_nil map [] line (by rw [splitSkip_empty])

theorem lex_start (map : List (Str × Str)) (c : Char) (t : Str) (line : Int)
    (h1 : isspace c = false) (h2 : c ≠ '/') :
    lex map (c :: t) line =
      ((lexToken map c t line).1 ::
          (lex map (lexToken map c t line).2.2
            (addLines line (newlines (lexToken map c t line).1.lexeme))).1,
        (lexToken map c t line).2.1 ++
          (lex map (lexToken map c t line).2.2
            (addLines line (newlines (lexToken map c t line).1.lexeme))).2) := by
  have h := lex_cons map (c :: t) line c t (by rw [splitSkip_start c t h1 h2])
  rw [splitSkip_start c t h1 h2] at h
  simpa [newlines_nil] using h

/-- The result of `tokenize` on a fresh lexer, by fields. -/
theorem tokenize_new (input : Str) (map : List (Str × Str)) :
    ∃ L, (Lexer.new input map).tokenize = some L ∧ L.input = input ∧ L.pos = input.length ∧
      L.line = addLines 1 (newlines input) ∧ L.tokens = (lex map input 1).1 ∧
      L.errors = (lex map input 1).2 ∧ L.errorCodeMap = map :=
  ⟨_, tokenize_eq input map, rfl, rfl, rfl, rfl, rfl, rfl⟩

/-- Induction along the dispatch steps of `lex`. -/
theorem lex_induction (map : List (Str × Str))
    (P : Str → Int → List Token → List (Int × Str) → Prop)
    (hnil : ∀ r line, (splitSkip r).2 = [] → P r line [] [])
    (hcons : ∀ r line c t, (splitSkip r).2 = c :: t →
      ∀ toks errs,
        P (lexToken map c t (addLines line (newlines (splitSkip r).1))).2.2
          (addLines (addLines line (newlines (splitSkip r).1))
            (newlines (lexToken map c t (addLines line (newlines (splitSkip r).1))).1.lexeme))
          toks errs →
        P r line ((lexToken map c t (addLines line (newlines (splitSkip r).1))).1 :: toks)
          ((lexToken map c t (addLines line (newlines (splitSkip r).1))).2.1 ++ errs)) :
    ∀ (r : Str) (line : Int), P r line (lex map r line).1 (lex map r line).2 := by
  have main : ∀ (k : Nat) (r : Str), r.length ≤ k → ∀ line,
      P r line (lex map r line).1 (lex map r line).2 := by
    intro k
    induction k with
    | zero =>
      intro r hk line
      have hr : r = [] := List.length_eq_zero.mp (by omega)
      subst hr
      rw [lex_empty]
      exact hnil [] line (by rw [splitSkip_empty])
    | succ k ih =>
      intro r hk line
      cases hsk : (splitSkip r).2 with
      | nil =>
        rw [lex_nil map r line hsk]
        exact hnil r line hsk
      | cons c t =>
        rw [lex_cons map r line c t hsk]
        apply hcons r line c t hsk
        apply ih
        have h1 := lexToken_length map c t (addLines line (newlines (splitSkip r).1))
        have h2 := splitSkip_length r
        rw [hsk] at h2
        simp only [List.length_cons] at h1 h2
        omega
  intro r line
  exact main r.length r (Nat.le_refl _) line

theorem lexOperator_errors (map : List (Str × Str)) (c : Char) (t : Str) (line : Int) :
    ∀ e ∈ (lexOperator map c t line).2.1, e.1 = line ∧ e.2 ∈ codesOf map := by
  unfold lexOperator codesOf
  intro e he
  split_ifs at he <;> first
    | (simp at he; done)
    | (simp at he; subst he; simp)
    | (cases hk : singleCharKind c <;> rw [hk] at he <;> simp at he; subst he; simp)

theorem lexToken_errors (map : List (Str × Str)) (c : Char) (t : Str) (line : Int) :
    ∀ e ∈ (lexToken map c t line).2.1, e.1 = line ∧ e.2 ∈ codesOf map := by
  unfold lexToken
  intro e he
  split_ifs at he <;> first
    | (simp at he; done)
    | (simp at he; subst he; simp [codesOf])
    | exact lexOperator_errors map c t line e he

/-- Every diagnostic carries a code looked up in the error-code map under one of the four
keys. -/
theorem lex_errors_codes (map : List (Str × Str)) (r : Str) (line : Int) :
    ∀ e ∈ (lex map r line).2, e.2 ∈ codesOf map := by
  apply lex_induction map (fun _ _ _ errs => ∀ e ∈ errs, e.2 ∈ codesOf map)
  · intro r line _ e he
    simp at he
  · intro r line c t _ toks errs ih e he
    rcases List.mem_append.mp he with h | h
    · exact (lexToken_errors map c t _ e h).2
    · exact ih e h

theorem not_space_ne_NL {c : Char} (h : isspace c = false) : c ≠ NL := by
  rintro rfl
  revert h
  decide

theorem dropWhile_head_false {p : Char → Bool} : ∀ {l : Str} {c : Char} {t : Str},
    l.dropWhile p = c :: t → p c = false
  | [], _, _, h => by simp at h
  | a :: l, c, t, h => by
    rw [List.dropWhile_cons] at h
    by_cases ha : p a = true
    · rw [if_pos ha] at h
      exact dropWhile_head_false h
    · rw [if_neg ha] at h
      injection h with h1 _
      rw [← h1]
      simpa using ha

/-- What `skipWhitespaceAndComments` leaves does not begin with whitespace. -/
theorem splitSkip_head (k : Nat) : ∀ (r : Str), r.length ≤ k → ∀ (c : Char) (t : Str),
    (splitSkip r).2 = c :: t → isspace c = false := by
  induction k with
  | zero =>
    intro r hk c t h
    have hr : r = [] := List.length_eq_zero.mp (by omega)
    subst hr
    rw [splitSkip_empty] at h
    simp at h
  | succ k ih =>
    intro r hk c t h
    have hlen := (List.dropWhile_suffix (l := r) isspace).length_le
    rw [splitSkip] at h
    split at h
    · rename_i c1 d1 t1 heq
      rw [heq] at hlen
      simp only [List.length_cons] at hlen
      split_ifs at h
      · have h2 := (List.dropWhile_suffix (l := t1) (fun x => x != NL)).length_le
        exact ih _ (by omega) c t h
      · have h2 := splitBlock_length t1
        exact ih _ (by omega) c t h
      · simp only at h
        injection h with h1 _
        rw [← h1]
        exact dropWhile_head_false heq
    · simp only at h
      exact dropWhile_head_false h

theorem lexOperator_lexeme_no_NL (map : List (Str × Str)) (c : Char) (t : Str) (line : Int)
    (hc : c ≠ NL) : ∀ x ∈ (lexOperator map c t line).1.lexeme, x ≠ NL := by
  have key : ∀ x ∈ (lexOperator map c t line).1.lexeme, x = c ∨ x = '&' ∨ x = '|' ∨ x = '=' := by
    unfold lexOperator
    intro x hx
    split_ifs at hx <;> first
      | (cases hk : singleCharKind c <;> rw [hk] at hx <;> simp at hx <;> simp [hx])
      | (simp at hx; rcases hx with h | h <;> simp_all)
  intro x hx
  rcases key x hx with h | h | h | h
  · rw [h]; exact hc
  · rw [h]; decide
  · rw [h]; decide
  · rw [h]; decide

theorem lexToken_lexeme_no_NL (map : List (Str × Str)) (c : Char) (t : Str) (line : Int)
    (hc : isspace c = false) (hk : (lexToken map c t line).1.type ≠ .STRCON) :
    ∀ x ∈ (lexToken map c t line).1.lexeme, x ≠ NL := by
  unfold lexToken at hk ⊢
  intro x hx
  by_cases h1 : (isalpha c || decide (c = '_')) = true
  · rw [if_pos h1] at hx
    have := List.mem_takeWhile_imp hx
    rintro rfl
    revert this
    decide
  rw [if_neg h1] at hx hk
  by_cases h2 : isdigit c = true
  · rw [if_pos h2] at hx
    have := List.mem_takeWhile_imp hx
    rintro rfl
    revert this
    decide
  rw [if_neg h2] at hx hk
  by_cases h3 : c = DQUOTE
  · rw [if_pos h3] at hk
    exact absurd rfl hk
  rw [if_neg h3] at hx
  exact lexOperator_lexeme_no_NL map c t line (not_space_ne_NL hc) x hx

/-- Only the lexeme of a `STRCON` token can contain a newline byte. -/
theorem lex_lexeme_no_NL (map : List (Str × Str)) (r : Str) (line : Int) :
    ∀ t ∈ (lex map r line).1, t.type ≠ .STRCON → ∀ x ∈ t.lexeme, x ≠ NL := by
  apply lex_induction map (fun _ _ toks _ => ∀ t ∈ toks, t.type ≠ .STRCON →
    ∀ x ∈ t.lexeme, x ≠ NL)
  · intro r line _ t ht
    simp at ht
  · intro r line c t hsk toks errs ih tok htok
    rcases List.mem_cons.mp htok with h | h
    · rw [h]
      exact lexToken_lexeme_no_NL map c t _ (splitSkip_head _ r (Nat.le_refl _) c t hsk)
    · exact ih tok h

/-! ## The claims -/

theorem default_codes_no_NL : ∀ s ∈ codesOf initDefaultErrorMap, ∀ c ∈ s, c ≠ NL := by
  decide

theorem errorEntry_eq (e : Int × Str) : errorEntry e = (intToStr e.1 ++ ' ' :: e.2) ++ [NL] := by
  simp [errorEntry]

theorem writeOutputs_errors (L : Lexer) (h : L.errors ≠ []) :
    L.writeOutputs.2 =
      { lexerFile := none, errorFile := some ((sortErrors L.errors).map errorEntry).flatten } := by
  unfold Lexer.writeOutputs
  cases he : L.errors with
  | nil => exact absurd he h
  | cons a l => simp

theorem writeOutputs_tokens (L : Lexer) (h : L.errors = []) :
    L.writeOutputs.2 =
      { lexerFile := some (L.tokens.map tokenEntry).flatten, errorFile := none } := by
  unfold Lexer.writeOutputs
  simp [h]

/-- C1. Diagnostic dominance: on every input the canonical engine, run with the default
error-code map, terminates, and when it has recorded `n ≥ 1` diagnostics `writeOutputs` opens
no token file and writes a diagnostics file of exactly `n` lines, the lines being
`<line> <code>` for the recorded diagnostics, in sorted order. The `<line>` part
`intToStr e.1` is the decimal numeral of the line: not empty, made of digits, with the line as
its value (and, for a negative `int`, a minus sign followed by the numeral of the magnitude).
On `x`, newline, `&`, ten newlines, `|` no token file is written and the diagnostics file is
the two lines `2 a` and `12 b`. -/
theorem C1_diagnostic_dominance (input : Str) :
    (∃ L, (Lexer.new input initDefaultErrorMap).tokenize = some L ∧
      (1 ≤ L.errors.length →
        L.writeOutputs.2.lexerFile = none ∧
        ∃ text, L.writeOutputs.2.errorFile = some text ∧
          (fileLines text).length = L.errors.length ∧
          fileLines text = (sortErrors L.errors).map (fun e => intToStr e.1 ++ ' ' :: e.2) ∧
          ∀ l ∈ fileLines text, ∃ e ∈ L.errors, l = intToStr e.1 ++ ' ' :: e.2)) ∧
    (∀ n : Nat, intToStr (n : Int) ≠ [] ∧ (∀ c ∈ intToStr (n : Int), isdigit c = true) ∧
      (intToStr (n : Int)).foldl (fun a c => 10 * a + (c.toNat - 48)) 0 = n ∧
      intToStr (-((n : Int) + 1)) = '-' :: intToStr ((n : Int) + 1)) ∧
    compile "x\n&\n\n\n\n\n\n\n\n\n\n|".toList
      = some { lexerFile := none, errorFile := some "2 a\n12 b\n".toList } ∧
    fileLines "2 a\n12 b\n".toList = ["2 a".toList, "12 b".toList] := by
  refine ⟨?_, intToStr_spec, by decide, by decide⟩
  obtain ⟨L, h, _, _, _, _, herr, _⟩ := tokenize_new input initDefaultErrorMap
  refine ⟨L, h, ?_⟩
  intro hn
  have hne : L.errors ≠ [] := by
    intro e; rw [e] at hn; simp at hn
  rw [writeOutputs_errors L hne]
  refine ⟨rfl, _, rfl, ?_⟩
  have hperm := sortErrors_perm L.errors
  have hlines : fileLines ((sortErrors L.errors).map errorEntry).flatten
      = (sortErrors L.errors).map (fun e => intToStr e.1 ++ ' ' :: e.2) := by
    have : (sortErrors L.errors).map errorEntry
        = (sortErrors L.errors).map (fun e => (intToStr e.1 ++ ' ' :: e.2) ++ [NL]) := by
      apply List.map_congr_left
      intro e _
      exact errorEntry_eq e
    rw [this]
    apply fileLines_entries
    intro e he c hc
    have he' : e ∈ L.errors := hperm.mem_iff.mp he
    rw [herr] at he'
    have hcode := lex_errors_codes initDefaultErrorMap input 1 e he'
    rcases List.mem_append.mp hc with h1 | h1
    · exact intToStr_no_NL _ c h1
    · rcases List.mem_cons.mp h1 with h2 | h2
      · rw [h2]; decide
      · exact default_codes_no_NL _ hcode c h2
  refine ⟨?_, hlines, ?_⟩
  · rw [hlines, List.length_map, hperm.length_eq]
  · intro l hl
    rw [hlines] at hl
    obtain ⟨e, he, rfl⟩ := List.mem_map.mp hl
    exact ⟨e, hperm.mem_iff.mp he, rfl⟩

theorem C1_diagnostic_dominance_witness :
    ∃ L, (Lexer.new "a & b".toList initDefaultErrorMap).tokenize = some L ∧
      1 ≤ L.errors.length ∧ L.tokens.length = 3 ∧
      L.writeOutputs.2.lexerFile = none ∧
      ∃ text, L.writeOutputs.2.errorFile = some text ∧ (fileLines text).length = 1 ∧
        fileLines text = ["1 a".toList] := by
  obtain ⟨L, h, hc⟩ := (C1_diagnostic_dominance "a & b".toList).1
  have hL : (Lexer.new "a & b".toList initDefaultErrorMap).tokenize
      = some { input := "a & b".toList, pos := 5, line := 1,
               tokens := [⟨.IDENFR, "a".toList, 1⟩, ⟨.UNKNOWN, "&".toList, 1⟩,
                 ⟨.IDENFR, "b".toList, 1⟩],
               errors := [(1, "a".toList)], errorCodeMap := initDefaultErrorMap } := by
    decide
  rw [hL] at h
  cases h
  obtain ⟨h1, text, h2, h3, h4, _⟩ := hc (by decide)
  exact ⟨_, hL, by decide, by decide, h1, text, h2, h3, h4.trans (by decide)⟩

/-- C2. Diagnostic ordering: for every lexer whose diagnostic sequence is not empty, the
diagnostics file written by `writeOutputs` is the text `<line> <code>` newline, entry after
entry, of a list `sorted` that is a permutation of the accumulated pairs and in which every
entry is followed only by entries with a larger line, or with the same line and a code that is
not smaller as a string; when no code contains a newline these entries are the lines of the
file. The input `| &` records (1,b),(1,a) and is rendered as `1 a` then `1 b`. -/
theorem C2_diagnostic_ordering (L : Lexer) (h : L.errors ≠ []) :
    (∃ sorted : List (Int × Str),
      L.writeOutputs.2.errorFile
        = some ((sorted.map (fun e => intToStr e.1 ++ ' ' :: e.2 ++ [NL])).flatten) ∧
      sorted.Perm L.errors ∧
      sorted.Pairwise (fun a b => a.1 < b.1 ∨ (a.1 = b.1 ∧ strLess b.2 a.2 = false)) ∧
      ((∀ e ∈ L.errors, ∀ c ∈ e.2, c ≠ NL) →
        ∀ text, L.writeOutputs.2.errorFile = some text →
          fileLines text = sorted.map (fun e => intToStr e.1 ++ ' ' :: e.2))) ∧
    (∃ L0, (Lexer.new "| &".toList initDefaultErrorMap).tokenize = some L0 ∧
      L0.errors = [(1, "b".toList), (1, "a".toList)] ∧
      L0.writeOutputs.2.errorFile = some "1 a\n1 b\n".toList ∧
      fileLines "1 a\n1 b\n".toList = ["1 a".toList, "1 b".toList]) := by
  refine ⟨⟨sortErrors L.errors, ?_, sortErrors_perm _, ?_, ?_⟩, ?_⟩
  · rw [writeOutputs_errors L h]
    have : (sortErrors L.errors).map errorEntry
        = (sortErrors L.errors).map (fun e => intToStr e.1 ++ ' ' :: e.2 ++ [NL]) := by
      apply List.map_congr_left
      intro e _
      simp [errorEntry]
    rw [this]
  · exact (sortErrors_sorted L.errors).imp (fun {a b} hab => (errorLe_iff a b).mp hab)
  · intro hnl text ht
    rw [writeOutputs_errors L h] at ht
    simp only [Option.some.injEq] at ht
    rw [← ht]
    have : (sortErrors L.errors).map errorEntry
        = (sortErrors L.errors).map (fun e => (intToStr e.1 ++ ' ' :: e.2) ++ [NL]) := by
      apply List.map_congr_left
      intro e _
      exact errorEntry_eq e
    rw [this]
    apply fileLines_entries
    intro e he c hc
    have he' : e ∈ L.errors := (sortErrors_perm L.errors).mem_iff.mp he
    rcases List.mem_append.mp hc with h1 | h1
    · exact intToStr_no_NL _ c h1
    · rcases List.mem_cons.mp h1 with h2 | h2
      · rw [h2]; decide
      · exact hnl e he' c h2
  · exact ⟨_, rfl, by decide, by decide, by decide⟩

theorem C2_diagnostic_ordering_witness :
    ∃ sorted : List (Int × Str),
      (Lexer.writeOutputs ⟨"| &".toList, 3, 1,
          [⟨.UNKNOWN, "|".toList, 1⟩, ⟨.UNKNOWN, "&".toList, 1⟩],
          [(1, "b".toList), (1, "a".toList)], initDefaultErrorMap⟩).2.errorFile
        = some ((sorted.map (fun e => intToStr e.1 ++ ' ' :: e.2 ++ [NL])).flatten) ∧
      sorted.Perm [(1, "b".toList), (1, "a".toList)] ∧
      sorted.Pairwise (fun a b => a.1 < b.1 ∨ (a.1 = b.1 ∧ strLess b.2 a.2 = false)) := by
  obtain ⟨⟨sorted, h1, h2, h3, _⟩, _⟩ := C2_diagnostic_ordering
    ⟨"| &".toList, 3, 1, [⟨.UNKNOWN, "|".toList, 1⟩, ⟨.UNKNOWN, "&".toList, 1⟩],
      [(1, "b".toList), (1, "a".toList)], initDefaultErrorMap⟩ (by decide)
  exact ⟨sorted, h1, h2, h3⟩

theorem tokenTypeToString_no_NL (k : TokenType) : ∀ c ∈ tokenTypeToString k, c ≠ NL := by
  cases k <;> decide

theorem linesFrom_length_append (text rest cur : Str) :
    (linesFrom (text ++ NL :: rest) cur).length
      = newlines text + 1 + (linesFrom rest []).length := by
  induction text generalizing cur with
  | nil => simp [linesFrom, newlines]; omega
  | cons c t ih =>
    by_cases hc : c = NL
    · rw [List.cons_append, linesFrom, if_pos hc, List.length_cons, ih, hc]
      simp [newlines]; omega
    · rw [List.cons_append, linesFrom, if_neg hc, ih]
      simp [newlines, List.count_cons, hc]

theorem fileLines_tokens_length (toks : List Token) :
    (fileLines (toks.map tokenEntry).flatten).length
      = toks.length + (toks.map (fun t => newlines t.lexeme)).sum := by
  unfold fileLines
  induction toks with
  | nil => simp [linesFrom]
  | cons t l ih =>
    have e : tokenEntry t = (tokenTypeToString t.type ++ ' ' :: t.lexeme) ++ [NL] := by
      simp [tokenEntry]
    have hname : newlines (tokenTypeToString t.type) = 0 := by
      unfold newlines
      exact List.count_eq_zero.mpr (fun hm => tokenTypeToString_no_NL t.type NL hm rfl)
    have hsp : newlines [' '] = 0 := by decide
    simp only [List.map_cons, List.flatten_cons, e, List.append_assoc, List.singleton_append]
    rw [← List.append_assoc, linesFrom_length_append, ih, newlines_append, hname,
      newlines_cons]
    simp [List.sum_cons, NL]
    omega

/-- C3. Token artifact format: on every input the canonical engine terminates, and when it
has recorded no diagnostic `writeOutputs` opens no diagnostics file and writes, for each token
in recognition order, `tokenTypeToString` of its kind, one space, its lexeme and a newline.
For `int main(){return 0;}` the tokens are the nine listed, no diagnostic is recorded, and
the file is the nine entries. -/
theorem C3_token_artifact_format :
    (∀ (input : Str) (map : List (Str × Str)),
      ∃ L, (Lexer.new input map).tokenize = some L ∧
        (L.errors = [] →
          L.writeOutputs.2.errorFile = none ∧
          L.writeOutputs.2.lexerFile = some ((L.tokens.map
            (fun t => tokenTypeToString t.type ++ [' '] ++ t.lexeme ++ [NL])).flatten))) ∧
    (∃ L, (Lexer.new "int main(){return 0;}".toList initDefaultErrorMap).tokenize = some L ∧
      L.errors = [] ∧
      L.tokens = [⟨.INTTK, "int".toList, 1⟩, ⟨.MAINTK, "main".toList, 1⟩,
        ⟨.LPARENT, "(".toList, 1⟩, ⟨.RPARENT, ")".toList, 1⟩, ⟨.LBRACE, [Char.ofNat 123], 1⟩,
        ⟨.RETURNTK, "return".toList, 1⟩, ⟨.INTCON, "0".toList, 1⟩, ⟨.SEMICN, ";".toList, 1⟩,
        ⟨.RBRACE, [Char.ofNat 125], 1⟩] ∧
      L.writeOutputs.2.lexerFile = some
        ("INTTK int\nMAINTK main\nLPARENT (\nRPARENT )\nLBRACE ".toList ++ [Char.ofNat 123, NL]
          ++ "RETURNTK return\nINTCON 0\nSEMICN ;\nRBRACE ".toList ++ [Char.ofNat 125, NL]) ∧
      (L.writeOutputs.2.lexerFile.map fileLines) = some
        ["INTTK int".toList, "MAINTK main".toList, "LPARENT (".toList, "RPARENT )".toList,
          "LBRACE ".toList ++ [Char.ofNat 123], "RETURNTK return".toList, "INTCON 0".toList,
          "SEMICN ;".toList, "RBRACE ".toList ++ [Char.ofNat 125]]) := by
  refine ⟨?_, ?_⟩
  · intro input map
    obtain ⟨L, h, _⟩ := tokenize_new input map
    refine ⟨L, h, fun he => ?_⟩
    rw [writeOutputs_tokens L he]
    exact ⟨rfl, rfl⟩
  · exact ⟨_, rfl, by decide, by decide, by decide, by decide⟩

theorem C3_token_artifact_format_witness :
    ∃ L, (Lexer.new "x=1".toList initDefaultErrorMap).tokenize = some L ∧
      L.errors = [] ∧
      L.writeOutputs.2.lexerFile = some "IDENFR x\nASSIGN =\nINTCON 1\n".toList := by
  obtain ⟨L, h, hc⟩ := C3_token_artifact_format.1 "x=1".toList initDefaultErrorMap
  have hL : (Lexer.new "x=1".toList initDefaultErrorMap).tokenize
      = some ⟨"x=1".toList, 3, 1, [⟨.IDENFR, "x".toList, 1⟩, ⟨.ASSIGN, "=".toList, 1⟩,
          ⟨.INTCON, "1".toList, 1⟩], [], initDefaultErrorMap⟩ := by
    decide
  rw [hL] at h
  cases h
  exact ⟨_, hL, rfl, (hc rfl).2⟩

/-- C4 as stated fails: the string literal of the five-byte input `"a`, newline, `b"` is
one token, no diagnostic is recorded, and the token file has two lines. -/
theorem C4_one_line_per_token_counterexample :
    ¬ (∀ (input : Str) (L : Lexer),
        (Lexer.new input initDefaultErrorMap).tokenize = some L → L.errors = [] →
        ∀ text, L.writeOutputs.2.lexerFile = some text →
          (fileLines text).length = L.tokens.length) := by
  intro h
  have h1 := h [DQUOTE, 'a', NL, 'b', DQUOTE] _ rfl (by decide) _ rfl
  revert h1
  decide

/-- C4, amended. Lines of the token artifact: on every input the canonical engine
terminates, and when it has recorded no diagnostic the token file written by `writeOutputs`
has as many lines as there are tokens plus the number of newline bytes inside the lexemes;
only the lexeme of a `STRCON` token can contain a newline byte, so the file has exactly one
line per token when no string literal contains one. -/
theorem C4_lines_of_token_artifact (input : Str) (map : List (Str × Str)) :
    ∃ L, (Lexer.new input map).tokenize = some L ∧
      (∀ t ∈ L.tokens, t.type ≠ .STRCON → ∀ c ∈ t.lexeme, c ≠ NL) ∧
      (L.errors = [] →
        ∃ text, L.writeOutputs.2.lexerFile = some text ∧
          (fileLines text).length
            = L.tokens.length + (L.tokens.map (fun t => newlines t.lexeme)).sum ∧
          ((∀ t ∈ L.tokens, t.type = .STRCON → ∀ c ∈ t.lexeme, c ≠ NL) →
            (fileLines text).length = L.tokens.length)) := by
  obtain ⟨L, h, _, _, _, htok, _⟩ := tokenize_new input map
  have hns : ∀ t ∈ L.tokens, t.type ≠ .STRCON → ∀ c ∈ t.lexeme, c ≠ NL := by
    rw [htok]
    exact lex_lexeme_no_NL map input 1
  refine ⟨L, h, hns, fun he => ?_⟩
  rw [writeOutputs_tokens L he]
  refine ⟨_, rfl, fileLines_tokens_length L.tokens, fun hnl => ?_⟩
  rw [fileLines_tokens_length]
  have : (L.tokens.map (fun t => newlines t.lexeme)).sum = 0 := by
    apply List.sum_eq_zero
    intro x hx
    obtain ⟨t, ht, rfl⟩ := List.mem_map.mp hx
    unfold newlines
    apply List.count_eq_zero.mpr
    intro hm
    by_cases hk : t.type = .STRCON
    · exact hnl t ht hk NL hm rfl
    · exact hns t ht hk NL hm rfl
  omega

theorem C4_lines_of_token_artifact_witness :
    ∃ L, (Lexer.new [DQUOTE, 'a', NL, 'b', DQUOTE] initDefaultErrorMap).tokenize = some L ∧
      L.errors = [] ∧ L.tokens.length = 1 ∧
      ∃ text, L.writeOutputs.2.lexerFile = some text ∧ (fileLines text).length = 1 + 1 := by
  obtain ⟨L, h, hc⟩ := C4_lines_of_token_artifact [DQUOTE, 'a', NL, 'b', DQUOTE]
    initDefaultErrorMap
  have hL : (Lexer.new [DQUOTE, 'a', NL, 'b', DQUOTE] initDefaultErrorMap).tokenize
      = some ⟨[DQUOTE, 'a', NL, 'b', DQUOTE], 5, 2,
          [⟨.STRCON, [DQUOTE, 'a', NL, 'b', DQUOTE], 1⟩], [], initDefaultErrorMap⟩ := by
    decide
  rw [hL] at h
  cases h
  obtain ⟨text, h1, h2, _⟩ := hc.2 rfl
  exact ⟨_, hL, rfl, rfl, text, h1, h2⟩

theorem isalpha_not_space {c : Char} (h : isalpha c = true ∨ c = '_') : isspace c = false := by
  rcases h with h | h
  · simp only [isalpha, isspace, Bool.or_eq_true, Bool.and_eq_true, decide_eq_true_eq,
      Bool.or_eq_false_iff, beq_eq_false_iff_ne, Bool.and_eq_false_iff,
      decide_eq_false_iff_not] at h ⊢
    omega
  · subst h; decide

theorem isalpha_not_slash {c : Char} (h : isalpha c = true ∨ c = '_') : c ≠ '/' := by
  rintro rfl
  revert h
  decide

theorem takeWhile_eq_self {p : Char → Bool} {s : Str} (h : ∀ x ∈ s, p x = true) :
    s.takeWhile p = s := by
  induction s with
  | nil => rfl
  | cons c t ih =>
    rw [List.takeWhile_cons, if_pos (h c (by simp)), ih (fun x hx => h x (by simp [hx]))]

theorem dropWhile_eq_nil {p : Char → Bool} {s : Str} (h : ∀ x ∈ s, p x = true) :
    s.dropWhile p = [] := by
  induction s with
  | nil => rfl
  | cons c t ih =>
    rw [List.dropWhile_cons, if_pos (h c (by simp)), ih (fun x hx => h x (by simp [hx]))]

theorem isIdent_no_NL {s : Str} (h : ∀ x ∈ s, isIdent x = true) : newlines s = 0 := by
  unfold newlines
  apply List.count_eq_zero.mpr
  intro hm
  have := h NL hm
  revert this
  decide

/-- C5. Keyword classification: for every spelling `s` that begins with an ASCII letter or
underscore and consists of ASCII letters, digits and underscores, `tokenize` on the input `s`
terminates with exactly one token, of lexeme `s` on line 1, and no diagnostic; the kind of
the token is the keyword kind when `s` is one of the twelve reserved spellings and `IDENFR`
for every other such `s`. -/
theorem C5_keyword_classification (s : Str) (map : List (Str × Str)) (c : Char) (t : Str)
    (hs : s = c :: t) (hc : isalpha c = true ∨ c = '_')
    (ht : ∀ x ∈ s, isalnum x = true ∨ x = '_') :
    ∃ k : TokenType,
      (Lexer.new s map).tokenize
        = some { input := s, pos := s.length, line := 1, tokens := [⟨k, s, 1⟩], errors := [],
                 errorCodeMap := map } ∧
      (s = "const".toList → k = .CONSTTK) ∧ (s = "int".toList → k = .INTTK) ∧
      (s = "main".toList → k = .MAINTK) ∧ (s = "break".toList → k = .BREAKTK) ∧
      (s = "continue".toList → k = .CONTINUETK) ∧ (s = "if".toList → k = .IFTK) ∧
      (s = "else".toList → k = .ELSETK) ∧ (s = "for".toList → k = .FORTK) ∧
      (s = "printf".toList → k = .PRINTFTK) ∧ (s = "return".toList → k = .RETURNTK) ∧
      (s = "void".toList → k = .VOIDTK) ∧ (s = "static".toList → k = .STATICTK) ∧
      (s ∉ ["const".toList, "int".toList, "main".toList, "break".toList, "continue".toList,
          "if".toList, "else".toList, "for".toList, "printf".toList, "return".toList,
          "void".toList, "static".toList] → k = .IDENFR) := by
  have hid : ∀ x ∈ s, isIdent x = true := by
    intro x hx
    rcases ht x hx with h | h
    · simp [isIdent, h]
    · simp [isIdent, h]
  have htw : s.takeWhile isIdent = s := takeWhile_eq_self hid
  have hdw : s.dropWhile isIdent = [] := dropWhile_eq_nil hid
  have hal : (isalpha c || decide (c = '_')) = true := by
    rcases hc with h | h
    · simp [h]
    · simp [h]
  have hlex : lex map s 1 = ([⟨wordKind s, s, 1⟩], []) := by
    rw [hs, lex_start map c t 1 (isalpha_not_space hc) (isalpha_not_slash hc)]
    simp only [lexToken, hal, if_true]
    rw [← hs, htw, hdw, lex_empty]
    simp
  refine ⟨wordKind s, ?_, ?_⟩
  · rw [tokenize_eq, hlex]
    have : newlines s = 0 := isIdent_no_NL hid
    simp [this]
  · refine ⟨?_, ?_, ?_, ?_, ?_, ?_, ?_, ?_, ?_, ?_, ?_, ?_, ?_⟩ <;> intro h
    iterate 12 (rw [h]; decide)
    simp only [List.mem_cons, List.mem_nil_iff, or_false, not_or] at h
    obtain ⟨h1, h2, h3, h4, h5, h6, h7, h8, h9, h10, h11, h12⟩ := h
    have e : ∀ (a b : Str), a ≠ b → (a == b) = false := fun a b hab => by simpa using hab
    simp only [wordKind, initKeywords, List.lookup, e _ _ h1, e _ _ h2, e _ _ h3, e _ _ h4,
      e _ _ h5, e _ _ h6, e _ _ h7, e _ _ h8, e _ _ h9, e _ _ h10, e _ _ h11, e _ _ h12]

theorem C5_keyword_classification_witness :
    (isalpha 'i' = true ∨ 'i' = '_') ∧ (∀ x ∈ "intx".toList, isalnum x = true ∨ x = '_') ∧
    (Lexer.new "intx".toList initDefaultErrorMap).tokenize
      = some { input := "intx".toList, pos := 4, line := 1,
               tokens := [⟨.IDENFR, "intx".toList, 1⟩], errors := [],
               errorCodeMap := initDefaultErrorMap } := by
  have hc : isalpha 'i' = true ∨ 'i' = '_' := by decide
  have ht : ∀ x ∈ "intx".toList, isalnum x = true ∨ x = '_' := by decide
  obtain ⟨k, h1, h2⟩ := C5_keyword_classification "intx".toList initDefaultErrorMap 'i'
    "ntx".toList rfl hc ht
  have hk : k = .IDENFR := h2.2.2.2.2.2.2.2.2.2.2.2.2 (by decide)
  rw [hk] at h1
  exact ⟨hc, ht, h1⟩

theorem lexToken_operator (map : List (Str × Str)) (c : Char) (t : Str) (line : Int)
    (h1 : isalpha c = false) (h2 : c ≠ '_') (h3 : isdigit c = false) (h4 : c ≠ DQUOTE) :
    lexToken map c t line = lexOperator map c t line := by
  simp [lexToken, h1, h2, h3, h4]

/-- C6. Maximal munch: for each of the two-character operators `&&`, `||`, `==`, `!=`, `<=`,
`>=` and every suffix `r`, `tokenize` on the operator followed by `r` terminates and its first
token has the operator as lexeme, line 1 and the kind `AND`, `OR`, `EQL`, `NEQ`, `LEQ`, `GEQ`
respectively; on the operator alone the result is exactly that one token and no diagnostic. -/
theorem C6_maximal_munch (r : Str) (map : List (Str × Str)) (op : Str) (k : TokenType)
    (h : (op, k) ∈ [("&&".toList, TokenType.AND), ("||".toList, TokenType.OR),
      ("==".toList, TokenType.EQL), ("!=".toList, TokenType.NEQ),
      ("<=".toList, TokenType.LEQ), (">=".toList, TokenType.GEQ)]) :
    (∃ L, (Lexer.new (op ++ r) map).tokenize = some L ∧
      L.tokens.head? = some ⟨k, op, 1⟩) ∧
    (Lexer.new op map).tokenize
      = some { input := op, pos := 2, line := 1, tokens := [⟨k, op, 1⟩], errors := [],
               errorCodeMap := map } := by
  have key : ∀ (c d : Char) (kind : TokenType), isspace c = false → c ≠ '/' →
      isalpha c = false → c ≠ '_' → isdigit c = false → c ≠ DQUOTE → newlines [c, d] = 0 →
      (∀ t, (lexOperator map c (d :: t) 1) = (⟨kind, [c, d], 1⟩, [], t)) →
      (∃ L, (Lexer.new ([c, d] ++ r) map).tokenize = some L ∧
        L.tokens.head? = some ⟨kind, [c, d], 1⟩) ∧
      (Lexer.new [c, d] map).tokenize
        = some { input := [c, d], pos := 2, line := 1, tokens := [⟨kind, [c, d], 1⟩],
                 errors := [], errorCodeMap := map } := by
    intro c d kind h1 h2 h3 h4 h5 h6 h7 h8
    refine ⟨⟨_, tokenize_eq _ _, ?_⟩, ?_⟩
    · simp only [List.cons_append, List.nil_append]
      rw [lex_start map c (d :: r) 1 h1 h2, lexToken_operator map c _ 1 h3 h4 h5 h6, h8]
      rfl
    · rw [tokenize_eq, lex_start map c [d] 1 h1 h2, lexToken_operator map c _ 1 h3 h4 h5 h6,
        h8, lex_empty, h7]
      rfl
  simp only [List.mem_cons, Prod.mk.injEq, List.mem_nil_iff, or_false] at h
  rcases h with ⟨rfl, rfl⟩ | ⟨rfl, rfl⟩ | ⟨rfl, rfl⟩ | ⟨rfl, rfl⟩ | ⟨rfl, rfl⟩ | ⟨rfl, rfl⟩
  · exact key '&' '&' _ (by decide) (by decide) (by decide) (by decide) (by decide) (by decide)
      (by decide) (fun t => by simp [lexOperator])
  · exact key '|' '|' _ (by decide) (by decide) (by decide) (by decide) (by decide) (by decide)
      (by decide) (fun t => by simp [lexOperator])
  · exact key '=' '=' _ (by decide) (by decide) (by decide) (by decide) (by decide) (by decide)
      (by decide) (fun t => by simp [lexOperator])
  · exact key '!' '=' _ (by decide) (by decide) (by decide) (by decide) (by decide) (by decide)
      (by decide) (fun t => by simp [lexOperator])
  · exact key '<' '=' _ (by decide) (by decide) (by decide) (by decide) (by decide) (by decide)
      (by decide) (fun t => by simp [lexOperator])
  · exact key '>' '=' _ (by decide) (by decide) (by decide) (by decide) (by decide) (by decide)
      (by decide) (fun t => by simp [lexOperator])

theorem C6_maximal_munch_witness :
    (∃ L, (Lexer.new ("&&".toList ++ "&x".toList) initDefaultErrorMap).tokenize = some L ∧
      L.tokens.head? = some ⟨.AND, "&&".toList, 1⟩) ∧
    (Lexer.new "&&".toList initDefaultErrorMap).tokenize
      = some { input := "&&".toList, pos := 2, line := 1,
               tokens := [⟨.AND, "&&".toList, 1⟩], errors := [],
               errorCodeMap := initDefaultErrorMap } :=
  C6_maximal_munch "&x".toList initDefaultErrorMap "&&".toList .AND (by decide)

theorem headD_ne_of_head?_ne {r : Str} {x : Char} (h : r.head? ≠ some x) (hx : x ≠ NUL) :
    r.headD NUL ≠ x := by
  cases r with
  | nil => simpa using fun e => hx e.symm
  | cons a t => simpa using h

theorem lexOperator_amp (map : List (Str × Str)) (t : Str) (line : Int)
    (h : t.headD NUL ≠ '&') :
    lexOperator map '&' t line
      = (⟨.UNKNOWN, "&".toList, line⟩, [(line, codeOf map "single&".toList)], t) := by
  unfold lexOperator
  rw [if_pos rfl, if_neg h]

theorem lexOperator_pipe (map : List (Str × Str)) (t : Str) (line : Int)
    (h : t.headD NUL ≠ '|') :
    lexOperator map '|' t line
      = (⟨.UNKNOWN, "|".toList, line⟩, [(line, codeOf map "single|".toList)], t) := by
  unfold lexOperator
  rw [if_neg (by decide), if_pos rfl, if_neg h]

/-- C7. Single `&` and `|`: for every suffix `r` that does not begin with `&`, `tokenize` on
`&` followed by `r` terminates, its first token is `UNKNOWN` with lexeme `&` on line 1, and
its first diagnostic is line 1 with the code bound to `single&`; the same holds for `|`, a
suffix not beginning with `|`, and the code bound to `single|`. On the input `a & b` with the
default map the output is the diagnostics file with the single line `1 a`, and no token
file. -/
theorem C7_single_amp_pipe (r : Str) (map : List (Str × Str)) :
    (r.head? ≠ some '&' →
      ∃ L, (Lexer.new ('&' :: r) map).tokenize = some L ∧
        L.tokens.head? = some ⟨.UNKNOWN, "&".toList, 1⟩ ∧
        L.errors.head? = some (1, (Lexer.new ('&' :: r) map).code "single&".toList)) ∧
    (r.head? ≠ some '|' →
      ∃ L, (Lexer.new ('|' :: r) map).tokenize = some L ∧
        L.tokens.head? = some ⟨.UNKNOWN, "|".toList, 1⟩ ∧
        L.errors.head? = some (1, (Lexer.new ('|' :: r) map).code "single|".toList)) ∧
    (compile "a & b".toList = some { lexerFile := none, errorFile := some "1 a\n".toList } ∧
      fileLines "1 a\n".toList = ["1 a".toList]) := by
  refine ⟨fun h => ⟨_, tokenize_eq _ _, ?_, ?_⟩, fun h => ⟨_, tokenize_eq _ _, ?_, ?_⟩,
    by decide, by decide⟩
  · have hh := headD_ne_of_head?_ne h (by decide)
    simp only
    rw [lex_start map '&' r 1 (by decide) (by decide),
      lexToken_operator map '&' _ 1 (by decide) (by decide) (by decide) (by decide)]
    rw [lexOperator_amp map r 1 hh]
    rfl
  · have hh := headD_ne_of_head?_ne h (by decide)
    simp only
    rw [lex_start map '&' r 1 (by decide) (by decide),
      lexToken_operator map '&' _ 1 (by decide) (by decide) (by decide) (by decide)]
    rw [lexOperator_amp map r 1 hh]
    rfl
  · have hh := headD_ne_of_head?_ne h (by decide)
    simp only
    rw [lex_start map '|' r 1 (by decide) (by decide),
      lexToken_operator map '|' _ 1 (by decide) (by decide) (by decide) (by decide)]
    rw [lexOperator_pipe map r 1 hh]
    rfl
  · have hh := headD_ne_of_head?_ne h (by decide)
    simp only
    rw [lex_start map '|' r 1 (by decide) (by decide),
      lexToken_operator map '|' _ 1 (by decide) (by decide) (by decide) (by decide)]
    rw [lexOperator_pipe map r 1 hh]
    rfl

theorem C7_single_amp_pipe_witness :
    "|&x".toList.head? ≠ some '&' ∧
    ∃ L, (Lexer.new ('&' :: "|&x".toList) initDefaultErrorMap).tokenize = some L ∧
      L.tokens.head? = some ⟨.UNKNOWN, "&".toList, 1⟩ ∧
      L.errors.head? = some (1, "a".toList) :=
  ⟨by decide, (C7_single_amp_pipe "|&x".toList initDefaultErrorMap).1 (by decide)⟩

/-- C8. Illegal character: for every byte `c` that is not whitespace, not an ASCII letter,
digit or underscore, not the double quote and not one of the operator and delimiter bytes,
`tokenize` on the one-byte input `c` terminates with exactly one token, `UNKNOWN` with
lexeme `c` on line 1, and exactly one diagnostic, line 1 with the code bound to
`illegal_char`. -/
theorem C8_illegal_character (c : Char) (map : List (Str × Str))
    (h1 : isspace c = false) (h2 : isalpha c = false) (h3 : isdigit c = false)
    (h4 : c ≠ '_') (h5 : c ≠ DQUOTE)
    (h6 : c ∉ ['&', '|', '=', '!', '<', '>', '+', '-', '*', '/', '%', ';', ',', '(', ')',
      '[', ']', Char.ofNat 123, Char.ofNat 125]) :
    (Lexer.new [c] map).tokenize
      = some { input := [c], pos := 1, line := 1, tokens := [⟨.UNKNOWN, [c], 1⟩],
               errors := [(1, (Lexer.new [c] map).code "illegal_char".toList)],
               errorCodeMap := map } := by
  simp only [List.mem_cons, List.mem_nil_iff, or_false, not_or] at h6
  obtain ⟨a1, a2, a3, a4, a5, a6, a7, a8, a9, a10, a11, a12, a13, a14, a15, a16, a17, a18,
    a19⟩ := h6
  have hop : lexOperator map c [] 1
      = (⟨.UNKNOWN, [c], 1⟩, [(1, codeOf map "illegal_char".toList)], []) := by
    unfold lexOperator
    rw [if_neg a1, if_neg a2, if_neg a3, if_neg a4, if_neg a5, if_neg a6]
    have : singleCharKind c = none := by
      unfold singleCharKind
      rw [if_neg a7, if_neg a8, if_neg a9, if_neg a10, if_neg a11, if_neg a12, if_neg a13,
        if_neg a14, if_neg a15, if_neg a16, if_neg a17, if_neg a18, if_neg a19]
    rw [this]
  have hnl : newlines [c] = 0 := by
    rw [newlines_single, if_neg (not_space_ne_NL h1)]
  rw [tokenize_eq, lex_start map c [] 1 h1 a10, lexToken_operator map c _ 1 h2 h4 h3 h5, hop,
    lex_empty, hnl]
  rfl

theorem C8_illegal_character_witness :
    (Lexer.new ['@'] initDefaultErrorMap).tokenize
      = some { input := ['@'], pos := 1, line := 1, tokens := [⟨.UNKNOWN, ['@'], 1⟩],
               errors := [(1, "d".toList)], errorCodeMap := initDefaultErrorMap } :=
  C8_illegal_character '@' initDefaultErrorMap (by decide) (by decide) (by decide) (by decide)
    (by decide) (by decide)

theorem splitString_no_quote (k : Nat) : ∀ body : Str, body.length ≤ k → DQUOTE ∉ body →
    splitString body = (body, false, []) := by
  induction k with
  | zero =>
    intro body hk _
    have hr : body = [] := List.length_eq_zero.mp (by omega)
    subst hr
    simp [splitString]
  | succ k ih =>
    intro body hk hq
    match body, hq with
    | [], _ => simp [splitString]
    | [c], hq =>
      have hc : c ≠ DQUOTE := fun e => hq (by simp [e])
      unfold splitString
      rw [if_neg hc]
      split <;> simp [splitString]
    | c :: d :: t, hq =>
      have hc : c ≠ DQUOTE := fun e => hq (by simp [e])
      have h1 := ih (d :: t) (by simp at hk ⊢; omega) (fun hm => hq (by simp [hm]))
      have h2 := ih t (by simp at hk ⊢; omega)
        (fun hm => hq (List.mem_cons_of_mem _ (List.mem_cons_of_mem _ hm)))
      unfold splitString
      rw [if_neg hc]
      split
      · simp [h2]
      · simp [h1]

/-- C9. Unterminated string: for every body without a double quote, `tokenize` on a double
quote followed by the body terminates with exactly one token, `STRCON` whose lexeme is the
whole input on line 1, and exactly one diagnostic, line 1 with the code bound to
`unterminated_string`. For the input of a double quote followed by `hello`, with the default
map, the output is the diagnostics file with the single line `1 c`. -/
theorem C9_unterminated_string (body : Str) (map : List (Str × Str)) (h : DQUOTE ∉ body) :
    (Lexer.new (DQUOTE :: body) map).tokenize
      = some { input := DQUOTE :: body, pos := body.length + 1,
               line := addLines 1 (newlines body),
               tokens := [⟨.STRCON, DQUOTE :: body, 1⟩],
               errors := [(1, (Lexer.new (DQUOTE :: body) map).code
                 "unterminated_string".toList)],
               errorCodeMap := map } ∧
    (compile (DQUOTE :: "hello".toList)
        = some { lexerFile := none, errorFile := some "1 c\n".toList } ∧
      fileLines "1 c\n".toList = ["1 c".toList]) := by
  refine ⟨?_, by decide, by decide⟩
  have hs := splitString_no_quote body.length body (Nat.le_refl _) h
  have htok : lexToken map DQUOTE body 1
      = (⟨.STRCON, DQUOTE :: body, 1⟩, [(1, codeOf map "unterminated_string".toList)], []) := by
    unfold lexToken
    rw [if_neg (by decide), if_neg (by decide), if_pos rfl, hs]
    rfl
  rw [tokenize_eq, lex_start map DQUOTE body 1 (by decide) (by decide), htok, lex_empty]
  have : newlines (DQUOTE :: body) = newlines body := by
    rw [newlines_cons, if_neg (by decide)]; omega
  rw [this]
  rfl

theorem C9_unterminated_string_witness :
    DQUOTE ∉ ['a', BSLASH] ∧
    (Lexer.new [DQUOTE, 'a', BSLASH] initDefaultErrorMap).tokenize
      = some { input := [DQUOTE, 'a', BSLASH], pos := 3, line := 1,
               tokens := [⟨.STRCON, [DQUOTE, 'a', BSLASH], 1⟩],
               errors := [(1, "c".toList)], errorCodeMap := initDefaultErrorMap } :=
  ⟨by decide, (C9_unterminated_string ['a', BSLASH] initDefaultErrorMap (by decide)).1⟩

theorem splitString_quote (r : Str) : splitString (DQUOTE :: r) = ([DQUOTE], true, r) := by
  rw [splitString.eq_def]
  simp

theorem splitString_plain (c : Char) (cs : Str) (h1 : c ≠ DQUOTE) (h2 : c ≠ BSLASH) :
    splitString (c :: cs)
      = (c :: (splitString cs).1, (splitString cs).2.1, (splitString cs).2.2) := by
  rw [splitString.eq_def]
  simp [h1, h2]

theorem splitString_escape (d : Char) (ds : Str) :
    splitString (BSLASH :: d :: ds)
      = (BSLASH :: d :: (splitString ds).1, (splitString ds).2.1, (splitString ds).2.2) := by
  have h : BSLASH ≠ DQUOTE := by decide
  rw [splitString.eq_def]
  simp [h]

theorem splitString_units (units : List Str) (hu : ∀ u ∈ units, isUnit u = true) (r : Str) :
    splitString (units.flatten ++ DQUOTE :: r) = (units.flatten ++ [DQUOTE], true, r) := by
  induction units with
  | nil => simpa using splitString_quote r
  | cons u us ih =>
    have ih' := ih (fun v hv => hu v (by simp [hv]))
    have h := hu u (by simp)
    match u, h with
    | [c], h =>
      simp only [isUnit, Bool.and_eq_true, bne_iff_ne, ne_eq] at h
      simp only [List.flatten_cons, List.singleton_append, List.cons_append]
      rw [splitString_plain c _ h.1 h.2]
      simp only [List.nil_append, ih']
    | [c, d], h =>
      simp only [isUnit, beq_iff_eq] at h
      subst h
      simp only [List.flatten_cons, List.cons_append, List.nil_append]
      rw [splitString_escape]
      simp only [List.nil_append, ih']

theorem skipLoop_start {L : Lexer} {c : Char} {t : Str} (h : L.At (c :: t))
    (h1 : isspace c = false) (h2 : c ≠ '/') : L.skipWhitespaceAndComments = some L := by
  have hl := h.length_le
  have := (skipLoop_eq _ (c :: t) (Nat.le_refl _) (L.input.length + 1) L h (by omega)).1
  rw [splitSkip_start c t h1 h2, Lexer.advance_nil] at this
  exact this

/-- C10. String literal with escape pass-through: for every body made of units (a byte other
than the double quote and the backslash, or a backslash followed by any byte) and every
suffix `r`, `tokenize` on quote, body, quote, `r` terminates and its first token is `STRCON`
with the lexeme quote, body, quote on line 1; the call of `readString` that makes this token
ends after the closing quote and records no diagnostic, and the scan goes on from there. The
six bytes quote, `a`, backslash, quote, `b`, quote are a single `STRCON` token. -/
theorem C10_string_escape_pass_through (units : List Str) (r : Str) (map : List (Str × Str))
    (hu : ∀ u ∈ units, isUnit u = true) :
    (∃ L, (Lexer.new (DQUOTE :: units.flatten ++ DQUOTE :: r) map).tokenize = some L ∧
      L.tokens.head? = some ⟨.STRCON, DQUOTE :: units.flatten ++ [DQUOTE], 1⟩) ∧
    (∃ L1, (Lexer.new (DQUOTE :: units.flatten ++ DQUOTE :: r) map).readString = some L1 ∧
      L1.tokens = [⟨.STRCON, DQUOTE :: units.flatten ++ [DQUOTE], 1⟩] ∧ L1.errors = [] ∧
      L1.pos = units.flatten.length + 2 ∧
      (Lexer.new (DQUOTE :: units.flatten ++ DQUOTE :: r) map).tokenize
        = Lexer.tokenizeLoop (DQUOTE :: units.flatten ++ DQUOTE :: r).length L1) ∧
    (Lexer.new [DQUOTE, 'a', BSLASH, DQUOTE, 'b', DQUOTE] initDefaultErrorMap).tokenize
      = some { input := [DQUOTE, 'a', BSLASH, DQUOTE, 'b', DQUOTE], pos := 6, line := 1,
               tokens := [⟨.STRCON, [DQUOTE, 'a', BSLASH, DQUOTE, 'b', DQUOTE], 1⟩],
               errors := [], errorCodeMap := initDefaultErrorMap } := by
  have hs := splitString_units units hu r
  have hat := Lexer.At.new (DQUOTE :: units.flatten ++ DQUOTE :: r) map
  refine ⟨⟨_, tokenize_eq _ _, ?_⟩, ?_, by decide⟩
  · simp only [List.cons_append]
    rw [lex_start map DQUOTE _ 1 (by decide) (by decide)]
    unfold lexToken
    rw [if_neg (by decide), if_neg (by decide), if_pos rfl, hs]
    rfl
  · simp only [List.cons_append] at hat ⊢
    have hr := readString_eq hat
    rw [hs] at hr
    refine ⟨_, hr, ?_, ?_, ?_, ?_⟩
    · simp [Lexer.after, Lexer.new]
    · simp [Lexer.after, Lexer.new]
    · simp [Lexer.after, Lexer.new]
    · unfold Lexer.tokenize
      simp only [Lexer.new, List.length_cons] at hr ⊢
      rw [Lexer.tokenizeLoop]
      have hat' : (Lexer.new (DQUOTE :: (units.flatten ++ DQUOTE :: r)) map).At
          (DQUOTE :: (units.flatten ++ DQUOTE :: r)) := hat
      simp only [Lexer.new] at hat'
      simp only [hat'.eof_cons, skipLoop_start hat' (by decide) (by decide), hat'.peek_cons, hr]
      simp
      have e1 : isalpha DQUOTE = false := by decide
      have e2 : DQUOTE ≠ '_' := by decide
      have e3 : isdigit DQUOTE = false := by decide
      simp [e1, e2, e3]

theorem C10_string_escape_pass_through_witness :
    (∀ u ∈ [['a'], [BSLASH, DQUOTE], ['b']], isUnit u = true) ∧
    ∃ L, (Lexer.new (DQUOTE :: [['a'], [BSLASH, DQUOTE], ['b']].flatten
        ++ DQUOTE :: "+1".toList) initDefaultErrorMap).tokenize = some L ∧
      L.tokens.head?
        = some ⟨.STRCON, DQUOTE :: [['a'], [BSLASH, DQUOTE], ['b']].flatten ++ [DQUOTE], 1⟩ :=
  ⟨by decide, (C10_string_escape_pass_through [['a'], [BSLASH, DQUOTE], ['b']] "+1".toList
    initDefaultErrorMap (by decide)).1⟩

/-! ## Comments, start lines and lexemes -/

theorem splitSkip_two (r : Str) (c d : Char) (t : Str)
    (h : r.dropWhile isspace = c :: d :: t) :
    splitSkip r =
      if c = '/' && d = '/' then
        (r.takeWhile isspace ++ c :: d :: (t.takeWhile (fun x => x != NL)
          ++ (splitSkip (t.dropWhile (fun x => x != NL))).1),
          (splitSkip (t.dropWhile (fun x => x != NL))).2)
      else if c = '/' && d = '*' then
        (r.takeWhile isspace ++ c :: d :: ((splitBlock t).1 ++ (splitSkip (splitBlock t).2).1),
          (splitSkip (splitBlock t).2).2)
      else (r.takeWhile isspace, c :: d :: t) := by
  rw [splitSkip]
  split
  · rename_i c1 d1 t1 heq
    rw [h] at heq
    injection heq with e1 e2
    injection e2 with e2 e3
    subst e1 e2 e3
    rfl
  · rename_i hne
    exact absurd h (hne c d t)

theorem splitSkip_short (r : Str) (h : ∀ c d t, r.dropWhile isspace ≠ c :: d :: t) :
    splitSkip r = (r.takeWhile isspace, r.dropWhile isspace) := by
  rw [splitSkip]
  split
  · rename_i c1 d1 t1 heq
    exact absurd heq (h c1 d1 t1)
  · rfl

theorem splitSkip_line (t : Str) :
    splitSkip ('/' :: '/' :: t) =
      ('/' :: '/' :: (t.takeWhile (fun x => x != NL)
          ++ (splitSkip (t.dropWhile (fun x => x != NL))).1),
        (splitSkip (t.dropWhile (fun x => x != NL))).2) := by
  have hs : isspace '/' = false := by decide
  rw [splitSkip_two _ '/' '/' t (by simp [List.dropWhile_cons, hs])]
  simp [List.takeWhile_cons, hs]

theorem splitSkip_block (t : Str) :
    splitSkip ('/' :: '*' :: t) =
      ('/' :: '*' :: ((splitBlock t).1 ++ (splitSkip (splitBlock t).2).1),
        (splitSkip (splitBlock t).2).2) := by
  have hs : isspace '/' = false := by decide
  have hne : ¬ ('*' = '/') := by decide
  rw [splitSkip_two _ '/' '*' t (by simp [List.dropWhile_cons, hs])]
  simp [List.takeWhile_cons, hs, hne]

theorem splitSkip_space (w : Char) (r : Str) (hw : isspace w = true) :
    splitSkip (w :: r) = (w :: (splitSkip r).1, (splitSkip r).2) := by
  have hd : (w :: r).dropWhile isspace = r.dropWhile isspace := by
    simp [List.dropWhile_cons, hw]
  have ht : (w :: r).takeWhile isspace = w :: r.takeWhile isspace := by
    simp [List.takeWhile_cons, hw]
  by_cases h : ∃ c d t, r.dropWhile isspace = c :: d :: t
  · obtain ⟨c, d, t, h⟩ := h
    rw [splitSkip_two _ c d t (hd.trans h), splitSkip_two r c d t h, ht]
    split_ifs <;> simp
  · have h1 : ∀ c d t, r.dropWhile isspace ≠ c :: d :: t := fun c d t e => h ⟨c, d, t, e⟩
    rw [splitSkip_short _ (by rw [hd]; exact h1), splitSkip_short r h1, ht, hd]

theorem splitSkip_spaces (ws r : Str) (hw : ∀ x ∈ ws, isspace x = true) :
    splitSkip (ws ++ r) = (ws ++ (splitSkip r).1, (splitSkip r).2) := by
  induction ws with
  | nil => simp
  | cons w ws ih =>
    rw [List.cons_append, splitSkip_space w _ (hw w (by simp)),
      ih (fun x hx => hw x (by simp [hx]))]
    simp

/-- Two remainders that are left with the same bytes after whitespace and comments, on the
same line, give the same tokens and diagnostics. -/
theorem lex_congr (map : List (Str × Str)) (r1 r2 : Str) (line1 line2 : Int)
    (h : (splitSkip r1).2 = (splitSkip r2).2)
    (hl : addLines line1 (newlines (splitSkip r1).1)
      = addLines line2 (newlines (splitSkip r2).1)) :
    lex map r1 line1 = lex map r2 line2 := by
  cases hs : (splitSkip r2).2 with
  | nil => rw [lex_nil map r1 line1 (h.trans hs), lex_nil map r2 line2 hs]
  | cons c t => rw [lex_cons map r1 line1 c t (h.trans hs), lex_cons map r2 line2 c t hs, hl]

theorem lexOperator_shift (map : List (Str × Str)) (c : Char) (t : Str) (line : Int)
    (k : Nat) :
    lexOperator map c t (addLines line k) =
      ({ (lexOperator map c t line).1 with
          line := addLines (lexOperator map c t line).1.line k },
        (lexOperator map c t line).2.1.map (fun e => (addLines e.1 k, e.2)),
        (lexOperator map c t line).2.2) := by
  unfold lexOperator
  split_ifs <;> first
    | rfl
    | (cases singleCharKind c <;> rfl)

theorem lexToken_shift (map : List (Str × Str)) (c : Char) (t : Str) (line : Int) (k : Nat) :
    lexToken map c t (addLines line k) =
      ({ (lexToken map c t line).1 with line := addLines (lexToken map c t line).1.line k },
        (lexToken map c t line).2.1.map (fun e => (addLines e.1 k, e.2)),
        (lexToken map c t line).2.2) := by
  unfold lexToken
  by_cases h1 : (isalpha c || decide (c = '_')) = true
  · rw [if_pos h1, if_pos h1]; rfl
  rw [if_neg h1, if_neg h1]
  by_cases h2 : isdigit c = true
  · rw [if_pos h2, if_pos h2]; rfl
  rw [if_neg h2, if_neg h2]
  by_cases h3 : c = DQUOTE
  · rw [if_pos h3, if_pos h3]
    cases (splitString t).2.1 <;> rfl
  rw [if_neg h3, if_neg h3]
  exact lexOperator_shift map c t line k

/-- Starting after `k` more increments of the line counter applies `k` more increments to the
line of every token and of every diagnostic and changes nothing else. -/
theorem lex_shift (map : List (Str × Str)) (r : Str) (line : Int) :
    ∀ k : Nat, lex map r (addLines line k) =
      ((lex map r line).1.map (fun t => { t with line := addLines t.line k }),
        (lex map r line).2.map (fun e => (addLines e.1 k, e.2))) := by
  apply lex_induction map (fun r line toks errs => ∀ k : Nat, lex map r (addLines line k) =
      (toks.map (fun t => { t with line := addLines t.line k }),
        errs.map (fun e => (addLines e.1 k, e.2))))
  · intro r line h k
    rw [lex_nil map r _ h]
    rfl
  · intro r line c t h toks errs ih k
    rw [lex_cons map r _ c t h, addLines_comm line k, lexToken_shift]
    simp only [List.map_cons, List.map_append]
    rw [addLines_comm _ k, ih k]

theorem addLines_range (line : Int) (k : Nat)
    (h : -2147483648 ≤ line ∧ line ≤ 2147483647) :
    -2147483648 ≤ addLines line k ∧ addLines line k ≤ 2147483647 := by
  cases k with
  | zero => exact h
  | succ k =>
    rw [addLines_succ]
    exact wrapInt_range _

/-- From a line counter in the range of an `int`, the line of every token and of every
diagnostic is in that range. -/
theorem lex_range (map : List (Str × Str)) (r : Str) (line : Int) :
    (-2147483648 ≤ line ∧ line ≤ 2147483647) →
    (∀ t ∈ (lex map r line).1, -2147483648 ≤ t.line ∧ t.line ≤ 2147483647) ∧
    (∀ e ∈ (lex map r line).2, -2147483648 ≤ e.1 ∧ e.1 ≤ 2147483647) := by
  apply lex_induction map (fun _ line toks errs =>
    (-2147483648 ≤ line ∧ line ≤ 2147483647) →
    (∀ t ∈ toks, -2147483648 ≤ t.line ∧ t.line ≤ 2147483647) ∧
    (∀ e ∈ errs, -2147483648 ≤ e.1 ∧ e.1 ≤ 2147483647))
  · intro r line _ _
    exact ⟨fun t ht => by simp at ht, fun e he => by simp at he⟩
  · intro r line c t _ toks errs ih hr
    have h1 := addLines_range line (newlines (splitSkip r).1) hr
    obtain ⟨i1, i2⟩ := ih (addLines_range _ _ h1)
    have hl := (lexToken_spec map c t (addLines line (newlines (splitSkip r).1))).2.2
    have he := lexToken_errors map c t (addLines line (newlines (splitSkip r).1))
    constructor
    · intro x hx
      rcases List.mem_cons.mp hx with hx | hx
      · subst hx
        rw [hl]
        exact h1
      · exact i1 x hx
    · intro x hx
      rcases List.mem_append.mp hx with hx | hx
      · rw [(he x hx).1]
        exact h1
      · exact i2 x hx

theorem lexToken_newlines (map : List (Str × Str)) (c : Char) (t : Str) (line : Int) :
    newlines (lexToken map c t line).1.lexeme + newlines (lexToken map c t line).2.2
      = newlines (c :: t) := by
  have h := congrArg newlines (lexToken_spec map c t line).1
  rw [newlines_append] at h
  exact h

theorem splitSkip_newlines_add (r : Str) :
    newlines (splitSkip r).1 + newlines (splitSkip r).2 = newlines r := by
  have h := congrArg newlines (splitSkip_append r)
  rw [newlines_append] at h
  exact h

/-- While the line counter cannot pass 2147483647 (it starts at `line`, not below the least
`int`, and `line` plus the newlines of the remainder `r` is at most 2147483647), every token
and every diagnostic of the scan carries a line between `line` and `line` plus the newlines
of `r`, and both sequences are non-decreasing in their lines. -/
theorem lex_lines (map : List (Str × Str)) (r : Str) (line : Int) :
    -2147483648 ≤ line → line + newlines r ≤ 2147483647 →
    (∀ t ∈ (lex map r line).1, line ≤ t.line ∧ t.line ≤ line + newlines r) ∧
    (lex map r line).1.Pairwise (fun a b => a.line ≤ b.line) ∧
    (∀ e ∈ (lex map r line).2, line ≤ e.1 ∧ e.1 ≤ line + newlines r) ∧
    (lex map r line).2.Pairwise (fun a b => a.1 ≤ b.1) := by
  apply lex_induction map (fun r line toks errs =>
    -2147483648 ≤ line → line + newlines r ≤ 2147483647 →
    (∀ t ∈ toks, line ≤ t.line ∧ t.line ≤ line + newlines r) ∧
    toks.Pairwise (fun a b => a.line ≤ b.line) ∧
    (∀ e ∈ errs, line ≤ e.1 ∧ e.1 ≤ line + newlines r) ∧
    errs.Pairwise (fun a b => a.1 ≤ b.1))
  · intro r line _ _ _
    exact ⟨fun t ht => by simp at ht, List.Pairwise.nil, fun e he => by simp at he,
      List.Pairwise.nil⟩
  · intro r line c t h toks errs ih hlo hhi
    have hs := splitSkip_newlines_add r
    rw [h] at hs
    have hn := lexToken_newlines map c t (addLines line (newlines (splitSkip r).1))
    have hl := (lexToken_spec map c t (addLines line (newlines (splitSkip r).1))).2.2
    have he := lexToken_errors map c t (addLines line (newlines (splitSkip r).1))
    have e1 : addLines line (newlines (splitSkip r).1) = line + newlines (splitSkip r).1 :=
      addLines_eq _ _ hlo (by omega)
    have e2 : addLines (addLines line (newlines (splitSkip r).1))
        (newlines (lexToken map c t (addLines line (newlines (splitSkip r).1))).1.lexeme)
        = line + newlines (splitSkip r).1
          + newlines (lexToken map c t (addLines line (newlines (splitSkip r).1))).1.lexeme := by
      rw [addLines_eq _ _ (by omega) (by omega), e1]
    obtain ⟨i1, i2, i3, i4⟩ := ih (by omega) (by omega)
    refine ⟨?_, ?_, ?_, ?_⟩
    · intro x hx
      rcases List.mem_cons.mp hx with hx | hx
      · subst hx
        rw [hl]
        omega
      · have := i1 x hx
        omega
    · refine List.Pairwise.cons ?_ i2
      intro x hx
      have := i1 x hx
      rw [hl]
      omega
    · intro x hx
      rcases List.mem_append.mp hx with hx | hx
      · have := (he x hx).1
        omega
      · have := i3 x hx
        omega
    · rw [List.pairwise_append]
      refine ⟨?_, i4, ?_⟩
      · have hle : ∀ x ∈ (lexToken map c t (addLines line (newlines (splitSkip r).1))).2.1,
            ∀ y ∈ (lexToken map c t (addLines line (newlines (splitSkip r).1))).2.1,
              x.1 ≤ y.1 := by
          intro x hx y hy
          rw [(he x hx).1, (he y hy).1]
        exact List.pairwise_of_forall_mem_list hle
      · intro x hx y hy
        have := (he x hx).1
        have := i3 y hy
        omega

/-- The final state of `tokenize` on a fresh lexer, from the value of `lex` on the input. -/
theorem tokenize_of_lex (input : Str) (map : List (Str × Str)) (toks : List Token)
    (errs : List (Int × Str)) (h : lex map input 1 = (toks, errs)) :
    ∃ L, (Lexer.new input map).tokenize = some L ∧ L.input = input ∧ L.tokens = toks ∧
      L.errors = errs ∧ L.line = addLines 1 (newlines input) := by
  refine ⟨_, tokenize_eq input map, rfl, ?_, ?_, rfl⟩
  · simp only
    rw [h]
  · simp only
    rw [h]

theorem takeWhile_append_stop {p : Char → Bool} (a : Str) (x : Char) (r : Str)
    (ha : ∀ y ∈ a, p y = true) (hx : p x = false) :
    (a ++ x :: r).takeWhile p = a ∧ (a ++ x :: r).dropWhile p = x :: r := by
  induction a with
  | nil => simp [List.takeWhile_cons, List.dropWhile_cons, hx]
  | cons y a ih =>
    have hy := ha y (by simp)
    have := ih (fun z hz => ha z (by simp [hz]))
    simp [List.takeWhile_cons, List.dropWhile_cons, hy, this]

theorem newlines_eq_zero {s : Str} (h : NL ∉ s) : newlines s = 0 :=
  List.count_eq_zero.mpr h

theorem splitSkip_line_comment (c r : Str) (hc : NL ∉ c) :
    splitSkip ('/' :: '/' :: (c ++ NL :: r)) =
      ('/' :: '/' :: (c ++ NL :: (splitSkip r).1), (splitSkip r).2) := by
  have hp : ∀ y ∈ c, (fun x => x != NL) y = true := by
    intro y hy
    simp only [bne_iff_ne, ne_eq]
    rintro rfl
    exact hc hy
  obtain ⟨h1, h2⟩ := takeWhile_append_stop (p := fun x => x != NL) c NL r hp (by simp)
  rw [splitSkip_line, h1, h2, splitSkip_space NL r (by decide)]

theorem newlines_replicate (k : Nat) : newlines (List.replicate k NL) = k := by
  simp [newlines]

theorem splitSkip_newlines (k : Nat) (c : Char) (t : Str) (h1 : isspace c = false)
    (h2 : c ≠ '/') :
    splitSkip (List.replicate k NL ++ c :: t) = (List.replicate k NL, c :: t) := by
  rw [splitSkip_spaces _ _ (fun x hx => by rw [List.eq_of_mem_replicate hx]; decide),
    splitSkip_start c t h1 h2]
  simp

/-- A line comment and the newline that ends it are skipped; the scan goes on after one
increment of the line counter. -/
theorem lex_line_comment (map : List (Str × Str)) (c r : Str) (hc : NL ∉ c) (line : Int) :
    lex map ('/' :: '/' :: (c ++ NL :: r)) line = lex map r (addLines line 1) := by
  have hsk := splitSkip_line_comment c r hc
  have hnl : newlines ('/' :: '/' :: (c ++ NL :: (splitSkip r).1))
      = 1 + newlines (splitSkip r).1 := by
    rw [newlines_cons, newlines_cons, newlines_append, newlines_cons, newlines_eq_zero hc,
      if_neg (by decide), if_pos rfl]
    omega
  apply lex_congr
  · rw [hsk]
  · rw [hsk, hnl, addLines_add]

/-- The scan of `k` newlines followed by the letter `x`: one identifier, on the line reached
after `k` increments. -/
theorem lex_newlines_word (map : List (Str × Str)) (k : Nat) (line : Int) :
    lex map (List.replicate k NL ++ ['x']) line
      = ([⟨.IDENFR, ['x'], addLines line k⟩], []) := by
  have hsk := splitSkip_newlines k 'x' [] (by decide) (by decide)
  have htok : ∀ l : Int, lexToken map 'x' [] l = (⟨.IDENFR, ['x'], l⟩, [], []) := by
    intro l
    unfold lexToken
    rw [if_pos (by decide)]
    rfl
  rw [lex_cons map _ line 'x' [] (by rw [hsk]), hsk, htok, lex_empty, newlines_replicate]
  rfl

/-- After 2147483646 increments from 1 the line counter holds the greatest `int`. -/
theorem addLines_max : addLines 1 2147483646 = 2147483647 := by
  rw [addLines_eq 1 2147483646 (by omega) (by omega)]
  omega

/-- After 2147483647 increments from 1 the line counter has wrapped to the least `int`. -/
theorem addLines_overflow : addLines 1 2147483647 = -2147483648 := by
  rw [addLines_wrap 1 2147483647 (by omega) (by omega)]
  unfold wrapInt
  omega

/-- C11 as stated fails: with the empty comment and a remainder of 2147483646 newlines
followed by `x`, the token `x` is on line 2147483647 in the run on the remainder, and on
line -2147483648, not 2147483648, in the run with the comment line before it: the `int` line
counter has wrapped. -/
theorem C11_line_comment_elision_counterexample :
    ∃ L1 L2,
      (Lexer.new ('/' :: '/' :: ([] ++ NL :: (List.replicate 2147483646 NL ++ ['x'])))
        initDefaultErrorMap).tokenize = some L1 ∧
      (Lexer.new (List.replicate 2147483646 NL ++ ['x']) initDefaultErrorMap).tokenize
        = some L2 ∧
      L2.tokens = [⟨.IDENFR, ['x'], 2147483647⟩] ∧
      L1.tokens = [⟨.IDENFR, ['x'], -2147483648⟩] ∧
      L1.tokens ≠ L2.tokens.map (fun t => { t with line := t.line + 1 }) := by
  have h2 : lex initDefaultErrorMap (List.replicate 2147483646 NL ++ ['x']) 1
      = ([⟨.IDENFR, ['x'], 2147483647⟩], []) := by
    rw [lex_newlines_word, addLines_max]
  have h1 : lex initDefaultErrorMap
      ('/' :: '/' :: ([] ++ NL :: (List.replicate 2147483646 NL ++ ['x']))) 1
      = ([⟨.IDENFR, ['x'], -2147483648⟩], []) := by
    rw [lex_line_comment _ [] _ (by simp), lex_newlines_word, addLines_comm, addLines_max]
    rfl
  obtain ⟨L1, e1, _, t1, _⟩ := tokenize_of_lex _ _ _ _ h1
  obtain ⟨L2, e2, _, t2, _⟩ := tokenize_of_lex _ _ _ _ h2
  refine ⟨L1, L2, e1, e2, t2, t1, ?_⟩
  rw [t1, t2]
  decide

/-- C11, amended. Line comment elision: for every comment text `c` without a newline and
every remainder `r`, `tokenize` on `//`, `c`, newline, `r` and `tokenize` on `r` both
terminate, with the same tokens (kinds and lexemes, in order) and the same diagnostic codes,
every token line and every diagnostic line of the first run being the line of the second run
after one more increment of the `int` line counter (`wrapInt (line + 1)`). When `r` has at
most 2147483645 newlines, so that the counter stays at most 2147483647 in both runs, every
line is exactly one greater. On `//comment`, newline, `int x;` the tokens are `INTTK int`,
`IDENFR x`, `SEMICN ;`, all on line 2, and there is no diagnostic. Here `wrapInt x` is the
one value between -2147483648 and 2147483647 that differs from `x` by a multiple of `2^32`. -/
theorem C11_line_comment_elision (c r : Str) (map : List (Str × Str)) (hc : NL ∉ c) :
    (∃ L1 L2, (Lexer.new ('/' :: '/' :: (c ++ NL :: r)) map).tokenize = some L1 ∧
      (Lexer.new r map).tokenize = some L2 ∧
      L1.tokens = L2.tokens.map (fun t => { t with line := wrapInt (t.line + 1) }) ∧
      L1.errors = L2.errors.map (fun e => (wrapInt (e.1 + 1), e.2)) ∧
      (newlines r ≤ 2147483645 →
        L1.tokens = L2.tokens.map (fun t => { t with line := t.line + 1 }) ∧
        L1.errors = L2.errors.map (fun e => (e.1 + 1, e.2)))) ∧
    (∃ L, (Lexer.new ("//comment".toList ++ NL :: "int x;".toList)
        initDefaultErrorMap).tokenize = some L ∧
      L.tokens = [⟨.INTTK, "int".toList, 2⟩, ⟨.IDENFR, "x".toList, 2⟩,
        ⟨.SEMICN, ";".toList, 2⟩] ∧
      L.errors = []) ∧
    (∀ x : Int,
      -2147483648 ≤ wrapInt x ∧ wrapInt x ≤ 2147483647 ∧ (wrapInt x - x) % 4294967296 = 0) := by
  refine ⟨⟨_, _, tokenize_eq _ _, tokenize_eq _ _, ?_⟩, ⟨_, rfl, by decide, by decide⟩,
    fun x => by unfold wrapInt; omega⟩
  have h1 := lex_line_comment map c r hc 1
  have h2 := lex_shift map r 1 1
  simp only
  rw [h1, h2]
  refine ⟨rfl, rfl, ?_⟩
  intro hb
  obtain ⟨b1, _, b3, _⟩ := lex_lines map r 1 (by omega) (by omega)
  constructor
  · apply List.map_congr_left
    intro t ht
    have := b1 t ht
    rw [addLines_one, wrapInt_eq _ (by omega) (by omega)]
  · apply List.map_congr_left
    intro e he
    have := b3 e he
    rw [addLines_one, wrapInt_eq _ (by omega) (by omega)]

theorem C11_line_comment_elision_witness :
    NL ∉ "a/*b".toList ∧ newlines "x&".toList ≤ 2147483645 ∧
    ∃ L1 L2, (Lexer.new ('/' :: '/' :: ("a/*b".toList ++ NL :: "x&".toList))
        initDefaultErrorMap).tokenize = some L1 ∧
      (Lexer.new "x&".toList initDefaultErrorMap).tokenize = some L2 ∧
      L1.tokens = L2.tokens.map (fun t => { t with line := t.line + 1 }) ∧
      L1.errors = L2.errors.map (fun e => (e.1 + 1, e.2)) := by
  obtain ⟨⟨L1, L2, h1, h2, _, _, h5⟩, _, _⟩ :=
    C11_line_comment_elision "a/*b".toList "x&".toList initDefaultErrorMap (by decide)
  exact ⟨by decide, by decide, L1, L2, h1, h2, h5 (by decide)⟩

theorem closesComment_tail {c : Char} {cs : Str} (h : closesComment (c :: cs) = false) :
    closesComment cs = false := by
  cases cs with
  | nil => rfl
  | cons d t =>
    rw [closesComment] at h
    simp only [Bool.or_eq_false_iff] at h
    exact h.2

theorem splitBlock_open (body : Str) (h1 : closesComment body = false) (h2 : NUL ∉ body) :
    splitBlock body = (body, []) := by
  induction body with
  | nil => rfl
  | cons c cs ih =>
    have hc : c ≠ NUL := fun e => h2 (by simp [e])
    have ih' := ih (closesComment_tail h1) (fun hm => h2 (List.mem_cons_of_mem _ hm))
    rw [splitBlock, if_neg hc]
    have hno : ¬ ((decide (c = '*') && decide (cs.headD NUL = '/')) = true) := by
      intro hh
      simp only [Bool.and_eq_true, decide_eq_true_eq] at hh
      cases cs with
      | nil => exact absurd hh.2 (by decide)
      | cons d t =>
        rw [closesComment] at h1
        simp only [List.headD_cons] at hh
        simp [hh.1, hh.2] at h1
    rw [if_neg hno, ih']

theorem splitBlock_closed (body r : Str) (h1 : closesComment body = false) (h2 : NUL ∉ body) :
    splitBlock (body ++ '*' :: '/' :: r) = (body ++ ['*', '/'], r) := by
  induction body with
  | nil =>
    rw [List.nil_append, splitBlock, if_neg (by decide)]
    simp
  | cons c cs ih =>
    have hc : c ≠ NUL := fun e => h2 (by simp [e])
    have ih' := ih (closesComment_tail h1) (fun hm => h2 (List.mem_cons_of_mem _ hm))
    rw [List.cons_append, splitBlock, if_neg hc]
    have hno : ¬ ((decide (c = '*') && decide ((cs ++ '*' :: '/' :: r).headD NUL = '/'))
        = true) := by
      intro hh
      simp only [Bool.and_eq_true, decide_eq_true_eq] at hh
      cases cs with
      | nil =>
        simp only [List.nil_append, List.headD_cons] at hh
        exact absurd hh.2 (by decide)
      | cons d t =>
        rw [closesComment] at h1
        simp only [List.cons_append, List.headD_cons] at hh
        simp [hh.1, hh.2] at h1
    rw [if_neg hno, ih']
    rfl

/-- An unterminated block comment without a zero byte is read through to the end of the
input: no token, no diagnostic. -/
theorem block_comment_unterminated (body : Str) (map : List (Str × Str))
    (h1 : closesComment body = false) (h2 : NUL ∉ body) :
    (Lexer.new ('/' :: '*' :: body) map).tokenize
      = some { input := '/' :: '*' :: body, pos := body.length + 2,
               line := addLines 1 (newlines body), tokens := [], errors := [],
               errorCodeMap := map } := by
  have hsk : (splitSkip ('/' :: '*' :: body)).2 = [] := by
    rw [splitSkip_block, splitBlock_open body h1 h2, splitSkip_empty]
  have hnl : newlines ('/' :: '*' :: body) = newlines body := by
    rw [newlines_cons, newlines_cons, if_neg (by decide), if_neg (by decide)]
    omega
  rw [tokenize_eq, lex_nil map _ 1 hsk, hnl]
  rfl

/-- C12 fails on the code: in the four-byte input `/*`, zero byte, `a` the comment is not
closed, yet the loop of the block comment stops at the zero byte and the `a` after it becomes
an `IDENFR` token; in `/*`, zero byte, `&` the byte after it is scanned and a diagnostic is
recorded. -/
theorem C12_block_comment_stops_at_NUL :
    closesComment [NUL, 'a'] = false ∧
    (Lexer.new ['/', '*', NUL, 'a'] initDefaultErrorMap).tokenize
      = some { input := ['/', '*', NUL, 'a'], pos := 4, line := 1,
               tokens := [⟨.IDENFR, ['a'], 1⟩], errors := [],
               errorCodeMap := initDefaultErrorMap } ∧
    (Lexer.new ['/', '*', NUL, '&'] initDefaultErrorMap).tokenize
      = some { input := ['/', '*', NUL, '&'], pos := 4, line := 1,
               tokens := [⟨.UNKNOWN, ['&'], 1⟩], errors := [(1, ['a'])],
               errorCodeMap := initDefaultErrorMap } := by
  decide

theorem splitString_closed (body r : Str) (h1 : DQUOTE ∉ body) (h2 : BSLASH ∉ body) :
    splitString (body ++ DQUOTE :: r) = (body ++ [DQUOTE], true, r) := by
  induction body with
  | nil => simpa using splitString_quote r
  | cons c cs ih =>
    have hc1 : c ≠ DQUOTE := fun e => h1 (by simp [e])
    have hc2 : c ≠ BSLASH := fun e => h2 (by simp [e])
    rw [List.cons_append, splitString_plain c _ hc1 hc2,
      ih (fun hm => h1 (List.mem_cons_of_mem _ hm)) (fun hm => h2 (List.mem_cons_of_mem _ hm))]
    rfl

/-- The scan of `k` newlines followed by a closed string literal without escapes: one
`STRCON` token on the line reached after `k` increments, no diagnostic. -/
theorem lex_newlines_closed (map : List (Str × Str)) (k : Nat) (body : Str) (line : Int)
    (h1 : DQUOTE ∉ body) (h2 : BSLASH ∉ body) :
    lex map (List.replicate k NL ++ DQUOTE :: (body ++ [DQUOTE])) line
      = ([⟨.STRCON, DQUOTE :: (body ++ [DQUOTE]), addLines line k⟩], []) := by
  have hsk := splitSkip_newlines k DQUOTE (body ++ [DQUOTE]) (by decide) (by decide)
  rw [lex_cons map _ line DQUOTE (body ++ [DQUOTE]) (by rw [hsk]), hsk, newlines_replicate]
  unfold lexToken
  rw [if_neg (by decide), if_neg (by decide), if_pos rfl, splitString_closed body [] h1 h2]
  simp only [lex_empty]
  rfl

/-- The scan of `k` newlines followed by a string literal that is not closed: one `STRCON`
token and one diagnostic, both on the line reached after `k` increments. -/
theorem lex_newlines_unclosed (map : List (Str × Str)) (k : Nat) (body : Str) (line : Int)
    (h1 : DQUOTE ∉ body) :
    lex map (List.replicate k NL ++ DQUOTE :: body) line
      = ([⟨.STRCON, DQUOTE :: body, addLines line k⟩],
          [(addLines line k, codeOf map "unterminated_string".toList)]) := by
  have hsk := splitSkip_newlines k DQUOTE body (by decide) (by decide)
  rw [lex_cons map _ line DQUOTE body (by rw [hsk]), hsk, newlines_replicate]
  unfold lexToken
  rw [if_neg (by decide), if_neg (by decide), if_pos rfl,
    splitString_no_quote body.length body (Nat.le_refl _) h1]
  simp only [lex_empty]
  rfl

/-- C13 as stated fails: after 2147483647 newlines the `int` line counter has wrapped, and
the string literal that follows (empty body, closed or not) and its diagnostic are attributed
to line -2147483648, not to line 2147483648. -/
theorem C13_start_line_attribution_counterexample :
    (∃ L, (Lexer.new (List.replicate 2147483647 NL ++ DQUOTE :: ([] ++ [DQUOTE]))
        initDefaultErrorMap).tokenize = some L ∧
      L.tokens = [⟨.STRCON, DQUOTE :: ([] ++ [DQUOTE]), -2147483648⟩]) ∧
    (∃ L, (Lexer.new (List.replicate 2147483647 NL ++ DQUOTE :: []) initDefaultErrorMap).tokenize
        = some L ∧
      L.tokens = [⟨.STRCON, DQUOTE :: [], -2147483648⟩] ∧
      L.errors = [(-2147483648, "c".toList)]) ∧
    (-2147483648 : Int) ≠ 2147483647 + 1 := by
  have h1 := lex_newlines_closed initDefaultErrorMap 2147483647 [] 1 (by simp) (by simp)
  have h2 := lex_newlines_unclosed initDefaultErrorMap 2147483647 [] 1 (by simp)
  rw [addLines_overflow] at h1 h2
  obtain ⟨L1, e1, _, t1, _⟩ := tokenize_of_lex _ _ _ _ h1
  obtain ⟨L2, e2, _, t2, r2, _⟩ := tokenize_of_lex _ _ _ _ h2
  exact ⟨⟨L1, e1, t1⟩, ⟨L2, e2, t2, r2⟩, by decide⟩

/-- C13, amended. Start-line attribution: for every `k` and every body without double quote
and backslash (newlines allowed), `tokenize` on `k` newlines followed by the quoted body
terminates with one `STRCON` token and no diagnostic, and on `k` newlines followed by the
quote and the body without closing quote it terminates with one `STRCON` token and one
`unterminated_string` diagnostic; token and diagnostic carry the value of the `int` line
counter after `k` increments from 1, `wrapInt (k + 1)`, however many newlines the body
contains. For `k` at most 2147483646 that line is `k + 1`. Here `wrapInt x` is the one value
between -2147483648 and 2147483647 that differs from `x` by a multiple of `2^32`. -/
theorem C13_start_line_attribution (k : Nat) (body : Str) (map : List (Str × Str))
    (h1 : DQUOTE ∉ body) (h2 : BSLASH ∉ body) :
    (∃ L, (Lexer.new (List.replicate k NL ++ DQUOTE :: (body ++ [DQUOTE])) map).tokenize
        = some L ∧
      L.tokens = [⟨.STRCON, DQUOTE :: (body ++ [DQUOTE]), wrapInt (k + 1)⟩] ∧
      L.errors = [] ∧
      (k ≤ 2147483646 →
        L.tokens = [⟨.STRCON, DQUOTE :: (body ++ [DQUOTE]), k + 1⟩])) ∧
    (∃ L, (Lexer.new (List.replicate k NL ++ DQUOTE :: body) map).tokenize = some L ∧
      L.tokens = [⟨.STRCON, DQUOTE :: body, wrapInt (k + 1)⟩] ∧
      L.errors = [(wrapInt (k + 1), (Lexer.new (List.replicate k NL ++ DQUOTE :: body) map).code
        "unterminated_string".toList)] ∧
      (k ≤ 2147483646 →
        L.tokens = [⟨.STRCON, DQUOTE :: body, k + 1⟩] ∧
        L.errors = [((k : Int) + 1,
          (Lexer.new (List.replicate k NL ++ DQUOTE :: body) map).code
            "unterminated_string".toList)])) ∧
    (∀ x : Int,
      -2147483648 ≤ wrapInt x ∧ wrapInt x ≤ 2147483647 ∧ (wrapInt x - x) % 4294967296 = 0) := by
  have hw : addLines 1 k = wrapInt (k + 1) := by
    rw [addLines_wrap 1 k (by omega) (by omega), Int.add_comm]
  have hb : k ≤ 2147483646 → wrapInt ((k : Int) + 1) = k + 1 := by
    intro hk
    exact wrapInt_eq _ (by omega) (by omega)
  have e1 := lex_newlines_closed map k body 1 h1 h2
  have e2 := lex_newlines_unclosed map k body 1 h1
  rw [hw] at e1 e2
  obtain ⟨L1, q1, _, t1, r1, _⟩ := tokenize_of_lex _ _ _ _ e1
  obtain ⟨L2, q2, _, t2, r2, _⟩ := tokenize_of_lex _ _ _ _ e2
  refine ⟨⟨L1, q1, t1, r1, ?_⟩, ⟨L2, q2, t2, r2, ?_⟩, fun x => by unfold wrapInt; omega⟩
  · intro hk
    rw [t1, hb hk]
  · intro hk
    rw [t2, r2, hb hk]
    exact ⟨rfl, rfl⟩

theorem C13_start_line_attribution_witness :
    DQUOTE ∉ ['a', NL, NL, 'b'] ∧ BSLASH ∉ ['a', NL, NL, 'b'] ∧ 3 ≤ 2147483646 ∧
    (∃ L, (Lexer.new (List.replicate 3 NL ++ DQUOTE :: (['a', NL, NL, 'b'] ++ [DQUOTE]))
        initDefaultErrorMap).tokenize = some L ∧
      L.tokens = [⟨.STRCON, DQUOTE :: (['a', NL, NL, 'b'] ++ [DQUOTE]), 4⟩] ∧
      L.errors = []) ∧
    (∃ L, (Lexer.new (List.replicate 3 NL ++ DQUOTE :: ['a', NL, NL, 'b'])
        initDefaultErrorMap).tokenize = some L ∧
      L.tokens = [⟨.STRCON, DQUOTE :: ['a', NL, NL, 'b'], 4⟩] ∧
      L.errors = [(4, "c".toList)]) := by
  obtain ⟨⟨L1, q1, _, r1, b1⟩, ⟨L2, q2, _, _, b2⟩, _⟩ :=
    C13_start_line_attribution 3 ['a', NL, NL, 'b'] initDefaultErrorMap (by decide) (by decide)
  exact ⟨by decide, by decide, by decide, ⟨L1, q1, b1 (by decide), r1⟩,
    ⟨L2, q2, (b2 (by decide)).1, (b2 (by decide)).2⟩⟩

theorem opensComment_tail {c : Char} {cs : Str} (h : opensComment (c :: cs) = false) :
    opensComment cs = false := by
  cases cs with
  | nil => rfl
  | cons d t =>
    rw [opensComment] at h
    simp only [Bool.or_eq_false_iff] at h
    exact h.2

theorem opensComment_suffix (a b : Str) (h : opensComment (a ++ b) = false) :
    opensComment b = false := by
  induction a with
  | nil => simpa using h
  | cons c a ih => exact ih (opensComment_tail (by simpa using h))

theorem splitSkip_plain (r : Str) (h1 : ∀ x ∈ r, isspace x = false)
    (h2 : opensComment r = false) : splitSkip r = ([], r) := by
  match r, h1, h2 with
  | [], _, _ => exact splitSkip_empty
  | [c], h1, _ =>
    have hc := h1 c (by simp)
    rw [splitSkip_short _ (by simp [List.dropWhile_cons, hc])]
    simp [List.takeWhile_cons, List.dropWhile_cons, hc]
  | c :: d :: t, h1, h2 =>
    have hc := h1 c (by simp)
    rw [opensComment] at h2
    simp only [Bool.or_eq_false_iff, Bool.and_eq_false_iff, beq_eq_false_iff_ne, ne_eq] at h2
    rw [splitSkip_two _ c d t (by simp [List.dropWhile_cons, hc])]
    have e1 : (decide (c = '/') && decide (d = '/')) = false := by
      rcases h2.1 with h | h
      · simp [h]
      · simp [h.1]
    have e2 : (decide (c = '/') && decide (d = '*')) = false := by
      rcases h2.1 with h | h
      · simp [h]
      · simp [h.2]
    rw [e1, e2]
    simp [List.takeWhile_cons, hc]

/-- C14. Verbatim lexemes: for every input without a whitespace byte and without `//` and
`/*`, `tokenize` terminates and the lexemes of its tokens, put one after the other in
recognition order, are the input. -/
theorem C14_verbatim_lexemes (input : Str) (map : List (Str × Str))
    (h1 : ∀ x ∈ input, isspace x = false) (h2 : opensComment input = false) :
    ∃ L, (Lexer.new input map).tokenize = some L ∧
      (L.tokens.map (fun t => t.lexeme)).flatten = input := by
  refine ⟨_, tokenize_eq _ _, ?_⟩
  simp only
  revert h1 h2
  apply lex_induction map (fun r _ toks _ => (∀ x ∈ r, isspace x = false) →
    opensComment r = false → (toks.map (fun t => t.lexeme)).flatten = r)
  · intro r line h h1 h2
    rw [splitSkip_plain r h1 h2] at h
    simp only at h
    rw [h]
    rfl
  · intro r line c t h toks errs ih h1 h2
    rw [splitSkip_plain r h1 h2] at h ih ⊢
    simp only at h
    simp only [newlines_nil, addLines_zero] at ih ⊢
    obtain ⟨hs1, _, _⟩ := lexToken_spec map c t line
    rw [List.map_cons, List.flatten_cons, ih, hs1, h]
    · intro x hx
      apply h1
      rw [h, ← hs1]
      exact List.mem_append_right _ hx
    · apply opensComment_suffix (lexToken map c t line).1.lexeme
      rw [hs1, ← h]
      exact h2

theorem C14_verbatim_lexemes_witness :
    (∀ x ∈ 'a' :: '&' :: DQUOTE :: "/b@1<=2|".toList, isspace x = false) ∧
    opensComment ('a' :: '&' :: DQUOTE :: "/b@1<=2|".toList) = false ∧
    ∃ L, (Lexer.new ('a' :: '&' :: DQUOTE :: "/b@1<=2|".toList)
        initDefaultErrorMap).tokenize = some L ∧
      (L.tokens.map (fun t => t.lexeme)).flatten
        = 'a' :: '&' :: DQUOTE :: "/b@1<=2|".toList :=
  ⟨by decide, by decide,
    C14_verbatim_lexemes ('a' :: '&' :: DQUOTE :: "/b@1<=2|".toList) initDefaultErrorMap
      (by decide) (by decide)⟩

/-! ## Termination and the cursor -/

theorem Lexer.At.of_le (L : Lexer) (h : L.pos ≤ L.input.length) :
    L.At (L.input.drop L.pos) := ⟨h, rfl⟩

theorem Lexer.At.of_lt (L : Lexer) (h : L.pos < L.input.length) :
    ∃ t, L.At (L.peek :: t) := by
  have hat := Lexer.At.of_le L (Nat.le_of_lt h)
  cases hr : L.input.drop L.pos with
  | nil =>
    have := congrArg List.length hr
    simp at this
    omega
  | cons c t =>
    rw [hr] at hat
    exact ⟨t, by rw [hat.peek_cons]; exact hat⟩

/-- C16. Scanning always completes: on every input `tokenize` terminates with the cursor at
the end of the input (offset equal to the buffer length), whatever diagnostics were recorded;
it does so from every state whose offset is within the buffer; and from a position that is not
the end each dispatch step (the reader chosen for the byte under the cursor) terminates and
moves the offset forward by at least one, staying within the buffer. -/
theorem C16_scanning_completes :
    (∀ (input : Str) (map : List (Str × Str)),
      ∃ L, (Lexer.new input map).tokenize = some L ∧ L.input = input ∧
        L.pos = input.length ∧ L.eof = true) ∧
    (∀ L : Lexer, L.pos ≤ L.input.length →
      ∃ L1, L.tokenize = some L1 ∧ L1.input = L.input ∧ L1.pos = L.input.length) ∧
    (∀ L : Lexer, L.pos < L.input.length →
      (isalpha L.peek = true ∨ L.peek = '_' →
        ∃ L1, L.readIdentifierOrKeyword = some L1 ∧ L.pos < L1.pos ∧
          L1.pos ≤ L.input.length) ∧
      (isdigit L.peek = true →
        ∃ L1, L.readNumber = some L1 ∧ L.pos < L1.pos ∧ L1.pos ≤ L.input.length) ∧
      (∃ L1, L.readString = some L1 ∧ L.pos < L1.pos ∧ L1.pos ≤ L.input.length) ∧
      (L.pos < L.readOperatorOrDelimiter.pos ∧
        L.readOperatorOrDelimiter.pos ≤ L.input.length)) := by
  refine ⟨?_, ?_, ?_⟩
  · intro input map
    exact ⟨_, tokenize_eq input map, rfl, rfl, by simp [Lexer.eof]⟩
  · intro L h
    have hat := Lexer.At.of_le L h
    have hlen : (L.input.drop L.pos).length < L.input.length + 1 := by
      simp; omega
    refine ⟨_, tokenizeLoop_eq _ _ (Nat.le_refl _) _ L hat hlen, rfl, ?_⟩
    simp [Lexer.after]
    omega
  · intro L h
    obtain ⟨t, hat⟩ := Lexer.At.of_lt L h
    have hle := hat.length_le
    generalize L.peek = c at hat
    have bound : ∀ (lexeme rest : Str) (toks : List Token) (errs : List (Int × Str)),
        lexeme ++ rest = c :: t → lexeme ≠ [] →
        L.pos < (L.after lexeme toks errs).pos ∧
          (L.after lexeme toks errs).pos ≤ L.input.length := by
      intro lexeme rest toks errs happ hne
      have h1 := (Lexer.At.after (L := L) (a := lexeme) (r := rest) (by rw [happ]; exact hat)
        toks errs).1
      have h2 : 0 < lexeme.length := List.length_pos.mpr hne
      simp only [Lexer.after] at h1 ⊢
      omega
    refine ⟨?_, ?_, ?_, ?_⟩
    · intro hc
      have hal : (isalpha c || decide (c = '_')) = true := by
        rcases hc with h | h <;> simp [h]
      obtain ⟨s1, s2, _⟩ := lexToken_spec L.errorCodeMap c t L.line
      simp only [lexToken, hal, if_true] at s1 s2
      exact ⟨_, readIdentifierOrKeyword_eq hat, bound _ _ _ _ s1 s2⟩
    · intro hc
      have hal : (isalpha c || decide (c = '_')) = false := by
        simp only [Bool.or_eq_false_iff, decide_eq_false_iff_not]
        constructor
        · simp only [isalpha, isdigit, Bool.or_eq_false_iff, Bool.and_eq_false_iff,
            Bool.and_eq_true, decide_eq_true_eq, decide_eq_false_iff_not] at hc ⊢
          omega
        · rintro rfl
          revert hc
          decide
      obtain ⟨s1, s2, _⟩ := lexToken_spec L.errorCodeMap c t L.line
      simp only [lexToken, hal, hc, if_true, Bool.false_eq_true, if_false] at s1 s2
      exact ⟨_, readNumber_eq hat, bound _ _ _ _ s1 s2⟩
    · have happ := splitString_append t.length t (Nat.le_refl _)
      exact ⟨_, readString_eq hat, bound (c :: (splitString t).1) (splitString t).2.2 _ _
        (by rw [List.cons_append, happ]) (by simp)⟩
    · obtain ⟨e1, e2⟩ := readOperatorOrDelimiter_eq hat
      obtain ⟨_, s2, _⟩ := lexOperator_spec L.errorCodeMap c t L.line
      rw [e1]
      exact bound _ _ _ _ e2 s2

theorem C16_scanning_completes_witness :
    (Lexer.new "a1 ".toList initDefaultErrorMap).pos
      < (Lexer.new "a1 ".toList initDefaultErrorMap).input.length ∧
    (isalpha (Lexer.new "a1 ".toList initDefaultErrorMap).peek = true ∨
      (Lexer.new "a1 ".toList initDefaultErrorMap).peek = '_') ∧
    ∃ L1, (Lexer.new "a1 ".toList initDefaultErrorMap).readIdentifierOrKeyword = some L1 ∧
      (Lexer.new "a1 ".toList initDefaultErrorMap).pos < L1.pos ∧
      L1.pos ≤ (Lexer.new "a1 ".toList initDefaultErrorMap).input.length :=
  ⟨by decide, by decide,
    (C16_scanning_completes.2.2 (Lexer.new "a1 ".toList initDefaultErrorMap) (by decide)).1
      (by decide)⟩

theorem get_invariant (L : Lexer) (h1 : L.pos ≤ L.input.length)
    (h2 : L.line = addLines 1 (newlines (L.input.take L.pos))) :
    L.get.2.input = L.input ∧ L.get.2.pos ≤ L.input.length ∧
      L.get.2.line = addLines 1 (newlines (L.input.take L.get.2.pos)) ∧
      L.pos ≤ L.get.2.pos := by
  have hat := Lexer.At.of_le L h1
  cases hr : L.input.drop L.pos with
  | nil =>
    rw [hr] at hat
    rw [hat.get_nil]
    exact ⟨rfl, h1, h2, Nat.le_refl _⟩
  | cons c t =>
    rw [hr] at hat
    rw [hat.get_cons]
    have hlt := hat.pos_lt
    have htake : L.input.take (L.pos + 1) = L.input.take L.pos ++ [c] := by
      rw [List.take_succ]
      have hg := hat.getD_pos
      rw [List.getD_eq_getElem?_getD] at hg
      have : L.input[L.pos]? = some c := by
        rw [List.getElem?_eq_getElem hlt] at hg ⊢
        simpa using hg
      rw [this]
      rfl
    refine ⟨rfl, ?_, ?_, ?_⟩
    · simp only [Lexer.advance, List.length_singleton]; omega
    · simp only [Lexer.advance, List.length_singleton]
      rw [htake, newlines_append, h2, addLines_add]
    · simp only [Lexer.advance]; omega

/-- Reading the bytes `a` that stand before the cursor, one call of `get` for each. -/
theorem iterate_get {a : Str} : ∀ {L : Lexer} {r : Str}, L.At (a ++ r) →
    Nat.iterate (fun L => (Lexer.get L).2) a.length L = L.advance a := by
  induction a with
  | nil =>
    intro L r _
    rw [Lexer.advance_nil]
    rfl
  | cons c a ih =>
    intro L r h
    have h1 : L.At (c :: (a ++ r)) := h
    have h2 : (L.advance [c]).At (a ++ r) := Lexer.At.advance (a := [c]) h
    rw [List.length_cons, Function.iterate_succ_apply, h1.get_cons, ih h2,
      Lexer.advance_advance]
    rfl

/-- After `k` calls of `get` on an input of `k` newlines the offset is `k` and the line
counter has been incremented `k` times. -/
theorem iterate_get_newlines (map : List (Str × Str)) (k : Nat) :
    (Nat.iterate (fun L => (Lexer.get L).2) k (Lexer.new (List.replicate k NL) map)).pos = k ∧
    (Nat.iterate (fun L => (Lexer.get L).2) k (Lexer.new (List.replicate k NL) map)).line
      = addLines 1 k := by
  have h := iterate_get (a := List.replicate k NL) (L := Lexer.new (List.replicate k NL) map)
    (r := []) (by simpa using Lexer.At.new (List.replicate k NL) map)
  rw [List.length_replicate] at h
  rw [h]
  simp [Lexer.advance, Lexer.new, newlines_replicate]

/-- C17 as stated fails: after 2147483647 calls of `get` on an input of 2147483647 newlines
the offset is 2147483647, all 2147483647 bytes before it are newlines, and the `int` line
counter holds -2147483648, not 1 + 2147483647. -/
theorem C17_cursor_invariant_counterexample :
    (Nat.iterate (fun L => (Lexer.get L).2) 2147483647
      (Lexer.new (List.replicate 2147483647 NL) initDefaultErrorMap)).pos = 2147483647 ∧
    (Nat.iterate (fun L => (Lexer.get L).2) 2147483647
      (Lexer.new (List.replicate 2147483647 NL) initDefaultErrorMap)).line = -2147483648 ∧
    newlines (List.replicate 2147483647 NL) = 2147483647 ∧
    (-2147483648 : Int) ≠ 1 + 2147483647 := by
  obtain ⟨hp, hl⟩ := iterate_get_newlines initDefaultErrorMap 2147483647
  rw [addLines_overflow] at hl
  exact ⟨hp, hl, newlines_replicate 2147483647, by decide⟩

/-- C17, amended. Cursor invariant: in every state reached from the initial state (offset 0,
line 1) by calls of `get`, the buffer is unchanged, the offset is at most the buffer length,
the line counter is the `int` value of 1 plus the number of newline bytes among the first
`offset` bytes of the input (`wrapInt`: the counter wraps from 2147483647 to -2147483648),
which is that number itself while at most 2147483646 newlines have been read, and one more
call of `get` does not decrease the offset; at end of input `get` returns the sentinel and
changes neither offset nor line (nor anything else). Here `wrapInt x` is the one value between
-2147483648 and 2147483647 that differs from `x` by a multiple of `2^32`. -/
theorem C17_cursor_invariant (input : Str) (map : List (Str × Str)) (n : Nat) :
    (Nat.iterate (fun L => (Lexer.get L).2) n (Lexer.new input map)).input = input ∧
    (Nat.iterate (fun L => (Lexer.get L).2) n (Lexer.new input map)).pos ≤ input.length ∧
    (Nat.iterate (fun L => (Lexer.get L).2) n (Lexer.new input map)).line
      = wrapInt (1 + newlines (input.take
          (Nat.iterate (fun L => (Lexer.get L).2) n (Lexer.new input map)).pos)) ∧
    (newlines (input.take
        (Nat.iterate (fun L => (Lexer.get L).2) n (Lexer.new input map)).pos) ≤ 2147483646 →
      (Nat.iterate (fun L => (Lexer.get L).2) n (Lexer.new input map)).line
        = 1 + newlines (input.take
            (Nat.iterate (fun L => (Lexer.get L).2) n (Lexer.new input map)).pos)) ∧
    (Nat.iterate (fun L => (Lexer.get L).2) n (Lexer.new input map)).pos
      ≤ (Nat.iterate (fun L => (Lexer.get L).2) (n + 1) (Lexer.new input map)).pos ∧
    (∀ L : Lexer, L.eof = true → L.get = (NUL, L)) ∧
    (∀ x : Int,
      -2147483648 ≤ wrapInt x ∧ wrapInt x ≤ 2147483647 ∧ (wrapInt x - x) % 4294967296 = 0) := by
  have inv : ∀ n, (Nat.iterate (fun L => (Lexer.get L).2) n (Lexer.new input map)).input
        = input ∧
      (Nat.iterate (fun L => (Lexer.get L).2) n (Lexer.new input map)).pos ≤ input.length ∧
      (Nat.iterate (fun L => (Lexer.get L).2) n (Lexer.new input map)).line
        = addLines 1 (newlines (input.take
            (Nat.iterate (fun L => (Lexer.get L).2) n (Lexer.new input map)).pos)) := by
    intro n
    induction n with
    | zero => exact ⟨rfl, Nat.zero_le _, rfl⟩
    | succ n ih =>
      rw [Function.iterate_succ_apply']
      obtain ⟨i1, i2, i3⟩ := ih
      obtain ⟨g1, g2, g3, _⟩ := get_invariant _ (by rw [i1]; exact i2) (by rw [i1]; exact i3)
      rw [i1] at g1 g2 g3
      exact ⟨g1, g2, g3⟩
  obtain ⟨i1, i2, i3⟩ := inv n
  refine ⟨i1, i2, ?_, ?_, ?_, ?_, fun x => by unfold wrapInt; omega⟩
  · rw [i3, addLines_wrap 1 _ (by omega) (by omega)]
  · intro hb
    rw [i3, addLines_eq 1 _ (by omega) (by omega)]
  · rw [Function.iterate_succ_apply']
    exact (get_invariant _ (by rw [i1]; exact i2) (by rw [i1]; exact i3)).2.2.2
  · intro L h
    simp only [Lexer.eof, decide_eq_true_eq] at h
    simp [Lexer.get, h]

theorem C17_cursor_invariant_witness :
    (Nat.iterate (fun L => (Lexer.get L).2) 5 (Lexer.new ['a', NL] initDefaultErrorMap)).eof
      = true ∧
    (Nat.iterate (fun L => (Lexer.get L).2) 5 (Lexer.new ['a', NL] initDefaultErrorMap)).pos
      = 2 ∧
    (Nat.iterate (fun L => (Lexer.get L).2) 5 (Lexer.new ['a', NL] initDefaultErrorMap)).line
      = 2 ∧
    (Nat.iterate (fun L => (Lexer.get L).2) 5 (Lexer.new ['a', NL] initDefaultErrorMap)).line
      = 1 + newlines (['a', NL].take
          (Nat.iterate (fun L => (Lexer.get L).2) 5
            (Lexer.new ['a', NL] initDefaultErrorMap)).pos) ∧
    (Nat.iterate (fun L => (Lexer.get L).2) 5 (Lexer.new ['a', NL] initDefaultErrorMap)).get
      = (NUL, Nat.iterate (fun L => (Lexer.get L).2) 5
          (Lexer.new ['a', NL] initDefaultErrorMap)) :=
  ⟨by decide, by decide, by decide,
    (C17_cursor_invariant ['a', NL] initDefaultErrorMap 5).2.2.2.1 (by decide),
    (C17_cursor_invariant ['a', NL] initDefaultErrorMap 5).2.2.2.2.2.1 _ (by decide)⟩

/-- A terminated block comment without a zero byte is skipped; the scan goes on after as
many increments of the line counter as the body has newlines. -/
theorem lex_block_comment (map : List (Str × Str)) (body r : Str)
    (h1 : closesComment body = false) (h2 : NUL ∉ body) (line : Int) :
    lex map ('/' :: '*' :: (body ++ '*' :: '/' :: r)) line
      = lex map r (addLines line (newlines body)) := by
  have hsk : splitSkip ('/' :: '*' :: (body ++ '*' :: '/' :: r))
      = ('/' :: '*' :: ((body ++ ['*', '/']) ++ (splitSkip r).1), (splitSkip r).2) := by
    rw [splitSkip_block, splitBlock_closed body r h1 h2]
  have hnl : newlines ('/' :: '*' :: ((body ++ ['*', '/']) ++ (splitSkip r).1))
      = newlines body + newlines (splitSkip r).1 := by
    have e : newlines ['*', '/'] = 0 := by decide
    rw [newlines_cons, newlines_cons, newlines_append, newlines_append, e,
      if_neg (by decide), if_neg (by decide)]
    omega
  apply lex_congr
  · rw [hsk]
  · rw [hsk, hnl, addLines_add]

/-- C19 as stated fails: with the body of one newline and a remainder of 2147483646 newlines
followed by `x`, the token `x` is on line 2147483647 in the run on the remainder, and on line
-2147483648, not 2147483648, in the run with the comment before it: the `int` line counter has
wrapped. -/
theorem C19_terminated_block_comment_counterexample :
    closesComment [NL] = false ∧ NUL ∉ [NL] ∧
    ∃ L1 L2,
      (Lexer.new ('/' :: '*' :: ([NL] ++ '*' :: '/' :: (List.replicate 2147483646 NL ++ ['x'])))
        initDefaultErrorMap).tokenize = some L1 ∧
      (Lexer.new (List.replicate 2147483646 NL ++ ['x']) initDefaultErrorMap).tokenize
        = some L2 ∧
      L2.tokens = [⟨.IDENFR, ['x'], 2147483647⟩] ∧
      L1.tokens = [⟨.IDENFR, ['x'], -2147483648⟩] ∧
      L1.tokens ≠ L2.tokens.map (fun t => { t with line := t.line + newlines [NL] }) := by
  have h2 : lex initDefaultErrorMap (List.replicate 2147483646 NL ++ ['x']) 1
      = ([⟨.IDENFR, ['x'], 2147483647⟩], []) := by
    rw [lex_newlines_word, addLines_max]
  have h1 : lex initDefaultErrorMap
      ('/' :: '*' :: ([NL] ++ '*' :: '/' :: (List.replicate 2147483646 NL ++ ['x']))) 1
      = ([⟨.IDENFR, ['x'], -2147483648⟩], []) := by
    rw [lex_block_comment _ [NL] _ (by decide) (by decide), lex_newlines_word, addLines_comm,
      addLines_max]
    rfl
  obtain ⟨L1, e1, _, t1, _⟩ := tokenize_of_lex _ _ _ _ h1
  obtain ⟨L2, e2, _, t2, _⟩ := tokenize_of_lex _ _ _ _ h2
  refine ⟨by decide, by decide, L1, L2, e1, e2, t2, t1, ?_⟩
  rw [t1, t2]
  decide

/-- C19, amended. Terminated block comment: for every body without `*/` and without a zero
byte and every remainder `r`, `tokenize` on `/*`, body, `*/`, `r` and `tokenize` on `r` both
terminate, with the same tokens (kinds and lexemes, in order) and the same diagnostic codes,
every token line and every diagnostic line of the first run being the `int` value of the line
of the second run plus the number of newlines in the body (`wrapInt`: the counter wraps from
2147483647 to -2147483648). When body and `r` together have at most 2147483646 newlines, so
that the counter stays at most 2147483647, every line is greater by exactly the number of
newlines in the body. The `/` right after the opening `/*` does not close the comment:
`/*/ a */b` is the one token `b`. Here `wrapInt x` is the one value between -2147483648 and
2147483647 that differs from `x` by a multiple of `2^32`. -/
theorem C19_terminated_block_comment (body r : Str) (map : List (Str × Str))
    (h1 : closesComment body = false) (h2 : NUL ∉ body) :
    (∃ L1 L2, (Lexer.new ('/' :: '*' :: (body ++ '*' :: '/' :: r)) map).tokenize = some L1 ∧
      (Lexer.new r map).tokenize = some L2 ∧
      L1.tokens = L2.tokens.map
        (fun t => { t with line := wrapInt (t.line + newlines body) }) ∧
      L1.errors = L2.errors.map (fun e => (wrapInt (e.1 + newlines body), e.2)) ∧
      (newlines body + newlines r ≤ 2147483646 →
        L1.tokens = L2.tokens.map (fun t => { t with line := t.line + newlines body }) ∧
        L1.errors = L2.errors.map (fun e => (e.1 + (newlines body : Int), e.2)))) ∧
    (∃ L, (Lexer.new "/*/ a */b".toList initDefaultErrorMap).tokenize = some L ∧
      L.tokens = [⟨.IDENFR, "b".toList, 1⟩] ∧ L.errors = []) ∧
    (∀ x : Int,
      -2147483648 ≤ wrapInt x ∧ wrapInt x ≤ 2147483647 ∧ (wrapInt x - x) % 4294967296 = 0) := by
  refine ⟨⟨_, _, tokenize_eq _ _, tokenize_eq _ _, ?_⟩, ⟨_, rfl, by decide, by decide⟩,
    fun x => by unfold wrapInt; omega⟩
  have e1 := lex_block_comment map body r h1 h2 1
  have e2 := lex_shift map r 1 (newlines body)
  obtain ⟨r1, r2⟩ := lex_range map r 1 (by omega)
  have q1 : (lex map r 1).1.map (fun t => { t with line := addLines t.line (newlines body) })
      = (lex map r 1).1.map (fun t => { t with line := wrapInt (t.line + newlines body) }) := by
    apply List.map_congr_left
    intro t ht
    rw [addLines_wrap _ _ (r1 t ht).1 (r1 t ht).2]
  have q2 : (lex map r 1).2.map (fun e => (addLines e.1 (newlines body), e.2))
      = (lex map r 1).2.map (fun e => (wrapInt (e.1 + newlines body), e.2)) := by
    apply List.map_congr_left
    intro e he
    rw [addLines_wrap _ _ (r2 e he).1 (r2 e he).2]
  simp only
  rw [e1, e2, q1, q2]
  refine ⟨rfl, rfl, ?_⟩
  intro hb
  obtain ⟨b1, _, b3, _⟩ := lex_lines map r 1 (by omega) (by omega)
  constructor
  · apply List.map_congr_left
    intro t ht
    have := b1 t ht
    rw [wrapInt_eq _ (by omega) (by omega)]
  · apply List.map_congr_left
    intro e he
    have := b3 e he
    rw [wrapInt_eq _ (by omega) (by omega)]

theorem C19_terminated_block_comment_witness :
    closesComment ['/', '*', NL, '*'] = false ∧ NUL ∉ ['/', '*', NL, '*'] ∧
    newlines ['/', '*', NL, '*'] + newlines "x|".toList ≤ 2147483646 ∧
    ∃ L1 L2, (Lexer.new ('/' :: '*' :: (['/', '*', NL, '*'] ++ '*' :: '/' :: "x|".toList))
        initDefaultErrorMap).tokenize = some L1 ∧
      (Lexer.new "x|".toList initDefaultErrorMap).tokenize = some L2 ∧
      L1.tokens = L2.tokens.map
        (fun t => { t with line := t.line + newlines ['/', '*', NL, '*'] }) ∧
      L1.errors = L2.errors.map
        (fun e => (e.1 + (newlines ['/', '*', NL, '*'] : Int), e.2)) := by
  obtain ⟨⟨L1, L2, q1, q2, _, _, hb⟩, _, _⟩ :=
    C19_terminated_block_comment ['/', '*', NL, '*'] "x|".toList initDefaultErrorMap
      (by decide) (by decide)
  exact ⟨by decide, by decide, by decide, L1, L2, q1, q2, hb (by decide)⟩

/-! ## Tokens and their diagnostics -/

theorem splitString_idem (k : Nat) : ∀ t : Str, t.length ≤ k →
    (splitString (splitString t).1).2.1 = (splitString t).2.1 := by
  induction k with
  | zero =>
    intro t hk
    have hr : t = [] := List.length_eq_zero.mp (by omega)
    subst hr
    rfl
  | succ k ih =>
    intro t hk
    match t with
    | [] => rfl
    | [c] =>
      by_cases hq : c = DQUOTE
      · subst hq
        rw [splitString_quote]
        exact congrArg (fun p => p.2.1) (splitString_quote [])
      · by_cases hb : c = BSLASH
        · subst hb
          have e : splitString [BSLASH] = ([BSLASH], false, []) := by
            rw [splitString.eq_def]; simp [hq]
          rw [e]
          exact congrArg (fun p => p.2.1) e
        · have e : splitString [c] = ([c], false, []) := by
            rw [splitString_plain c [] hq hb]; rfl
          rw [e]
          exact congrArg (fun p => p.2.1) e
    | c :: d :: t =>
      have i1 := ih (d :: t) (by simp at hk ⊢; omega)
      have i2 := ih t (by simp at hk ⊢; omega)
      by_cases hq : c = DQUOTE
      · subst hq
        rw [splitString_quote]
        exact congrArg (fun p => p.2.1) (splitString_quote [])
      · by_cases hb : c = BSLASH
        · subst hb
          rw [splitString_escape]
          simp only
          rw [splitString_escape]
          exact i2
        · rw [splitString_plain c _ hq hb]
          simp only
          rw [splitString_plain c _ hq hb]
          exact i1

theorem lookup_mem_values (s : Str) (k : TokenType) :
    ∀ l : List (Str × TokenType), l.lookup s = some k → k ∈ l.map Prod.snd
  | [], h => by simp at h
  | (a, b) :: l, h => by
    rw [List.lookup_cons] at h
    cases hb : (s == a) with
    | true =>
      rw [hb] at h
      injection h with h
      rw [List.map_cons, ← h]
      exact List.mem_cons_self _ _
    | false =>
      rw [hb] at h
      rw [List.map_cons]
      exact List.mem_cons_of_mem _ (lookup_mem_values s k l h)

theorem wordKind_kind (s : Str) : wordKind s ≠ .UNKNOWN ∧ wordKind s ≠ .STRCON := by
  unfold wordKind
  cases h : initKeywords.lookup s with
  | none => exact ⟨by decide, by decide⟩
  | some k =>
    have hm : k ∈ initKeywords.map Prod.snd := lookup_mem_values s k _ h
    constructor <;> (rintro rfl; revert hm; decide)

theorem singleCharKind_kind (c : Char) (k : TokenType) (h : singleCharKind c = some k) :
    k ≠ .UNKNOWN ∧ k ≠ .STRCON := by
  unfold singleCharKind at h
  by_cases h0 : c = '+'
  · rw [if_pos h0] at h
    injection h with h
    subst h
    exact ⟨by decide, by decide⟩
  rw [if_neg h0] at h
  by_cases h1 : c = '-'
  · rw [if_pos h1] at h
    injection h with h
    subst h
    exact ⟨by decide, by decide⟩
  rw [if_neg h1] at h
  by_cases h2 : c = '*'
  · rw [if_pos h2] at h
    injection h with h
    subst h
    exact ⟨by decide, by decide⟩
  rw [if_neg h2] at h
  by_cases h3 : c = '/'
  · rw [if_pos h3] at h
    injection h with h
    subst h
    exact ⟨by decide, by decide⟩
  rw [if_neg h3] at h
  by_cases h4 : c = '%'
  · rw [if_pos h4] at h
    injection h with h
    subst h
    exact ⟨by decide, by decide⟩
  rw [if_neg h4] at h
  by_cases h5 : c = ';'
  · rw [if_pos h5] at h
    injection h with h
    subst h
    exact ⟨by decide, by decide⟩
  rw [if_neg h5] at h
  by_cases h6 : c = ','
  · rw [if_pos h6] at h
    injection h with h
    subst h
    exact ⟨by decide, by decide⟩
  rw [if_neg h6] at h
  by_cases h7 : c = '('
  · rw [if_pos h7] at h
    injection h with h
    subst h
    exact ⟨by decide, by decide⟩
  rw [if_neg h7] at h
  by_cases h8 : c = ')'
  · rw [if_pos h8] at h
    injection h with h
    subst h
    exact ⟨by decide, by decide⟩
  rw [if_neg h8] at h
  by_cases h9 : c = '['
  · rw [if_pos h9] at h
    injection h with h
    subst h
    exact ⟨by decide, by decide⟩
  rw [if_neg h9] at h
  by_cases h10 : c = ']'
  · rw [if_pos h10] at h
    injection h with h
    subst h
    exact ⟨by decide, by decide⟩
  rw [if_neg h10] at h
  by_cases h11 : c = Char.ofNat 123
  · rw [if_pos h11] at h
    injection h with h
    subst h
    exact ⟨by decide, by decide⟩
  rw [if_neg h11] at h
  by_cases h12 : c = Char.ofNat 125
  · rw [if_pos h12] at h
    injection h with h
    subst h
    exact ⟨by decide, by decide⟩
  rw [if_neg h12] at h
  exact absurd h (by simp)

theorem diagOf_other (t : Token) (h1 : t.type ≠ .UNKNOWN) (h2 : t.type ≠ .STRCON) :
    diagOf t = [] := by
  unfold diagOf
  rw [if_neg h1, if_neg (fun h => h2 h.1)]

theorem lexOperator_diag (c : Char) (t : Str) (line : Int) :
    (lexOperator initDefaultErrorMap c t line).2.1
      = diagOf (lexOperator initDefaultErrorMap c t line).1 := by
  unfold lexOperator
  by_cases ha : c = '&'
  · rw [if_pos ha]
    split_ifs <;> rfl
  rw [if_neg ha]
  by_cases hb : c = '|'
  · rw [if_pos hb]
    split_ifs <;> rfl
  rw [if_neg hb]
  by_cases hc : c = '='
  · rw [if_pos hc]; split_ifs <;> rfl
  rw [if_neg hc]
  by_cases hd : c = '!'
  · rw [if_pos hd]; split_ifs <;> rfl
  rw [if_neg hd]
  by_cases he : c = '<'
  · rw [if_pos he]; split_ifs <;> rfl
  rw [if_neg he]
  by_cases hf : c = '>'
  · rw [if_pos hf]; split_ifs <;> rfl
  rw [if_neg hf]
  cases hk : singleCharKind c with
  | some k =>
    obtain ⟨k1, k2⟩ := singleCharKind_kind c k hk
    simp only
    rw [diagOf_other _ k1 k2]
  | none =>
    have e1 : ([c] : Str) ≠ "&".toList := by
      intro e; injection e with e _; exact ha e
    have e2 : ([c] : Str) ≠ "|".toList := by
      intro e; injection e with e _; exact hb e
    simp only [diagOf, if_true, if_neg e1, if_neg e2]
    rfl

theorem lexToken_diag (c : Char) (t : Str) (line : Int) :
    (lexToken initDefaultErrorMap c t line).2.1
      = diagOf (lexToken initDefaultErrorMap c t line).1 := by
  unfold lexToken
  by_cases h1 : (isalpha c || decide (c = '_')) = true
  · rw [if_pos h1]
    simp only
    rw [diagOf_other _ (wordKind_kind _).1 (wordKind_kind _).2]
  rw [if_neg h1]
  by_cases h2 : isdigit c = true
  · rw [if_pos h2]
    rfl
  rw [if_neg h2]
  by_cases h3 : c = DQUOTE
  · rw [if_pos h3]
    have hid := splitString_idem t.length t (Nat.le_refl _)
    simp only [diagOf, unterminated, List.tail_cons, hid]
    cases (splitString t).2.1
    · simp; rfl
    · simp
  rw [if_neg h3]
  exact lexOperator_diag c t line

theorem lex_diag (r : Str) (line : Int) :
    (lex initDefaultErrorMap r line).2 = (lex initDefaultErrorMap r line).1.flatMap diagOf := by
  apply lex_induction initDefaultErrorMap (fun _ _ toks errs => errs = toks.flatMap diagOf)
  · intro r line _
    rfl
  · intro r line c t _ toks errs ih
    rw [List.flatMap_cons, ← ih, lexToken_diag]

theorem diagOf_filter (t : Token) :
    (diagOf t).filter (fun e => decide (e.2 ≠ "c".toList))
      = if t.type = .UNKNOWN then
          [(t.line, if t.lexeme = "&".toList then "a".toList
            else if t.lexeme = "|".toList then "b".toList else "d".toList)]
        else [] := by
  unfold diagOf
  by_cases h : t.type = .UNKNOWN
  · rw [if_pos h, if_pos h]
    split_ifs <;> rfl
  · rw [if_neg h, if_neg h]
    split_ifs <;> rfl

theorem flatMap_diagOf_filter (toks : List Token) :
    (toks.flatMap diagOf).filter (fun e => decide (e.2 ≠ "c".toList))
      = (toks.filter (fun t => decide (t.type = .UNKNOWN))).map
          (fun t => (t.line, if t.lexeme = "&".toList then "a".toList
            else if t.lexeme = "|".toList then "b".toList else "d".toList)) := by
  induction toks with
  | nil => rfl
  | cons t l ih =>
    rw [List.flatMap_cons, List.filter_append, ih, diagOf_filter, List.filter_cons]
    by_cases h : t.type = .UNKNOWN
    · simp [h]
    · simp [h]

/-- C20. UNKNOWN tokens and diagnostics correspond (canonical engine, default error-code map):
on every input, the diagnostics whose code is not `c` (the `unterminated_string` code), in
recorded order, are exactly the `UNKNOWN` tokens in recognition order, each with the line of
its token and the code given by the lexeme (`&` gives `a`, `|` gives `b`, any other gives `d`).
The whole diagnostic sequence is the tokens' diagnostics `diagOf` put one after the other, so
a token that is neither `UNKNOWN` nor an unterminated `STRCON` contributes none. -/
theorem C20_unknown_tokens_and_diagnostics (input : Str) :
    ∃ L, (Lexer.new input initDefaultErrorMap).tokenize = some L ∧
      L.errors.filter (fun e => decide (e.2 ≠ "c".toList))
        = (L.tokens.filter (fun t => decide (t.type = .UNKNOWN))).map
            (fun t => (t.line, if t.lexeme = "&".toList then "a".toList
              else if t.lexeme = "|".toList then "b".toList else "d".toList)) ∧
      L.errors = L.tokens.flatMap diagOf ∧
      (∀ t ∈ L.tokens, t.type ≠ .UNKNOWN →
        ¬ (t.type = .STRCON ∧ unterminated t.lexeme = true) → diagOf t = []) := by
  refine ⟨_, tokenize_eq _ _, ?_, lex_diag input 1, ?_⟩
  · simp only
    rw [lex_diag input 1]
    exact flatMap_diagOf_filter _
  · intro t _ h1 h2
    unfold diagOf
    rw [if_neg h1, if_neg h2]

theorem C20_unknown_tokens_and_diagnostics_witness :
    ∃ L, (Lexer.new ('a' :: '&' :: '@' :: DQUOTE :: "x".toList)
        initDefaultErrorMap).tokenize = some L ∧
      L.tokens = [⟨.IDENFR, ['a'], 1⟩, ⟨.UNKNOWN, ['&'], 1⟩, ⟨.UNKNOWN, ['@'], 1⟩,
        ⟨.STRCON, [DQUOTE, 'x'], 1⟩] ∧
      L.errors = [(1, ['a']), (1, ['d']), (1, ['c'])] ∧
      diagOf ⟨.IDENFR, ['a'], 1⟩ = [] := by
  obtain ⟨L, h, _, _, h3⟩ := C20_unknown_tokens_and_diagnostics
    ('a' :: '&' :: '@' :: DQUOTE :: "x".toList)
  have hL : (Lexer.new ('a' :: '&' :: '@' :: DQUOTE :: "x".toList)
      initDefaultErrorMap).tokenize
      = some ⟨'a' :: '&' :: '@' :: DQUOTE :: "x".toList, 5, 1,
          [⟨.IDENFR, ['a'], 1⟩, ⟨.UNKNOWN, ['&'], 1⟩, ⟨.UNKNOWN, ['@'], 1⟩,
            ⟨.STRCON, [DQUOTE, 'x'], 1⟩],
          [(1, ['a']), (1, ['d']), (1, ['c'])], initDefaultErrorMap⟩ := by
    decide
  rw [hL] at h
  cases h
  exact ⟨_, hL, rfl, rfl, h3 ⟨.IDENFR, ['a'], 1⟩ (by decide) (by decide) (by decide)⟩

/-! ## Lines in recognition order -/

theorem errorLe_fst {a b : Int × Str} (h : errorLe a b) : a.1 ≤ b.1 := by
  rcases (errorLe_iff a b).mp h with h | h
  · omega
  · omega

/-- On a sequence whose lines are already non-decreasing the sort of `writeOutputs` leaves
the line at every position as it was. -/
theorem sortErrors_lines (l : List (Int × Str)) (h : l.Pairwise (fun a b => a.1 ≤ b.1)) :
    (sortErrors l).map Prod.fst = l.map Prod.fst := by
  have hp : ((sortErrors l).map Prod.fst).Perm (l.map Prod.fst) := (sortErrors_perm l).map _
  have h1 : ((sortErrors l).map Prod.fst).Pairwise (fun a b => a ≤ b) :=
    List.pairwise_map.mpr ((sortErrors_sorted l).imp errorLe_fst)
  have h2 : (l.map Prod.fst).Pairwise (fun a b => a ≤ b) := List.pairwise_map.mpr h
  exact List.eq_of_perm_of_sorted hp h1 h2

/-- The diagnostics of one line after the sort are the diagnostics of that line before it,
sorted. -/
theorem sortErrors_filter (l : List (Int × Str)) (n : Int) :
    (sortErrors l).filter (fun e => decide (e.1 = n))
      = sortErrors (l.filter (fun e => decide (e.1 = n))) :=
  sortErrors_unique _ _ ((sortErrors_perm l).filter _) ((sortErrors_sorted l).filter _)

theorem writeOutputs_sorted (L : Lexer) : L.writeOutputs.1.errors = sortErrors L.errors := by
  unfold Lexer.writeOutputs
  cases he : L.errors with
  | nil => simp [he, sortErrors]
  | cons e es => simp

/-- The scan of `k` newlines followed by a single `&`: one `UNKNOWN` token and its diagnostic,
on the line reached after `k` increments. -/
theorem lex_newlines_amp (map : List (Str × Str)) (k : Nat) (line : Int) :
    lex map (List.replicate k NL ++ ['&']) line
      = ([⟨.UNKNOWN, ['&'], addLines line k⟩],
          [(addLines line k, codeOf map "single&".toList)]) := by
  have hsk := splitSkip_newlines k '&' [] (by decide) (by decide)
  have htok : ∀ l : Int, lexToken map '&' [] l
      = (⟨.UNKNOWN, ['&'], l⟩, [(l, codeOf map "single&".toList)], []) := by
    intro l
    unfold lexToken
    rw [if_neg (by decide), if_neg (by decide), if_neg (by decide)]
    unfold lexOperator
    rw [if_pos rfl, if_neg (by decide)]
    rfl
  rw [lex_cons map _ line '&' [] (by rw [hsk]), hsk, htok, lex_empty, newlines_replicate]
  rfl

/-- The scan of a single `&`, at least one newline, and a single `&`. -/
theorem lex_amp_newlines_amp (map : List (Str × Str)) (k : Nat) (hk : 0 < k) (line : Int) :
    lex map ('&' :: (List.replicate k NL ++ ['&'])) line
      = ([⟨.UNKNOWN, ['&'], line⟩, ⟨.UNKNOWN, ['&'], addLines line k⟩],
          [(line, codeOf map "single&".toList),
            (addLines line k, codeOf map "single&".toList)]) := by
  have hh : (List.replicate k NL ++ ['&']).headD NUL ≠ '&' := by
    cases k with
    | zero => omega
    | succ j =>
      rw [List.replicate_succ, List.cons_append, List.headD_cons]
      decide
  have htok : lexToken map '&' (List.replicate k NL ++ ['&']) line
      = (⟨.UNKNOWN, ['&'], line⟩, [(line, codeOf map "single&".toList)],
          List.replicate k NL ++ ['&']) := by
    unfold lexToken
    rw [if_neg (by decide), if_neg (by decide), if_neg (by decide)]
    unfold lexOperator
    rw [if_pos rfl, if_neg hh]
    rfl
  rw [lex_start map '&' _ line (by decide) (by decide), htok]
  simp only
  have e : newlines ['&'] = 0 := by decide
  rw [e, addLines_zero, lex_newlines_amp]
  rfl

/-- C21 as stated fails: on `&`, 2147483647 newlines, `&` the second token and the second
diagnostic are recorded with the wrapped `int` line -2147483648 after the first ones on line 1.
The lines decrease, one of them is below 1, and the sort of `writeOutputs` moves the second
diagnostic before the first although they do not share a line. -/
theorem C21_lines_non_decreasing_counterexample :
    ∃ L, (Lexer.new ('&' :: (List.replicate 2147483647 NL ++ ['&']))
        initDefaultErrorMap).tokenize = some L ∧
      L.tokens = [⟨.UNKNOWN, ['&'], 1⟩, ⟨.UNKNOWN, ['&'], -2147483648⟩] ∧
      L.errors = [(1, ['a']), (-2147483648, ['a'])] ∧
      ¬ L.tokens.Pairwise (fun a b => a.line ≤ b.line) ∧
      ¬ L.errors.Pairwise (fun a b => a.1 ≤ b.1) ∧
      ¬ (∀ t ∈ L.tokens, 1 ≤ t.line) ∧
      L.writeOutputs.1.errors = [(-2147483648, ['a']), (1, ['a'])] ∧
      L.writeOutputs.2.errorFile = some "-2147483648 a\n1 a\n".toList := by
  have h := lex_amp_newlines_amp initDefaultErrorMap 2147483647 (by omega) 1
  rw [addLines_overflow] at h
  obtain ⟨L, e, _, ht, he, _⟩ := tokenize_of_lex _ _ _ _ h
  have hc : codeOf initDefaultErrorMap "single&".toList = ['a'] := by decide
  rw [hc] at he
  have hne : L.errors ≠ [] := by rw [he]; decide
  refine ⟨L, e, ht, he, ?_, ?_, ?_, ?_, ?_⟩
  · rw [ht]; decide
  · rw [he]; decide
  · rw [ht]; decide
  · rw [writeOutputs_sorted, he]; decide
  · rw [writeOutputs_errors L hne, he]; decide

/-- C21, amended. Lines are non-decreasing in recognition order while the `int` line counter
does not wrap: on every input (and with any error-code map) `tokenize` terminates, every line
it records is an `int` value, and the diagnostics of any one line after the sort in
`writeOutputs` are the diagnostics of that line before it, sorted. When the input has at most
2147483646 newlines, the lines of the tokens are non-decreasing and each is at least 1 and at
most 1 plus the number of newlines of the input; the lines of the diagnostics, in the order
they were recorded, are non-decreasing as well (and within the same bounds); and the sort in
`writeOutputs` leaves the line at every position of the diagnostic sequence as it was: only
diagnostics that share a line change places. The line counter ends at the `int` value of 1
plus the number of newlines of the input, `wrapInt x` being the one value between -2147483648
and 2147483647 that differs from `x` by a multiple of `2^32`. -/
theorem C21_lines_non_decreasing (input : Str) (map : List (Str × Str)) :
    ∃ L, (Lexer.new input map).tokenize = some L ∧
      (∀ t ∈ L.tokens, -2147483648 ≤ t.line ∧ t.line ≤ 2147483647) ∧
      (∀ e ∈ L.errors, -2147483648 ≤ e.1 ∧ e.1 ≤ 2147483647) ∧
      (∀ n, L.writeOutputs.1.errors.filter (fun e => decide (e.1 = n))
        = sortErrors (L.errors.filter (fun e => decide (e.1 = n)))) ∧
      (newlines input ≤ 2147483646 →
        L.tokens.Pairwise (fun a b => a.line ≤ b.line) ∧
        (∀ t ∈ L.tokens, 1 ≤ t.line ∧ t.line ≤ 1 + newlines input) ∧
        L.errors.Pairwise (fun a b => a.1 ≤ b.1) ∧
        (∀ e ∈ L.errors, 1 ≤ e.1 ∧ e.1 ≤ 1 + newlines input) ∧
        L.writeOutputs.1.errors.map Prod.fst = L.errors.map Prod.fst) ∧
      L.line = wrapInt (1 + newlines input) ∧
      (∀ x : Int,
        -2147483648 ≤ wrapInt x ∧ wrapInt x ≤ 2147483647 ∧
          (wrapInt x - x) % 4294967296 = 0) := by
  obtain ⟨r1, r2⟩ := lex_range map input 1 (by omega)
  refine ⟨_, tokenize_eq input map, r1, r2, ?_, ?_, addLines_wrap 1 _ (by omega) (by omega),
    fun x => by unfold wrapInt; omega⟩
  · intro n
    rw [writeOutputs_sorted]
    exact sortErrors_filter _ n
  · intro hb
    obtain ⟨h1, h2, h3, h4⟩ := lex_lines map input 1 (by omega) (by omega)
    refine ⟨h2, h1, h4, h3, ?_⟩
    rw [writeOutputs_sorted]
    exact sortErrors_lines _ h4

theorem C21_lines_non_decreasing_witness :
    newlines ['|', ' ', '&', NL, '@', NL, 'x'] ≤ 2147483646 ∧
    ∃ L, (Lexer.new ['|', ' ', '&', NL, '@', NL, 'x'] initDefaultErrorMap).tokenize = some L ∧
      L.tokens = [⟨.UNKNOWN, ['|'], 1⟩, ⟨.UNKNOWN, ['&'], 1⟩, ⟨.UNKNOWN, ['@'], 2⟩,
        ⟨.IDENFR, ['x'], 3⟩] ∧
      L.errors = [(1, ['b']), (1, ['a']), (2, ['d'])] ∧
      L.writeOutputs.1.errors = [(1, ['a']), (1, ['b']), (2, ['d'])] ∧
      L.writeOutputs.1.errors.map Prod.fst = L.errors.map Prod.fst ∧
      (∀ t ∈ L.tokens,
        1 ≤ t.line ∧ t.line ≤ 1 + newlines ['|', ' ', '&', NL, '@', NL, 'x']) := by
  obtain ⟨L, h, _, _, _, hb, _, _⟩ := C21_lines_non_decreasing
    ['|', ' ', '&', NL, '@', NL, 'x'] initDefaultErrorMap
  obtain ⟨_, h2, _, _, h5⟩ := hb (by decide)
  have hL : (Lexer.new ['|', ' ', '&', NL, '@', NL, 'x'] initDefaultErrorMap).tokenize
      = some ⟨['|', ' ', '&', NL, '@', NL, 'x'], 7, 3,
          [⟨.UNKNOWN, ['|'], 1⟩, ⟨.UNKNOWN, ['&'], 1⟩, ⟨.UNKNOWN, ['@'], 2⟩,
            ⟨.IDENFR, ['x'], 3⟩],
          [(1, ['b']), (1, ['a']), (2, ['d'])], initDefaultErrorMap⟩ := by
    decide
  rw [hL] at h
  cases h
  exact ⟨by decide, _, hL, rfl, rfl, by decide, h5, h2⟩

end LexicalAnalysis

/-! ## The two engines compared -/

namespace MyCompiler

open LexicalAnalysis

theorem eof_canonical (L : Lexer) : MyCompiler.Lexer.eof L = L.eof := rfl

theorem peek_canonical (L : Lexer) : MyCompiler.Lexer.peek L = L.peek := rfl

theorem get_canonical (L : Lexer) : MyCompiler.Lexer.get L = L.get := rfl

theorem emplace_canonical (L : Lexer) (k : TokenType) (s : Str) (n : Nat) :
    MyCompiler.Lexer.emplace L k s n = L.emplace k s n := rfl

theorem skipSpaces_canonical (fuel : Nat) : ∀ L : Lexer,
    MyCompiler.Lexer.skipSpaces fuel L = LexicalAnalysis.Lexer.skipSpaces fuel L := by
  induction fuel with
  | zero => intro L; rfl
  | succ n ih =>
    intro L
    simp only [MyCompiler.Lexer.skipSpaces, LexicalAnalysis.Lexer.skipSpaces, eof_canonical,
      peek_canonical, get_canonical, ih]

theorem skipLine_canonical (fuel : Nat) : ∀ L : Lexer,
    MyCompiler.Lexer.skipLine fuel L = LexicalAnalysis.Lexer.skipLine fuel L := by
  induction fuel with
  | zero => intro L; rfl
  | succ n ih =>
    intro L
    simp only [MyCompiler.Lexer.skipLine, LexicalAnalysis.Lexer.skipLine, eof_canonical,
      peek_canonical, get_canonical, ih]

theorem skipBlock_canonical (fuel : Nat) : ∀ L : Lexer,
    MyCompiler.Lexer.skipBlock fuel L = LexicalAnalysis.Lexer.skipBlock fuel L := by
  induction fuel with
  | zero => intro L; rfl
  | succ n ih =>
    intro L
    simp only [MyCompiler.Lexer.skipBlock, LexicalAnalysis.Lexer.skipBlock, eof_canonical,
      peek_canonical, get_canonical, ih]

theorem skipLoop_canonical (fuel : Nat) : ∀ L : Lexer,
    MyCompiler.Lexer.skipLoop fuel L = LexicalAnalysis.Lexer.skipLoop fuel L := by
  induction fuel with
  | zero => intro L; rfl
  | succ n ih =>
    intro L
    simp only [MyCompiler.Lexer.skipLoop, LexicalAnalysis.Lexer.skipLoop, eof_canonical,
      peek_canonical, get_canonical, skipSpaces_canonical, skipLine_canonical, skipBlock_canonical, ih]

theorem skipWhitespaceAndComments_canonical (L : Lexer) :
    MyCompiler.Lexer.skipWhitespaceAndComments L = L.skipWhitespaceAndComments :=
  skipLoop_canonical _ L

theorem identLoop_canonical (fuel : Nat) : ∀ (s : Str) (L : Lexer),
    MyCompiler.Lexer.identLoop fuel s L = LexicalAnalysis.Lexer.identLoop fuel s L := by
  induction fuel with
  | zero => intro s L; rfl
  | succ n ih =>
    intro s L
    simp only [MyCompiler.Lexer.identLoop, LexicalAnalysis.Lexer.identLoop, eof_canonical,
      peek_canonical, get_canonical, ih]

theorem readIdentifierOrKeyword_canonical (L : Lexer) :
    MyCompiler.Lexer.readIdentifierOrKeyword L = L.readIdentifierOrKeyword := by
  simp only [MyCompiler.Lexer.readIdentifierOrKeyword,
    LexicalAnalysis.Lexer.readIdentifierOrKeyword, identLoop_canonical, emplace_canonical]
  all_goals rfl

theorem numberLoop_canonical (fuel : Nat) : ∀ (s : Str) (L : Lexer),
    MyCompiler.Lexer.numberLoop fuel s L = LexicalAnalysis.Lexer.numberLoop fuel s L := by
  induction fuel with
  | zero => intro s L; rfl
  | succ n ih =>
    intro s L
    simp only [MyCompiler.Lexer.numberLoop, LexicalAnalysis.Lexer.numberLoop, eof_canonical,
      peek_canonical, get_canonical, ih]

theorem readNumber_canonical (L : Lexer) : MyCompiler.Lexer.readNumber L = L.readNumber := by
  simp only [MyCompiler.Lexer.readNumber, LexicalAnalysis.Lexer.readNumber,
    numberLoop_canonical, emplace_canonical]
  rfl

theorem stringLoop_canonical (fuel : Nat) : ∀ (s : Str) (L : Lexer),
    MyCompiler.Lexer.stringLoop fuel s L = LexicalAnalysis.Lexer.stringLoop fuel s L := by
  induction fuel with
  | zero => intro s L; rfl
  | succ n ih =>
    intro s L
    simp only [MyCompiler.Lexer.stringLoop, LexicalAnalysis.Lexer.stringLoop, eof_canonical,
      peek_canonical, get_canonical, ih]

theorem diagnosticsOf_other (map : List (Str × Str)) (t : Token) (h : t.type ≠ .UNKNOWN) :
    diagnosticsOf map [t] = [] := by
  simp [diagnosticsOf, h]

theorem diagnosticsOf_cons (map : List (Str × Str)) (t : Token) (l : List Token) :
    diagnosticsOf map (t :: l) = diagnosticsOf map [t] ++ diagnosticsOf map l := by
  unfold diagnosticsOf
  rw [← List.map_append, ← List.filter_append]
  rfl

theorem readString_after {L : Lexer} {c : Char} {t : Str} (h : L.At (c :: t)) :
    MyCompiler.Lexer.readString L = some (L.after (c :: (splitString t).1)
      [⟨.STRCON, c :: (splitString t).1, L.line⟩] []) := by
  unfold MyCompiler.Lexer.readString
  have := LexicalAnalysis.stringLoop_eq t.length t (Nat.le_refl _) (L.input.length + 1) [c] _
    h.tail (by have := h.tail.length_le; simp at this; omega)
  simp only [get_canonical, stringLoop_canonical, h.get_cons, this]
  cases (splitString t).2.1 <;>
    simp [MyCompiler.Lexer.emplace, Lexer.after, Lexer.advance, newlines_cons,
      newlines_nil, Nat.add_assoc, Nat.add_comm, Nat.add_left_comm]

theorem readOperatorOrDelimiter_after {L : Lexer} {c : Char} {t : Str} (h : L.At (c :: t)) :
    MyCompiler.Lexer.readOperatorOrDelimiter L
      = L.after (lexOperator L.errorCodeMap c t L.line).1.lexeme
          [(lexOperator L.errorCodeMap c t L.line).1]
          (diagnosticsOf L.errorCodeMap [(lexOperator L.errorCodeMap c t L.line).1]) := by
  unfold MyCompiler.Lexer.readOperatorOrDelimiter lexOperator
  simp only [peek_canonical, get_canonical, h.peek_cons, h.get_cons, h.tail.peek]
  have two : ∀ x : Char, x ≠ NUL → t.headD NUL = x →
      (L.advance [c]).get.2 = L.advance [c, x] := by
    intro x hx hh
    have ht := LexicalAnalysis.drop_one_of_headD hx hh
    have h2 : (L.advance [c]).At (x :: t.drop 1) := by rw [← ht]; exact h.tail
    rw [h2.get_cons, Lexer.advance_advance]
    rfl
  by_cases ha : c = '&'
  · subst ha
    by_cases h2 : t.headD NUL = '&'
    · simp only [h2, if_true, two '&' (by decide) h2]
      simp [MyCompiler.Lexer.emplace, Lexer.after, Lexer.advance, diagnosticsOf, newlines, NL]
    · simp only [h2, if_false, if_true]
      simp [MyCompiler.Lexer.emplace, MyCompiler.Lexer.recordError, MyCompiler.Lexer.code,
        Lexer.after, Lexer.advance, diagnosticsOf, codeOf, newlines, NL]
  simp only [ha, if_false]
  by_cases hb : c = '|'
  · subst hb
    by_cases h2 : t.headD NUL = '|'
    · simp only [h2, if_true, two '|' (by decide) h2]
      simp [MyCompiler.Lexer.emplace, Lexer.after, Lexer.advance, diagnosticsOf, newlines, NL]
    · simp only [h2, if_false, if_true]
      simp [MyCompiler.Lexer.emplace, MyCompiler.Lexer.recordError, MyCompiler.Lexer.code,
        Lexer.after, Lexer.advance, diagnosticsOf, codeOf, newlines, NL]
  simp only [hb, if_false]
  by_cases hc : c = '='
  · subst hc
    by_cases h2 : t.headD NUL = '='
    · simp only [h2, if_true, two '=' (by decide) h2]
      simp [MyCompiler.Lexer.emplace, Lexer.after, Lexer.advance, diagnosticsOf, newlines, NL]
    · simp only [h2, if_false, if_true]
      simp [MyCompiler.Lexer.emplace, Lexer.after, Lexer.advance, diagnosticsOf, newlines, NL]
  simp only [hc, if_false]
  by_cases hd : c = '!'
  · subst hd
    by_cases h2 : t.headD NUL = '='
    · simp only [h2, if_true, two '=' (by decide) h2]
      simp [MyCompiler.Lexer.emplace, Lexer.after, Lexer.advance, diagnosticsOf, newlines, NL]
    · simp only [h2, if_false, if_true]
      simp [MyCompiler.Lexer.emplace, Lexer.after, Lexer.advance, diagnosticsOf, newlines, NL]
  simp only [hd, if_false]
  by_cases he : c = '<'
  · subst he
    by_cases h2 : t.headD NUL = '='
    · simp only [h2, if_true, two '=' (by decide) h2]
      simp [MyCompiler.Lexer.emplace, Lexer.after, Lexer.advance, diagnosticsOf, newlines, NL]
    · simp only [h2, if_false, if_true]
      simp [MyCompiler.Lexer.emplace, Lexer.after, Lexer.advance, diagnosticsOf, newlines, NL]
  simp only [he, if_false]
  by_cases hf : c = '>'
  · subst hf
    by_cases h2 : t.headD NUL = '='
    · simp only [h2, if_true, two '=' (by decide) h2]
      simp [MyCompiler.Lexer.emplace, Lexer.after, Lexer.advance, diagnosticsOf, newlines, NL]
    · simp only [h2, if_false, if_true]
      simp [MyCompiler.Lexer.emplace, Lexer.after, Lexer.advance, diagnosticsOf, newlines, NL]
  simp only [hf, if_false]
  have hk : MyCompiler.singleCharKind c = LexicalAnalysis.singleCharKind c := rfl
  rw [hk]
  cases hs : LexicalAnalysis.singleCharKind c with
  | none =>
    have e1 : ([c] : Str) ≠ "&".toList := by
      intro e; injection e with e _; exact ha e
    have e2 : ([c] : Str) ≠ "|".toList := by
      intro e; injection e with e _; exact hb e
    simp [MyCompiler.Lexer.emplace, Lexer.after, Lexer.advance, diagnosticsOf, e1, e2, ha, hb]
  | some k =>
    have hne := (singleCharKind_kind c k hs).1
    simp [MyCompiler.Lexer.emplace, Lexer.after, Lexer.advance, diagnosticsOf, hne]

/-- With more fuel than bytes left, the loop of the lenient `tokenize` ends at the end of the
input, having appended the tokens that `lex` computes from the remainder and the diagnostics
`diagnosticsOf` of these tokens. -/
theorem tokenizeLoop_after (k : Nat) : ∀ (r : Str), r.length ≤ k → ∀ (fuel : Nat) (L : Lexer),
    L.At r → r.length < fuel →
    MyCompiler.Lexer.tokenizeLoop fuel L
      = some (L.after r (lex L.errorCodeMap r L.line).1
          (diagnosticsOf L.errorCodeMap (lex L.errorCodeMap r L.line).1)) := by
  have hnil : ∀ (fuel : Nat) (L : Lexer), L.At [] → 0 < fuel →
      MyCompiler.Lexer.tokenizeLoop fuel L
        = some (L.after [] (lex L.errorCodeMap [] L.line).1
            (diagnosticsOf L.errorCodeMap (lex L.errorCodeMap [] L.line).1)) := by
    intro fuel L h hf
    cases fuel with
    | zero => simp at hf
    | succ n =>
      rw [lex_empty]
      simp [MyCompiler.Lexer.tokenizeLoop, eof_canonical, h.eof_nil, Lexer.after_nil,
        diagnosticsOf]
  induction k with
  | zero =>
    intro r hk fuel L h hf
    have hr : r = [] := List.length_eq_zero.mp (by omega)
    subst hr
    exact hnil fuel L h (by omega)
  | succ k ih =>
    intro r hk fuel L h hf
    cases fuel with
    | zero => simp at hf
    | succ n =>
      match r, h with
      | [], h => exact hnil _ L h (by omega)
      | a :: r0, h =>
        have hl := h.length_le
        obtain ⟨hs, happ⟩ := LexicalAnalysis.skipLoop_eq _ (a :: r0) (Nat.le_refl _)
          (L.input.length + 1) L h (by omega)
        have hat : (L.advance (splitSkip (a :: r0)).1).At (splitSkip (a :: r0)).2 :=
          Lexer.At.advance (by rw [happ]; exact h)
        have hlen := congrArg List.length happ
        simp only [List.length_append] at hlen
        simp only [MyCompiler.Lexer.tokenizeLoop, eof_canonical, peek_canonical,
          skipWhitespaceAndComments_canonical, readIdentifierOrKeyword_canonical,
          readNumber_canonical, h.eof_cons, LexicalAnalysis.Lexer.skipWhitespaceAndComments, hs,
          Bool.not_false, if_true]
        generalize hsk1 : (splitSkip (a :: r0)).1 = sk at *
        cases hsk2 : (splitSkip (a :: r0)).2 with
        | nil =>
          rw [hsk2] at hat happ
          simp only [hat.eof_nil, if_true, lex_nil _ _ _ hsk2]
          simp only [List.append_nil] at happ
          rw [happ, Lexer.advance_eq_after]
          rfl
        | cons c t =>
          rw [hsk2] at hat happ hlen
          have hlex := lex_cons L.errorCodeMap (a :: r0) L.line c t hsk2
          rw [hsk1] at hlex
          obtain ⟨hsp1, hsp2, hsp3⟩ := lexToken_spec L.errorCodeMap c t (addLines L.line (newlines sk))
          have hlt := lexToken_length L.errorCodeMap c t (addLines L.line (newlines sk))
          simp only [hat.eof_cons, hat.peek_cons, Bool.false_eq_true, if_false]
          have hline : (L.advance sk).line = addLines L.line (newlines sk) := rfl
          have hmap : (L.advance sk).errorCodeMap = L.errorCodeMap := rfl
          have key : MyCompiler.Lexer.tokenizeLoop n ((L.advance sk).after
                (lexToken L.errorCodeMap c t (addLines L.line (newlines sk))).1.lexeme
                [(lexToken L.errorCodeMap c t (addLines L.line (newlines sk))).1]
                (diagnosticsOf L.errorCodeMap
                  [(lexToken L.errorCodeMap c t (addLines L.line (newlines sk))).1])) =
                some (L.after (a :: r0) (lex L.errorCodeMap (a :: r0) L.line).1
                  (diagnosticsOf L.errorCodeMap (lex L.errorCodeMap (a :: r0) L.line).1)) := by
            generalize lexToken L.errorCodeMap c t (addLines L.line (newlines sk)) = q at *
            obtain ⟨tok, errs, rest⟩ := q
            simp only at hsp1 hlt hlex ⊢
            have hat2 : ((L.advance sk).after tok.lexeme [tok]
                (diagnosticsOf L.errorCodeMap [tok])).At rest :=
              Lexer.At.after (by rw [hsp1]; exact hat) _ _
            simp only [List.length_cons] at hlt hlen hk hf
            rw [ih rest (by omega) n _ hat2 (by omega), hlex]
            simp only [Lexer.advance_eq_after, Lexer.after_after, Lexer.after_errorCodeMap]
            have e1 : sk ++ tok.lexeme ++ rest = a :: r0 := by
              rw [List.append_assoc, hsp1, happ]
            have e3 : ∀ (x : List Token) (y : List (Int × Str)),
                (L.after (sk ++ tok.lexeme) x y).line
                  = addLines (addLines L.line (newlines sk)) (newlines tok.lexeme) := by
              intro x y
              rw [addLines_add]
              simp [Lexer.after, newlines_append]
            simp only [e3, e1, List.nil_append, List.singleton_append]
            rw [diagnosticsOf_cons L.errorCodeMap tok
              (lex L.errorCodeMap rest (addLines (addLines L.line (newlines sk)) (newlines tok.lexeme))).1]
          by_cases h1 : (isalpha c || decide (c = '_')) = true
          · simp only [h1, if_true, LexicalAnalysis.readIdentifierOrKeyword_eq hat]
            have hq : lexToken L.errorCodeMap c t (addLines L.line (newlines sk))
                = (⟨wordKind ((c :: t).takeWhile isIdent), (c :: t).takeWhile isIdent,
                    addLines L.line (newlines sk)⟩, [], (c :: t).dropWhile isIdent) := by
              simp [lexToken, h1]
            rw [hq, diagnosticsOf_other _ _ (wordKind_kind _).1] at key
            exact key
          simp only [h1, if_false, Bool.false_eq_true]
          by_cases h2 : isdigit c = true
          · simp only [h2, if_true, LexicalAnalysis.readNumber_eq hat]
            have hq : lexToken L.errorCodeMap c t (addLines L.line (newlines sk))
                = (⟨.INTCON, (c :: t).takeWhile isdigit, addLines L.line (newlines sk)⟩, [],
                    (c :: t).dropWhile isdigit) := by
              simp [lexToken, h1, h2]
            rw [hq, diagnosticsOf_other _ _ (fun h => TokenType.noConfusion h)] at key
            exact key
          simp only [h2, if_false, Bool.false_eq_true]
          by_cases h3 : c = DQUOTE
          · subst h3
            simp only [if_true]
            simp only [readString_after hat]
            have hq : (lexToken L.errorCodeMap DQUOTE t (addLines L.line (newlines sk))).1
                = ⟨.STRCON, DQUOTE :: (splitString t).1, addLines L.line (newlines sk)⟩ := by
              unfold lexToken
              rw [if_neg h1, if_neg h2, if_pos rfl]
            rw [hq, diagnosticsOf_other _ _ (fun h => TokenType.noConfusion h)] at key
            exact key
          simp only [h3, if_false]
          rw [readOperatorOrDelimiter_after hat]
          have hq : lexToken L.errorCodeMap c t (addLines L.line (newlines sk))
              = lexOperator L.errorCodeMap c t (addLines L.line (newlines sk)) := by
            simp [lexToken, h1, h2, h3]
          rw [hq] at key
          exact key

/-- On every input the lenient `tokenize` returns: the cursor is at the end of the input, the
tokens are those of `lex` and the diagnostics are `diagnosticsOf` of the tokens. -/
theorem tokenize_after (input : Str) (map : List (Str × Str)) :
    MyCompiler.Lexer.tokenize (MyCompiler.Lexer.new input map)
      = some { input := input, pos := input.length, line := addLines 1 (newlines input),
               tokens := (lex map input 1).1,
               errors := diagnosticsOf map (lex map input 1).1,
               errorCodeMap := map } := by
  unfold MyCompiler.Lexer.tokenize
  have hat : (MyCompiler.Lexer.new input map).At input := Lexer.At.new input map
  rw [tokenizeLoop_after input.length input (Nat.le_refl _) _ _ hat
    (by simp [MyCompiler.Lexer.new])]
  simp [Lexer.after, MyCompiler.Lexer.new]

theorem lexOperator_tokens (m1 m2 : List (Str × Str)) (c : Char) (t : Str) (line : Int) :
    (lexOperator m1 c t line).1 = (lexOperator m2 c t line).1 ∧
      (lexOperator m1 c t line).2.2 = (lexOperator m2 c t line).2.2 := by
  unfold lexOperator
  split_ifs <;> first
    | exact ⟨rfl, rfl⟩
    | (cases LexicalAnalysis.singleCharKind c <;> exact ⟨rfl, rfl⟩)

theorem lexToken_tokens (m1 m2 : List (Str × Str)) (c : Char) (t : Str) (line : Int) :
    (lexToken m1 c t line).1 = (lexToken m2 c t line).1 ∧
      (lexToken m1 c t line).2.2 = (lexToken m2 c t line).2.2 := by
  unfold lexToken
  by_cases h1 : (isalpha c || decide (c = '_')) = true
  · rw [if_pos h1, if_pos h1]; exact ⟨rfl, rfl⟩
  rw [if_neg h1, if_neg h1]
  by_cases h2 : isdigit c = true
  · rw [if_pos h2, if_pos h2]; exact ⟨rfl, rfl⟩
  rw [if_neg h2, if_neg h2]
  by_cases h3 : c = DQUOTE
  · rw [if_pos h3, if_pos h3]; exact ⟨rfl, rfl⟩
  rw [if_neg h3, if_neg h3]
  exact lexOperator_tokens m1 m2 c t line

/-- The tokens of a scan do not depend on the error-code map. -/
theorem lex_tokens (m1 m2 : List (Str × Str)) (r : Str) (line : Int) :
    (lex m1 r line).1 = (lex m2 r line).1 := by
  apply lex_induction m1 (fun r line toks _ => toks = (lex m2 r line).1)
  · intro r line h
    rw [lex_nil m2 r line h]
  · intro r line c t h toks errs ih
    obtain ⟨e1, e2⟩ := lexToken_tokens m1 m2 c t (addLines line (newlines (splitSkip r).1))
    rw [lex_cons m2 r line c t h, ih, e1, e2]

theorem diagOf_codes (t : Token) : ∀ e ∈ diagOf t,
    e.2 = "a".toList ∨ e.2 = "b".toList ∨ e.2 = "c".toList ∨ e.2 = "d".toList := by
  intro e he
  unfold diagOf at he
  split_ifs at he <;> simp at he <;> subst he <;> simp

theorem diagnosticsOf_single (t : Token) :
    diagnosticsOf MyCompiler.initDefaultErrorMap [t]
        = ((diagOf t).filter (fun e => decide (e.2 = "a".toList) || decide (e.2 = "b".toList))).map
            (fun e => (e.1, "a".toList)) ∧
      diagnosticsOf LexicalAnalysis.initDefaultErrorMap [t]
        = (diagOf t).filter (fun e => decide (e.2 = "a".toList) || decide (e.2 = "b".toList)) := by
  unfold diagnosticsOf diagOf
  by_cases h : t.type = .UNKNOWN
  · by_cases ha : t.lexeme = "&".toList
    · simp only [h, ha, if_true, List.filter_cons, decide_True, Bool.true_and, Bool.true_or,
        List.filter_nil, List.map_cons, List.map_nil]
      exact ⟨rfl, rfl⟩
    · by_cases hb : t.lexeme = "|".toList
      · simp only [h, hb, if_true, List.filter_cons, decide_True, Bool.true_and, Bool.or_true,
          List.filter_nil, List.map_cons, List.map_nil]
        exact ⟨rfl, rfl⟩
      · simp only [h, ha, hb, if_true, if_false, List.filter_cons, decide_True, decide_False,
          Bool.true_and, Bool.or_false, List.filter_nil, List.map_nil]
        exact ⟨rfl, rfl⟩
  · simp only [h, decide_False, Bool.false_and, List.filter_cons, if_false, List.filter_nil,
      List.map_nil, Bool.false_eq_true]
    split_ifs <;> exact ⟨rfl, rfl⟩

theorem diagnosticsOf_flatMap (toks : List Token) :
    diagnosticsOf MyCompiler.initDefaultErrorMap toks
        = ((toks.flatMap diagOf).filter
            (fun e => decide (e.2 = "a".toList) || decide (e.2 = "b".toList))).map
            (fun e => (e.1, "a".toList)) ∧
      diagnosticsOf LexicalAnalysis.initDefaultErrorMap toks
        = (toks.flatMap diagOf).filter
            (fun e => decide (e.2 = "a".toList) || decide (e.2 = "b".toList)) := by
  induction toks with
  | nil => exact ⟨rfl, rfl⟩
  | cons t l ih =>
    rw [diagnosticsOf_cons MyCompiler.initDefaultErrorMap t l,
      diagnosticsOf_cons LexicalAnalysis.initDefaultErrorMap t l, List.flatMap_cons,
      List.filter_append, List.map_append, (diagnosticsOf_single t).1,
      (diagnosticsOf_single t).2, ih.1, ih.2]
    exact ⟨rfl, rfl⟩

/-- C15 as stated fails: on the one-byte input `|` the canonical engine records only the
diagnostic (1, `b`), which is neither `illegal_char` nor `unterminated_string`, and the
lenient engine records (1, `a`). -/
theorem C15_same_diagnostics_counterexample :
    ¬ (∀ (input : Str) (Lc Ll : Lexer),
        (LexicalAnalysis.Lexer.new input LexicalAnalysis.initDefaultErrorMap).tokenize = some Lc →
        MyCompiler.Lexer.tokenize (MyCompiler.Lexer.new input MyCompiler.initDefaultErrorMap)
          = some Ll →
        (∀ e ∈ Lc.errors, e.2 ≠ "c".toList ∧ e.2 ≠ "d".toList) →
        Ll.errors = Lc.errors) := by
  intro h
  have h1 := h ['|'] _ _ rfl rfl (by decide)
  revert h1
  decide

/-- C15, amended. On every input both engines terminate. When the canonical engine, with its
default map, has recorded no `illegal_char` (`d`) and no `unterminated_string` (`c`)
diagnostic, the lenient engine with its default map has recorded diagnostics on the same
lines in the same order, each with the code `a` (where the canonical code is `a` for a single
`&` and `b` for a single `|`); and the lenient engine run with the canonical default map has
recorded exactly the canonical sequence. In general the lenient diagnostics are the canonical
diagnostics with code `a` or `b`, in order. -/
theorem C15_diagnostics_of_both_engines (input : Str) :
    ∃ Lc Ll Lm,
      (LexicalAnalysis.Lexer.new input LexicalAnalysis.initDefaultErrorMap).tokenize = some Lc ∧
      MyCompiler.Lexer.tokenize (MyCompiler.Lexer.new input MyCompiler.initDefaultErrorMap)
        = some Ll ∧
      MyCompiler.Lexer.tokenize (MyCompiler.Lexer.new input LexicalAnalysis.initDefaultErrorMap)
        = some Lm ∧
      Ll.errors = (Lc.errors.filter
          (fun e => decide (e.2 = "a".toList) || decide (e.2 = "b".toList))).map
          (fun e => (e.1, "a".toList)) ∧
      Lm.errors = Lc.errors.filter
          (fun e => decide (e.2 = "a".toList) || decide (e.2 = "b".toList)) ∧
      ((∀ e ∈ Lc.errors, e.2 ≠ "c".toList ∧ e.2 ≠ "d".toList) →
        Ll.errors = Lc.errors.map (fun e => (e.1, "a".toList)) ∧
        Ll.errors.map Prod.fst = Lc.errors.map Prod.fst ∧
        Lm.errors = Lc.errors) := by
  refine ⟨_, _, _, tokenize_eq _ _, tokenize_after _ _, tokenize_after _ _, ?_, ?_, ?_⟩
  · simp only
    rw [lex_tokens MyCompiler.initDefaultErrorMap LexicalAnalysis.initDefaultErrorMap input 1,
      lex_diag input 1]
    exact (diagnosticsOf_flatMap _).1
  · simp only
    rw [lex_diag input 1]
    exact (diagnosticsOf_flatMap _).2
  · intro h
    simp only at h ⊢
    rw [lex_tokens MyCompiler.initDefaultErrorMap LexicalAnalysis.initDefaultErrorMap input 1,
      (diagnosticsOf_flatMap _).1, (diagnosticsOf_flatMap _).2]
    rw [lex_diag input 1] at h ⊢
    have hf : ((lex LexicalAnalysis.initDefaultErrorMap input 1).1.flatMap diagOf).filter
        (fun e => decide (e.2 = "a".toList) || decide (e.2 = "b".toList))
        = (lex LexicalAnalysis.initDefaultErrorMap input 1).1.flatMap diagOf := by
      apply List.filter_eq_self.mpr
      intro e he
      obtain ⟨t, _, het⟩ := List.mem_flatMap.mp he
      have hc := diagOf_codes t e het
      have hn := h e he
      rcases hc with hc | hc | hc | hc
      · simp [hc]
      · simp [hc]
      · exact absurd hc hn.1
      · exact absurd hc hn.2
    rw [hf]
    exact ⟨rfl, by simp [List.map_map, Function.comp_def], rfl⟩

theorem C15_diagnostics_of_both_engines_witness :
    ∃ Lc Ll,
      (LexicalAnalysis.Lexer.new "x | & y".toList LexicalAnalysis.initDefaultErrorMap).tokenize
        = some Lc ∧
      MyCompiler.Lexer.tokenize
        (MyCompiler.Lexer.new "x | & y".toList MyCompiler.initDefaultErrorMap) = some Ll ∧
      Lc.errors = [(1, "b".toList), (1, "a".toList)] ∧
      Ll.errors = Lc.errors.map (fun e => (e.1, "a".toList)) := by
  obtain ⟨Lc, Ll, Lm, h1, h2, _, _, _, h3⟩ := C15_diagnostics_of_both_engines "x | & y".toList
  have hL : (LexicalAnalysis.Lexer.new "x | & y".toList
      LexicalAnalysis.initDefaultErrorMap).tokenize
      = some ⟨"x | & y".toList, 7, 1,
          [⟨.IDENFR, "x".toList, 1⟩, ⟨.UNKNOWN, "|".toList, 1⟩, ⟨.UNKNOWN, "&".toList, 1⟩,
            ⟨.IDENFR, "y".toList, 1⟩],
          [(1, "b".toList), (1, "a".toList)], LexicalAnalysis.initDefaultErrorMap⟩ := by
    decide
  rw [hL] at h1
  cases h1
  exact ⟨_, Ll, hL, h2, rfl, (h3 (by decide)).1⟩

/-- C18. Same tokens in both engines: on every input, and with any error-code maps, the
canonical engine and the lenient engine both terminate, with the identical token sequence
(kinds, lexemes and lines, in order) and the same final offset and line; only the diagnostic
sequences can differ. -/
theorem C18_same_tokens (input : Str) (mapC mapL : List (Str × Str)) :
    ∃ Lc Ll,
      (LexicalAnalysis.Lexer.new input mapC).tokenize = some Lc ∧
      MyCompiler.Lexer.tokenize (MyCompiler.Lexer.new input mapL) = some Ll ∧
      Ll.tokens = Lc.tokens ∧ Ll.pos = Lc.pos ∧ Ll.line = Lc.line ∧ Ll.input = Lc.input :=
  ⟨_, _, tokenize_eq _ _, tokenize_after _ _, lex_tokens mapL mapC input 1, rfl, rfl, rfl⟩

end MyCompiler
